import Mathlib

/-!
# CPU scheduling simulator: FCFS, SJF and Round Robin

A shallow embedding of `src/cpu.cpp`.  A `vector<Process>` is a `List Process`, a
`vector<bool>` a `List Bool`, the `queue<int>` a `List Nat` whose head is the front; loop
counters and indices are naturals.  The two `while` loops are iterated with an explicit
step budget.  The library call `std::sort` is a parameter `srt` of the engines that use
it, bound by the contract `SortsByArrival`; `sortByArrival` is the insertion sort the
library runs on short vectors.

The C++ `int` fields are integers (`Int`).  Each engine is embedded twice.  `fcfs`, `sjf`
and `roundRobin` compute in exact arithmetic: they describe the program as long as no
`int` computation leaves the range of a 32-bit `int`.  `fcfs32`, `sjf32` and
`roundRobin32` reduce every sum and difference with `wrapInt`, as the compiled program
does, and are the program on every input; `main` calls these.  On valid inputs whose
latest arrival plus the sum of all bursts fits in an `int` the two embeddings of `fcfs`
and of `sjf` agree (`fcfs32_eq_fcfs`, `sjf32_eq_sjf`).
-/

namespace CPUScheduler

/-- One simulated task: the fields of `struct Process`, in declaration order. -/
structure Process where
  id : Int
  arrivalTime : Int
  burstTime : Int
  remainingTime : Int
  completionTime : Int
  turnAroundTime : Int
  waitingTime : Int
  deriving DecidableEq, Repr, Inhabited

/-- The record `main` builds for the process read at position `i` (id `i + 1`),
`remainingTime` set to the burst, the other fields value-initialised to zero. -/
def mkProcess (id arrival burst : Int) : Process :=
  { id := id, arrivalTime := arrival, burstTime := burst, remainingTime := burst,
    completionTime := 0, turnAroundTime := 0, waitingTime := 0 }

/-- The comparator `compareArrival a b`: strictly earlier arrival. -/
def compareArrival (a b : Process) : Bool :=
  decide (a.arrivalTime < b.arrivalTime)

/-- The order `a` may stay in front of `b` under `compareArrival`: `b` is not strictly
earlier than `a`. -/
def arrivalLE (a b : Process) : Prop :=
  compareArrival b a = false

instance : DecidableRel arrivalLE := fun a b =>
  inferInstanceAs (Decidable (compareArrival b a = false))

instance : IsTotal Process arrivalLE :=
  ⟨fun a b => by
    unfold arrivalLE compareArrival
    simp only [decide_eq_false_iff_not, not_lt]
    exact le_total _ _⟩

instance : IsTrans Process arrivalLE :=
  ⟨fun a b c => by
    unfold arrivalLE compareArrival
    simp only [decide_eq_false_iff_not, not_lt]
    exact le_trans⟩

/-- The contract of the library call `sort(p.begin(), p.end(), compareArrival)`: the
result is a rearrangement of the vector in which no process is strictly earlier than one
in front of it.  The relative order of processes with equal arrival time is left to the
library, so the engines take the sort as a parameter `srt` bound only by this contract. -/
def SortsByArrival (srt : List Process → List Process) : Prop :=
  ∀ l, (srt l).Perm l ∧ (srt l).Sorted arrivalLE

/-- The insertion sort that `std::sort` runs on short ranges: an element moves in front of
exactly those elements that `compareArrival` puts strictly after it, so processes with
equal arrival time keep their input order.  It is the instance of the library sort on
which the engines are evaluated on concrete short vectors. -/
def sortByArrival (p : List Process) : List Process :=
  p.insertionSort arrivalLE

/-- The three assignments that close a process which completes at `completion`:
`completionTime`, then `turnAroundTime`, then `waitingTime`. -/
def finish (x : Process) (completion : Int) : Process :=
  { x with
    completionTime := completion
    turnAroundTime := completion - x.arrivalTime
    waitingTime := completion - x.arrivalTime - x.burstTime }

/-! ### FCFS -/

/-- The `for` loop of `fcfs` over the (sorted) vector, from clock value `currentTime`. -/
def fcfsLoop : List Process → Int → List Process
  | [], _ => []
  | x :: rest, currentTime =>
    let start := if currentTime < x.arrivalTime then x.arrivalTime else currentTime
    finish x (start + x.burstTime) :: fcfsLoop rest (start + x.burstTime)

/-- The vector `fcfs` hands to `displayResults`; `srt` is the library sort. -/
def fcfs (srt : List Process → List Process) (p : List Process) : List Process :=
  fcfsLoop (srt p) 0

/-! ### SJF -/

/-- Loop state of `sjf`. -/
structure SjfState where
  p : List Process
  isCompleted : List Bool
  completed : Nat
  currentTime : Int
  deriving DecidableEq, Repr

/-- The sentinel `int minBurst = 1e9`. -/
def minBurstInit : Int := 1000000000

/-- One iteration of the inner `for` of `sjf` at index `i`; the accumulator is
`(idx, minBurst)`, with `none` for `idx == -1`. -/
def sjfScanStep (p : List Process) (isCompleted : List Bool) (currentTime : Int)
    (acc : Option Nat × Int) (i : Nat) : Option Nat × Int :=
  if (p.getD i default).arrivalTime ≤ currentTime ∧ isCompleted.getD i false = false then
    if (p.getD i default).burstTime < acc.2 then ((some i), (p.getD i default).burstTime)
    else acc
  else acc

/-- The inner `for (i = 0; i < n; i++)` of `sjf`: the final `(idx, minBurst)`. -/
def sjfScan (p : List Process) (isCompleted : List Bool) (currentTime : Int) :
    Option Nat × Int :=
  (List.range p.length).foldl (sjfScanStep p isCompleted currentTime) (none, minBurstInit)

/-- The body of the `while` loop of `sjf`. -/
def sjfStep (s : SjfState) : SjfState :=
  match (sjfScan s.p s.isCompleted s.currentTime).1 with
  | some idx =>
    let x := s.p.getD idx default
    { p := s.p.set idx (finish x (s.currentTime + x.burstTime))
      isCompleted := s.isCompleted.set idx true
      completed := s.completed + 1
      currentTime := s.currentTime + x.burstTime }
  | none => { s with currentTime := s.currentTime + 1 }

/-- The `while (completed != n)` loop of `sjf`, at most `fuel` iterations; `none` when the
loop is still running after `fuel` iterations. -/
def sjfLoop : Nat → SjfState → Option SjfState
  | 0, s => if s.completed = s.p.length then some s else none
  | fuel + 1, s => if s.completed = s.p.length then some s else sjfLoop fuel (sjfStep s)

/-- State of `sjf` on entry to its loop. -/
def sjfInit (p : List Process) : SjfState :=
  { p := p, isCompleted := List.replicate p.length false, completed := 0, currentTime := 0 }

/-- The vector `sjf` hands to `displayResults`, when the loop ends within `fuel`
iterations. -/
def sjf (fuel : Nat) (p : List Process) : Option (List Process) :=
  (sjfLoop fuel (sjfInit p)).map SjfState.p

/-! ### Round Robin -/

/-- Loop state of `roundRobin`. -/
structure RRState where
  p : List Process
  readyQueue : List Nat
  mark : List Bool
  currentTime : Int
  completed : Nat
  deriving DecidableEq, Repr

/-- One iteration of the admission `for` at index `j`; the accumulator is
`(readyQueue, mark)`. -/
def rrAdmitStep (p : List Process) (currentTime : Int) (acc : List Nat × List Bool)
    (j : Nat) : List Nat × List Bool :=
  if acc.2.getD j true = false ∧ (p.getD j default).arrivalTime ≤ currentTime then
    (acc.1 ++ [j], acc.2.set j true)
  else acc

/-- The admission sweep `for (j = 0; j < n; j++)` of `roundRobin`. -/
def rrAdmit (p : List Process) (currentTime : Int) (readyQueue : List Nat)
    (mark : List Bool) : List Nat × List Bool :=
  (List.range p.length).foldl (rrAdmitStep p currentTime) (readyQueue, mark)

/-- The idle-gap block: when the queue is empty and work remains, the first unmarked
index (if any) is pushed and marked and the clock is set to its arrival time. -/
def rrIdle (s : RRState) : RRState :=
  if s.readyQueue.isEmpty ∧ s.completed ≠ s.p.length then
    match (List.range s.p.length).find? (fun j => s.mark.getD j true = false) with
    | some j =>
      { s with
        readyQueue := s.readyQueue ++ [j]
        mark := s.mark.set j true
        currentTime := (s.p.getD j default).arrivalTime }
    | none => s
  else s

/-- The body of the `while` loop of `roundRobin`; `none` when `front()` would be called
on an empty queue or the index read from it is outside the vector. -/
def rrStep (quantum : Int) (s : RRState) : Option RRState :=
  match s.readyQueue with
  | [] => none
  | i :: rest =>
    if i < s.p.length then
      let x := s.p.getD i default
      let execute := min x.remainingTime quantum
      let x1 := { x with remainingTime := x.remainingTime - execute }
      let p1 := s.p.set i x1
      let time1 := s.currentTime + execute
      let qm := rrAdmit p1 time1 rest s.mark
      if 0 < x1.remainingTime then
        some (rrIdle { p := p1, readyQueue := qm.1 ++ [i], mark := qm.2,
                       currentTime := time1, completed := s.completed })
      else
        some (rrIdle { p := p1.set i (finish x1 time1), readyQueue := qm.1, mark := qm.2,
                       currentTime := time1, completed := s.completed + 1 })
    else none

/-- The `while (completed != n)` loop of `roundRobin`, at most `fuel` iterations. -/
def rrLoop (quantum : Int) : Nat → RRState → Option RRState
  | 0, s => if s.completed = s.p.length then some s else none
  | fuel + 1, s =>
    if s.completed = s.p.length then some s
    else (rrStep quantum s).bind (rrLoop quantum fuel)

/-- State of `roundRobin` on entry to its loop: the vector sorted by the library sort
`srt`, index 0 pushed and marked.  `none` for an empty vector, where `mark[0]` does not
exist. -/
def rrInit (srt : List Process → List Process) (p : List Process) : Option RRState :=
  if p.length = 0 then none
  else some { p := srt p, readyQueue := [0],
              mark := (List.replicate p.length false).set 0 true,
              currentTime := 0, completed := 0 }

/-- The vector `roundRobin` hands to `displayResults`, when the loop ends within `fuel`
iterations; `srt` is the library sort. -/
def roundRobin (srt : List Process → List Process) (fuel : Nat) (p : List Process)
    (quantum : Int) : Option (List Process) :=
  ((rrInit srt p).bind (rrLoop quantum fuel)).map RRState.p


/-! ### Predicates used by the statements -/

/-- The metrics relations of a finished record: it completes no earlier than arrival plus
burst, turnaround is waiting plus burst, and the waiting time is not negative. -/
def MetricsOK (x : Process) : Prop :=
  x.arrivalTime + x.burstTime ≤ x.completionTime ∧
    x.turnAroundTime = x.waitingTime + x.burstTime ∧ 0 ≤ x.waitingTime

instance : DecidablePred MetricsOK := fun _ =>
  inferInstanceAs (Decidable (_ ∧ _ ∧ _))

/-- Index `i` is a candidate of the `sjf` scan at clock `t`: arrived and not completed. -/
def SjfCand (p : List Process) (isCompleted : List Bool) (t : Int) (i : Nat) : Prop :=
  (p.getD i default).arrivalTime ≤ t ∧ isCompleted.getD i false = false

/-- The invariant of the `sjf` loop on input `p0`: the vectors keep their length, the
counter is the number of set flags, an unflagged record is still the input record, and a
flagged record is the input record closed at a completion time no earlier than arrival
plus burst. -/
structure SjfInv (p0 : List Process) (s : SjfState) : Prop where
  len_p : s.p.length = p0.length
  len_ic : s.isCompleted.length = p0.length
  count : s.completed = s.isCompleted.count true
  pending : ∀ i < p0.length, s.isCompleted.getD i false = false →
    s.p.getD i default = p0.getD i default
  done : ∀ i < p0.length, s.isCompleted.getD i false = true →
    ∃ c, (p0.getD i default).arrivalTime + (p0.getD i default).burstTime ≤ c ∧
      s.p.getD i default = finish (p0.getD i default) c

/-- The latest arrival time of the vector (0 for an empty one). -/
def maxArrival (p : List Process) : Int :=
  p.foldr (fun x m => max x.arrivalTime m) 0

/-- Index `j` is admitted by an admission sweep at clock `t` over marks `mark`: not yet
marked and arrived. -/
def RRNew (p : List Process) (mark : List Bool) (t : Int) (j : Nat) : Prop :=
  mark.getD j true = false ∧ (p.getD j default).arrivalTime ≤ t

instance (p : List Process) (mark : List Bool) (t : Int) : DecidablePred (RRNew p mark t) :=
  fun _ => inferInstanceAs (Decidable (_ ∧ _))

/-- The invariant of the `roundRobin` loop: the mark vector is as long as the process
vector; the ready queue holds no index twice; every queued index is in range, marked and
has service left; every marked index is queued or has no service left; every unmarked
index has service left; and the counter is the number of records with no service left. -/
structure RRInv (s : RRState) : Prop where
  len_mark : s.mark.length = s.p.length
  queue_nodup : s.readyQueue.Nodup
  queue_ok : ∀ i ∈ s.readyQueue,
    i < s.p.length ∧ s.mark.getD i true = true ∧ 0 < (s.p.getD i default).remainingTime
  marked : ∀ i < s.p.length, s.mark.getD i true = true →
    i ∈ s.readyQueue ∨ (s.p.getD i default).remainingTime = 0
  unmarked : ∀ i < s.p.length, s.mark.getD i true = false →
    0 < (s.p.getD i default).remainingTime
  count : s.completed = s.p.countP (fun x => decide (x.remainingTime = 0))

/-- The service still owed to the processes of the vector, summed. -/
def remTotal (p : List Process) : Nat :=
  (p.map (fun x => x.remainingTime.toNat)).sum

/-- The index whose completion branch (`completed++`) the loop iteration from `s` takes,
if it takes it: the front of the queue, when the iteration raises the counter. -/
def rrCompletedAt (quantum : Int) (s : RRState) : Option Nat :=
  match s.readyQueue.head?, rrStep quantum s with
  | some i, some s' => if s'.completed = s.completed + 1 then some i else none
  | _, _ => none

/-- The indices completed by the successive iterations of the `roundRobin` loop from `s`,
in order, over at most `fuel` iterations. -/
def rrCompletionLog (quantum : Int) : Nat → RRState → List Nat
  | 0, _ => []
  | fuel + 1, s =>
    if s.completed = s.p.length then []
    else
      match rrStep quantum s with
      | none => []
      | some s' => (rrCompletedAt quantum s).toList ++ rrCompletionLog quantum fuel s'

/-- The record of the front process after its slice: `remainingTime` lowered by
`min(remainingTime, quantum)`. -/
def rrSlice (quantum : Int) (x : Process) : Process :=
  { x with remainingTime := x.remainingTime - min x.remainingTime quantum }

/-- The processes of the vector that arrive at time `a`, in vector order. -/
def arrivingAt (a : Int) (p : List Process) : List Process :=
  p.filter (fun x => decide (x.arrivalTime = a))

/-- The order "earlier arrival, ties by ascending id" of the reference schedule. -/
def arrivalThenIdLE (a b : Process) : Prop :=
  a.arrivalTime < b.arrivalTime ∨ (a.arrivalTime = b.arrivalTime ∧ a.id ≤ b.id)

instance : DecidableRel arrivalThenIdLE := fun _ _ =>
  inferInstanceAs (Decidable (_ ∨ _))

/-- The reference schedule of the specification: the processes run first-come-first-serve
in ascending arrival order with ties broken by ascending id. -/
def fcfsByArrivalThenId (p : List Process) : List Process :=
  fcfsLoop (p.insertionSort arrivalThenIdLE) 0

/-- The state of the `sjf` loop in which the records `done` at the front of the vector are
completed, the records `todo` behind them are not, and the clock shows `t`. -/
def sjfAfter (done todo : List Process) (t : Int) : SjfState :=
  { p := done ++ todo
    isCompleted := List.replicate done.length true ++ List.replicate todo.length false
    completed := done.length
    currentTime := t }

/-- The execution intervals `[completionTime - burstTime, completionTime)` of two finished
records do not overlap: one ends no later than the other starts. -/
def NoOverlap (a b : Process) : Prop :=
  a.completionTime ≤ b.completionTime - b.burstTime ∨
    b.completionTime ≤ a.completionTime - a.burstTime

instance : DecidableRel NoOverlap := fun _ _ =>
  inferInstanceAs (Decidable (_ ∨ _))

/-- The schedule facts of the `sjf` loop: every completed record ended no later than the
clock shows, and the execution intervals of two completed records do not overlap. -/
structure SjfSched (s : SjfState) : Prop where
  past : ∀ i < s.p.length, s.isCompleted.getD i false = true →
    (s.p.getD i default).completionTime ≤ s.currentTime
  apart : ∀ i < s.p.length, ∀ j < s.p.length, i ≠ j →
    s.isCompleted.getD i false = true → s.isCompleted.getD j false = true →
    NoOverlap (s.p.getD i default) (s.p.getD j default)

/-- The loop body of `roundRobin` up to, and without, the idle-gap block: the slice of the
front process, the admission sweep, and its re-queue or completion. -/
def rrBody (quantum : Int) (s : RRState) : Option RRState :=
  match s.readyQueue with
  | [] => none
  | i :: rest =>
    if i < s.p.length then
      let x := s.p.getD i default
      let execute := min x.remainingTime quantum
      let x1 := { x with remainingTime := x.remainingTime - execute }
      let p1 := s.p.set i x1
      let time1 := s.currentTime + execute
      let qm := rrAdmit p1 time1 rest s.mark
      if 0 < x1.remainingTime then
        some { p := p1, readyQueue := qm.1 ++ [i], mark := qm.2,
               currentTime := time1, completed := s.completed }
      else
        some { p := p1.set i (finish x1 time1), readyQueue := qm.1, mark := qm.2,
               currentTime := time1, completed := s.completed + 1 }
    else none

/-- The state at the head of iteration `k` of the `roundRobin` loop started in `s`, that
is after `k` runs of the loop body; `none` when the loop has ended before, or a step is
not defined. -/
def rrAfter (quantum : Int) : Nat → RRState → Option RRState
  | 0, s => some s
  | k + 1, s =>
    if s.completed = s.p.length then none
    else (rrStep quantum s).bind (rrAfter quantum k)

/-- The fields of a record that no engine writes: id, arrival time and burst. -/
def staticOf (x : Process) : Int × Int × Int :=
  (x.id, x.arrivalTime, x.burstTime)

/-- One execution slice: the index of the process that ran, the units it was granted and
the clock value at the end of the slice. -/
structure Slice where
  index : Nat
  units : Int
  endTime : Int
  deriving DecidableEq, Repr

/-- The slice the loop iteration from `s` grants: the front index runs for
`min(remainingTime, quantum)` units from the current clock value. -/
def rrSliceAt (quantum : Int) (s : RRState) : Option Slice :=
  match s.readyQueue with
  | [] => none
  | i :: _ =>
    some { index := i
           units := min (s.p.getD i default).remainingTime quantum
           endTime := s.currentTime + min (s.p.getD i default).remainingTime quantum }

/-- The slices granted by the successive iterations of the `roundRobin` loop from `s`, in
order, over at most `fuel` iterations. -/
def rrSliceLog (quantum : Int) : Nat → RRState → List Slice
  | 0, _ => []
  | fuel + 1, s =>
    if s.completed = s.p.length then []
    else
      match rrStep quantum s with
      | none => []
      | some s' => (rrSliceAt quantum s).toList ++ rrSliceLog quantum fuel s'

/-- The indices the loop iteration from `s` admits (pushes and marks, in the sweep or in
the idle-gap block): those whose mark the iteration sets. -/
def rrAdmittedAt (quantum : Int) (s : RRState) : List Nat :=
  match rrStep quantum s with
  | none => []
  | some s' =>
    (List.range s.p.length).filter
      (fun j => s.mark.getD j true = false ∧ s'.mark.getD j true = true)

/-- The indices admitted by the successive iterations of the `roundRobin` loop from `s`,
in order, over at most `fuel` iterations. -/
def rrAdmissionLog (quantum : Int) : Nat → RRState → List Nat
  | 0, _ => []
  | fuel + 1, s =>
    if s.completed = s.p.length then []
    else
      match rrStep quantum s with
      | none => []
      | some s' => rrAdmittedAt quantum s ++ rrAdmissionLog quantum fuel s'

/-- Seventeen processes that all arrive at time 0 with burst 1, ids 1 to 17 in input
order. -/
def seventeenAtZero : List Process :=
  [mkProcess 1 0 1, mkProcess 2 0 1, mkProcess 3 0 1, mkProcess 4 0 1, mkProcess 5 0 1,
   mkProcess 6 0 1, mkProcess 7 0 1, mkProcess 8 0 1, mkProcess 9 0 1,
   mkProcess 10 0 1, mkProcess 11 0 1, mkProcess 12 0 1, mkProcess 13 0 1,
   mkProcess 14 0 1, mkProcess 15 0 1, mkProcess 16 0 1, mkProcess 17 0 1]

/-- The arrangement in which `std::sort` of libstdc++ (GCC 12) leaves `seventeenAtZero`
under `compareArrival`: a range of more than 16 elements is first partitioned around a
median-of-three pivot by swapping elements from both ends, equal ones included. -/
def seventeenAsSorted : List Process :=
  [mkProcess 9 0 1, mkProcess 17 0 1, mkProcess 16 0 1, mkProcess 15 0 1,
   mkProcess 14 0 1, mkProcess 13 0 1, mkProcess 12 0 1, mkProcess 11 0 1,
   mkProcess 10 0 1, mkProcess 1 0 1, mkProcess 8 0 1, mkProcess 7 0 1,
   mkProcess 6 0 1, mkProcess 5 0 1, mkProcess 4 0 1, mkProcess 3 0 1, mkProcess 2 0 1]

/-! ### The engines in 32-bit `int` arithmetic -/

/-- The value an `int` variable holds after a computation whose exact result is `x`: the
representative of `x` modulo `2^32` in the range `-2^31 .. 2^31 - 1` of a 32-bit
two's-complement `int`.  The language leaves a signed overflow undefined; the compiled
program wraps. -/
def wrapInt (x : Int) : Int :=
  (x + 2147483648) % 4294967296 - 2147483648

/-- The three assignments that close a process which completes at `completion`, each
difference computed in `int`: `completionTime`, then `turnAroundTime` from it, then
`waitingTime` from the turnaround. -/
def finish32 (x : Process) (completion : Int) : Process :=
  { x with
    completionTime := completion
    turnAroundTime := wrapInt (completion - x.arrivalTime)
    waitingTime := wrapInt (wrapInt (completion - x.arrivalTime) - x.burstTime) }

/-- The `for` loop of `fcfs` over the (sorted) vector, from clock value `currentTime`, with
`currentTime + p[i].burstTime` computed in `int`. -/
def fcfsLoop32 : List Process → Int → List Process
  | [], _ => []
  | x :: rest, currentTime =>
    let start := if currentTime < x.arrivalTime then x.arrivalTime else currentTime
    finish32 x (wrapInt (start + x.burstTime)) :: fcfsLoop32 rest (wrapInt (start + x.burstTime))

/-- The vector `fcfs` hands to `displayResults`, in `int` arithmetic; `srt` is the library
sort. -/
def fcfs32 (srt : List Process → List Process) (p : List Process) : List Process :=
  fcfsLoop32 (srt p) 0

/-- The body of the `while` loop of `sjf` in `int` arithmetic: the scan compares only, the
sums `currentTime + p[idx].burstTime` and `currentTime++` wrap. -/
def sjfStep32 (s : SjfState) : SjfState :=
  match (sjfScan s.p s.isCompleted s.currentTime).1 with
  | some idx =>
    let x := s.p.getD idx default
    { p := s.p.set idx (finish32 x (wrapInt (s.currentTime + x.burstTime)))
      isCompleted := s.isCompleted.set idx true
      completed := s.completed + 1
      currentTime := wrapInt (s.currentTime + x.burstTime) }
  | none => { s with currentTime := wrapInt (s.currentTime + 1) }

/-- The `while (completed != n)` loop of `sjf` in `int` arithmetic, at most `fuel`
iterations; `none` when the loop is still running after `fuel` iterations. -/
def sjfLoop32 : Nat → SjfState → Option SjfState
  | 0, s => if s.completed = s.p.length then some s else none
  | fuel + 1, s => if s.completed = s.p.length then some s else sjfLoop32 fuel (sjfStep32 s)

/-- The vector `sjf` hands to `displayResults` in `int` arithmetic, when the loop ends
within `fuel` iterations. -/
def sjf32 (fuel : Nat) (p : List Process) : Option (List Process) :=
  (sjfLoop32 fuel (sjfInit p)).map SjfState.p

/-- The body of the `while` loop of `roundRobin` in `int` arithmetic: the updates
`remainingTime -= execute` and `currentTime += execute` wrap; `none` when `front()` would
be called on an empty queue or the index read from it is outside the vector. -/
def rrStep32 (quantum : Int) (s : RRState) : Option RRState :=
  match s.readyQueue with
  | [] => none
  | i :: rest =>
    if i < s.p.length then
      let x := s.p.getD i default
      let execute := min x.remainingTime quantum
      let x1 := { x with remainingTime := wrapInt (x.remainingTime - execute) }
      let p1 := s.p.set i x1
      let time1 := wrapInt (s.currentTime + execute)
      let qm := rrAdmit p1 time1 rest s.mark
      if 0 < x1.remainingTime then
        some (rrIdle { p := p1, readyQueue := qm.1 ++ [i], mark := qm.2,
                       currentTime := time1, completed := s.completed })
      else
        some (rrIdle { p := p1.set i (finish32 x1 time1), readyQueue := qm.1, mark := qm.2,
                       currentTime := time1, completed := s.completed + 1 })
    else none

/-- How a call of an engine stands after a budget of loop iterations: it has returned,
having handed a value on; or it has made an access that the language leaves undefined
(`mark[0]` of an empty vector, `front()` of an empty queue); or it is still in its loop. -/
inductive Outcome (α : Type) where
  | returned (a : α)
  | undefinedAccess
  | running
  deriving DecidableEq, Repr

/-- The `while (completed != n)` loop of `roundRobin` in `int` arithmetic, at most `fuel`
iterations. -/
def rrLoop32 (quantum : Int) : Nat → RRState → Outcome RRState
  | 0, s => if s.completed = s.p.length then Outcome.returned s else Outcome.running
  | fuel + 1, s =>
    if s.completed = s.p.length then Outcome.returned s
    else
      match rrStep32 quantum s with
      | none => Outcome.undefinedAccess
      | some s' => rrLoop32 quantum fuel s'

/-- The call `roundRobin(p, quantum)` in `int` arithmetic over at most `fuel` loop
iterations: on return, the vector handed to `displayResults`.  With an empty vector the
entry code writes `mark[0]`, which does not exist. -/
def roundRobin32 (srt : List Process → List Process) (fuel : Nat) (p : List Process)
    (quantum : Int) : Outcome (List Process) :=
  match rrInit srt p with
  | none => Outcome.undefinedAccess
  | some s0 =>
    match rrLoop32 quantum fuel s0 with
    | Outcome.returned s => Outcome.returned s.p
    | Outcome.undefinedAccess => Outcome.undefinedAccess
    | Outcome.running => Outcome.running

/-- The service the `sjf` loop still has to grant: the bursts of the records whose flag is
not set, summed. -/
def pendingBurst : List Process → List Bool → Int
  | x :: p, b :: ic => (if b then 0 else x.burstTime) + pendingBurst p ic
  | _, _ => 0

/-! ### The program -/

/-- The vector `main` builds for the count `n` it reads: `vector<Process> p(n)`, filled by
the loop `for (i = 0; i < n; i++)` with id `i + 1` and the `i`-th pair (arrival, burst) of
the input, `rows i`. -/
def readProcesses (n : Int) (rows : Nat → Int × Int) : List Process :=
  (List.range n.toNat).map (fun (i : Nat) => mkProcess ((i : Int) + 1) (rows i).1 (rows i).2)

/-- The run of `main` on the count `n`, the pairs `rows` and the quantum read from the
input, each engine loop given `fuel` iterations; `capacity` is the largest number of
records the allocator grants.  `none`: the constructor `vector<Process> p(n)` throws
(`n < 0` converts to a size above `max_size()`; a size above `capacity` cannot be
allocated), so no engine is called.  Otherwise the calls `main` makes, in order, each with
its title and how it stands: `fcfs(p)`, which always returns; then `sjf(p)`; then, once
`sjf` has returned, `roundRobin(p, quantum)`.  A call that has not returned is the last of
the run.  `main` has no other path: it tests neither `n` nor a burst nor the quantum. -/
def main (srt : List Process → List Process) (capacity fuel : Nat) (n : Int)
    (rows : Nat → Int × Int) (quantum : Int) :
    Option (List (String × Outcome (List Process))) :=
  if n < 0 ∨ capacity < n.toNat then none
  else
    some (("FCFS", Outcome.returned (fcfs32 srt (readProcesses n rows))) ::
      match sjf32 fuel (readProcesses n rows) with
      | none => [("SJF", Outcome.running)]
      | some r =>
        [("SJF", Outcome.returned r),
         ("Round Robin", roundRobin32 srt fuel (readProcesses n rows) quantum)])

/-- The range facts of the `sjf` loop on input `p0`: the clock is not negative, and the
clock, like the latest arrival, leaves room below `2^31` for the bursts still to be
served. -/
structure SjfRange (p0 : List Process) (s : SjfState) : Prop where
  lo : 0 ≤ s.currentTime
  hi : s.currentTime + pendingBurst p0 s.isCompleted ≤ 2147483647
  arr : maxArrival p0 + pendingBurst p0 s.isCompleted ≤ 2147483647

/-! ### List bookkeeping -/

theorem getD_set_eq {α : Type} (l : List α) (i : Nat) (a d : α) (h : i < l.length) :
    (l.set i a).getD i d = a := by
  simp [List.getD_eq_getElem?_getD, List.getElem?_set, h]

theorem getD_set_of_ne {α : Type} (l : List α) {i j : Nat} (a d : α) (h : i ≠ j) :
    (l.set i a).getD j d = l.getD j d := by
  simp [List.getD_eq_getElem?_getD, List.getElem?_set, h]

theorem getD_mem {α : Type} (l : List α) {i : Nat} (d : α) (h : i < l.length) :
    l.getD i d ∈ l := by
  rw [List.getD_eq_getElem l d h]
  exact List.getElem_mem h

theorem exists_getD_of_mem {α : Type} {l : List α} {x : α} (d : α) (h : x ∈ l) :
    ∃ i, i < l.length ∧ l.getD i d = x := by
  obtain ⟨i, hi, hx⟩ := List.mem_iff_getElem.mp h
  exact ⟨i, hi, by rw [List.getD_eq_getElem l d hi]; exact hx⟩

/-- Setting a cleared flag raises the number of set flags by one. -/
theorem count_set_true (l : List Bool) (i : Nat) (h : i < l.length)
    (hf : l.getD i false = false) : (l.set i true).count true = l.count true + 1 := by
  rw [List.count_set true true l i h]
  rw [List.getD_eq_getElem l false h] at hf
  simp [hf]

/-- Fewer set flags than entries: some entry is cleared. -/
theorem exists_false_of_count_lt (l : List Bool) (h : l.count true < l.length) :
    ∃ i, i < l.length ∧ l.getD i false = false := by
  by_contra hno
  have hall : ∀ b ∈ l, true = b := by
    intro b hb
    obtain ⟨i, hi, hx⟩ := exists_getD_of_mem false hb
    cases b with
    | true => rfl
    | false => exact absurd ⟨i, hi, hx⟩ hno
  have := List.count_eq_length.mpr hall
  omega

/-- As many set flags as entries: every entry is set. -/
theorem all_true_of_count_eq (l : List Bool) (h : l.count true = l.length) (i : Nat)
    (hi : i < l.length) : l.getD i false = true := by
  have hall := List.count_eq_length.mp h
  exact (hall _ (getD_mem l false hi)).symm

theorem le_maxArrival {p : List Process} {x : Process} (h : x ∈ p) :
    x.arrivalTime ≤ maxArrival p := by
  induction p with
  | nil => cases h
  | cons y rest ih =>
    unfold maxArrival
    rw [List.foldr_cons]
    rcases List.mem_cons.mp h with rfl | hx
    · exact le_max_left _ _
    · exact le_trans (ih hx) (le_max_right _ _)

theorem metricsOK_finish (x : Process) (c : Int) (h : x.arrivalTime + x.burstTime ≤ c) :
    MetricsOK (finish x c) := by
  unfold MetricsOK finish
  simp only
  refine ⟨h, ?_, ?_⟩ <;> omega

theorem replicate_append_cons {α : Type} (k : Nat) (a : α) (l : List α) :
    List.replicate k a ++ a :: l = a :: (List.replicate k a ++ l) := by
  induction k with
  | zero => rfl
  | succ k ih => simp only [List.replicate_succ, List.cons_append, ih]

/-! ### The scan of `sjf` -/

theorem sjfScanStep_take {p : List Process} {ic : List Bool} {t : Int}
    {acc : Option Nat × Int} {k : Nat} (hc : SjfCand p ic t k)
    (hb : (p.getD k default).burstTime < acc.2) :
    sjfScanStep p ic t acc k = (some k, (p.getD k default).burstTime) := by
  unfold sjfScanStep
  unfold SjfCand at hc
  rw [if_pos hc, if_pos hb]

theorem sjfScanStep_keep {p : List Process} {ic : List Bool} {t : Int}
    {acc : Option Nat × Int} {k : Nat} (hb : ¬ (p.getD k default).burstTime < acc.2) :
    sjfScanStep p ic t acc k = acc := by
  unfold sjfScanStep
  rw [if_neg hb]
  simp

theorem sjfScanStep_skip {p : List Process} {ic : List Bool} {t : Int}
    {acc : Option Nat × Int} {k : Nat} (hc : ¬ SjfCand p ic t k) :
    sjfScanStep p ic t acc k = acc := by
  unfold sjfScanStep
  unfold SjfCand at hc
  rw [if_neg hc]

/-- What the scan has found after the indices below `k`: either nothing, and then every
candidate below `k` has a burst of at least the sentinel; or index `j`, a candidate whose
burst is below the sentinel, minimal among the candidates below `k`, and strictly below
the burst of every candidate in front of `j`. -/
theorem sjfScan_prefix (p : List Process) (ic : List Bool) (t : Int) (k : Nat) :
    (((List.range k).foldl (sjfScanStep p ic t) (none, minBurstInit)).1 = none ∧
      ((List.range k).foldl (sjfScanStep p ic t) (none, minBurstInit)).2 = minBurstInit ∧
      ∀ i < k, SjfCand p ic t i → minBurstInit ≤ (p.getD i default).burstTime) ∨
    (∃ j, ((List.range k).foldl (sjfScanStep p ic t) (none, minBurstInit)).1 = some j ∧
      j < k ∧ SjfCand p ic t j ∧
      ((List.range k).foldl (sjfScanStep p ic t) (none, minBurstInit)).2
        = (p.getD j default).burstTime ∧
      (p.getD j default).burstTime < minBurstInit ∧
      (∀ i < k, SjfCand p ic t i → (p.getD j default).burstTime ≤ (p.getD i default).burstTime) ∧
      (∀ i < j, SjfCand p ic t i → (p.getD j default).burstTime < (p.getD i default).burstTime)) := by
  induction k with
  | zero => left; simp
  | succ k ih =>
    rw [List.range_succ, List.foldl_append, List.foldl_cons, List.foldl_nil]
    generalize (List.range k).foldl (sjfScanStep p ic t) (none, minBurstInit) = acc at ih ⊢
    by_cases hc : SjfCand p ic t k
    · rcases ih with ⟨h1, h2, h3⟩ | ⟨j, h1, hj, hcj, h2, hlt, hmin, hfirst⟩
      · by_cases hb : (p.getD k default).burstTime < minBurstInit
        · right
          rw [sjfScanStep_take hc (by rw [h2]; exact hb)]
          refine ⟨k, rfl, Nat.lt_succ_self k, hc, rfl, hb, ?_, ?_⟩
          · intro i hi hci
            rcases Nat.lt_succ_iff_lt_or_eq.mp hi with hik | rfl
            · exact le_trans (le_of_lt hb) (h3 i hik hci)
            · exact le_refl _
          · intro i hi hci
            exact lt_of_lt_of_le hb (h3 i hi hci)
        · left
          rw [sjfScanStep_keep (by rw [h2]; exact hb)]
          refine ⟨h1, h2, ?_⟩
          intro i hi hci
          rcases Nat.lt_succ_iff_lt_or_eq.mp hi with hik | rfl
          · exact h3 i hik hci
          · exact not_lt.mp hb
      · right
        by_cases hb : (p.getD k default).burstTime < (p.getD j default).burstTime
        · rw [sjfScanStep_take hc (by rw [h2]; exact hb)]
          refine ⟨k, rfl, Nat.lt_succ_self k, hc, rfl, lt_trans hb hlt, ?_, ?_⟩
          · intro i hi hci
            rcases Nat.lt_succ_iff_lt_or_eq.mp hi with hik | rfl
            · exact le_trans (le_of_lt hb) (hmin i hik hci)
            · exact le_refl _
          · intro i hi hci
            exact lt_of_lt_of_le hb (hmin i hi hci)
        · rw [sjfScanStep_keep (by rw [h2]; exact hb)]
          refine ⟨j, h1, Nat.lt_succ_of_lt hj, hcj, h2, hlt, ?_, hfirst⟩
          intro i hi hci
          rcases Nat.lt_succ_iff_lt_or_eq.mp hi with hik | rfl
          · exact hmin i hik hci
          · exact not_lt.mp hb
    · rw [sjfScanStep_skip hc]
      rcases ih with ⟨h1, h2, h3⟩ | ⟨j, h1, hj, hcj, h2, hlt, hmin, hfirst⟩
      · left
        refine ⟨h1, h2, ?_⟩
        intro i hi hci
        rcases Nat.lt_succ_iff_lt_or_eq.mp hi with hik | rfl
        · exact h3 i hik hci
        · exact absurd hci hc
      · right
        refine ⟨j, h1, Nat.lt_succ_of_lt hj, hcj, h2, hlt, ?_, hfirst⟩
        intro i hi hci
        rcases Nat.lt_succ_iff_lt_or_eq.mp hi with hik | rfl
        · exact hmin i hik hci
        · exact absurd hci hc

/-- The scan selects an index: it is in range and a candidate, its burst is the least
among all candidates, every candidate in front of it has a strictly larger burst, and its
burst is below the sentinel. -/
theorem sjfScan_some {p : List Process} {ic : List Bool} {t : Int} {j : Nat}
    (h : (sjfScan p ic t).1 = some j) :
    j < p.length ∧ SjfCand p ic t j ∧
      (∀ i < p.length, SjfCand p ic t i →
        (p.getD j default).burstTime ≤ (p.getD i default).burstTime) ∧
      (∀ i < j, SjfCand p ic t i →
        (p.getD j default).burstTime < (p.getD i default).burstTime) ∧
      (p.getD j default).burstTime < minBurstInit := by
  unfold sjfScan at h
  rcases sjfScan_prefix p ic t p.length with ⟨h1, _, _⟩ | ⟨j', h1, hj, hcj, _, hlt, hmin, hfirst⟩
  · rw [h1] at h; cases h
  · rw [h1] at h
    cases h
    exact ⟨hj, hcj, hmin, hfirst, hlt⟩

/-- The scan selects nothing: every candidate has a burst of at least the sentinel. -/
theorem sjfScan_none {p : List Process} {ic : List Bool} {t : Int}
    (h : (sjfScan p ic t).1 = none) :
    ∀ i < p.length, SjfCand p ic t i → minBurstInit ≤ (p.getD i default).burstTime := by
  unfold sjfScan at h
  rcases sjfScan_prefix p ic t p.length with ⟨_, _, h3⟩ | ⟨j', h1, _⟩
  · exact h3
  · rw [h1] at h; cases h

/-- A candidate with a burst below the sentinel makes the scan select some index. -/
theorem sjfScan_isSome {p : List Process} {ic : List Bool} {t : Int} {i : Nat}
    (hi : i < p.length) (hc : SjfCand p ic t i)
    (hb : (p.getD i default).burstTime < minBurstInit) :
    ∃ j, (sjfScan p ic t).1 = some j := by
  cases h : (sjfScan p ic t).1 with
  | none => exact absurd (sjfScan_none h i hi hc) (not_le.mpr hb)
  | some j => exact ⟨j, rfl⟩

/-! ### The loop of `fcfs` -/

theorem fcfsLoop_length (l : List Process) : ∀ t : Int, (fcfsLoop l t).length = l.length := by
  induction l with
  | nil => intro t; rfl
  | cons x rest ih => intro t; simp [fcfsLoop, ih]

theorem fcfsLoop_metrics (l : List Process) :
    ∀ (t : Int), ∀ y ∈ fcfsLoop l t, MetricsOK y := by
  induction l with
  | nil => intro t y hy; cases hy
  | cons x rest ih =>
    intro t y hy
    unfold fcfsLoop at hy
    rcases List.mem_cons.mp hy with rfl | hy
    · apply metricsOK_finish
      split <;> omega
    · exact ih _ y hy

/-! ### The loop of `sjf` -/

theorem sjfInv_init (p : List Process) : SjfInv p (sjfInit p) where
  len_p := rfl
  len_ic := by simp [sjfInit]
  count := by simp [sjfInit, List.count_replicate]
  pending := fun _ _ _ => rfl
  done := by
    intro i hi h
    simp [sjfInit, List.getD_eq_getElem?_getD, List.getElem?_replicate, hi] at h

/-- The step that runs the selected index `idx`. -/
theorem sjfStep_some {s : SjfState} {idx : Nat}
    (h : (sjfScan s.p s.isCompleted s.currentTime).1 = some idx) :
    sjfStep s =
      { p := s.p.set idx (finish (s.p.getD idx default)
              (s.currentTime + (s.p.getD idx default).burstTime))
        isCompleted := s.isCompleted.set idx true
        completed := s.completed + 1
        currentTime := s.currentTime + (s.p.getD idx default).burstTime } := by
  unfold sjfStep
  rw [h]

/-- The idle step. -/
theorem sjfStep_none {s : SjfState}
    (h : (sjfScan s.p s.isCompleted s.currentTime).1 = none) :
    sjfStep s = { s with currentTime := s.currentTime + 1 } := by
  unfold sjfStep
  rw [h]

theorem sjfInv_step {p0 : List Process} {s : SjfState} (inv : SjfInv p0 s) :
    SjfInv p0 (sjfStep s) := by
  cases hscan : (sjfScan s.p s.isCompleted s.currentTime).1 with
  | none =>
    rw [sjfStep_none hscan]
    exact ⟨inv.len_p, inv.len_ic, inv.count, inv.pending, inv.done⟩
  | some idx =>
    rw [sjfStep_some hscan]
    obtain ⟨hidx, hcand, _, _, _⟩ := sjfScan_some hscan
    have hidx0 : idx < p0.length := inv.len_p ▸ hidx
    have hidxc : idx < s.isCompleted.length := by rw [inv.len_ic]; exact hidx0
    have hx : s.p.getD idx default = p0.getD idx default := inv.pending idx hidx0 hcand.2
    refine ⟨?_, ?_, ?_, ?_, ?_⟩
    · simp [inv.len_p]
    · simp [inv.len_ic]
    · simp only
      rw [count_set_true _ _ hidxc hcand.2, inv.count]
    · intro i hi hf
      simp only at hf ⊢
      by_cases hii : idx = i
      · subst hii
        rw [getD_set_eq _ _ _ _ hidxc] at hf
        cases hf
      · rw [getD_set_of_ne _ _ _ hii] at hf
        rw [getD_set_of_ne _ _ _ hii]
        exact inv.pending i hi hf
    · intro i hi hf
      simp only at hf ⊢
      by_cases hii : idx = i
      · subst hii
        rw [getD_set_eq _ _ _ _ hidx, hx]
        refine ⟨_, ?_, rfl⟩
        have := hcand.1
        rw [hx] at this
        omega
      · rw [getD_set_of_ne _ _ _ hii] at hf
        rw [getD_set_of_ne _ _ _ hii]
        exact inv.done i hi hf

/-- Whatever state the loop of `sjf` returns satisfies the invariant and has counted
every process. -/
theorem sjfLoop_inv {p0 : List Process} (fuel : Nat) :
    ∀ (s s' : SjfState), SjfInv p0 s → sjfLoop fuel s = some s' →
      SjfInv p0 s' ∧ s'.completed = p0.length := by
  induction fuel with
  | zero =>
    intro s s' inv h
    unfold sjfLoop at h
    split at h
    · cases h
      rename_i hc
      exact ⟨inv, by rw [hc, inv.len_p]⟩
    · cases h
  | succ fuel ih =>
    intro s s' inv h
    unfold sjfLoop at h
    split at h
    · cases h
      rename_i hc
      exact ⟨inv, by rw [hc, inv.len_p]⟩
    · exact ih _ _ (sjfInv_step inv) h

/-- In a state where the counter has reached `n`, every record is the input record closed
at a completion time no earlier than arrival plus burst. -/
theorem sjfInv_final {p0 : List Process} {s : SjfState} (inv : SjfInv p0 s)
    (hc : s.completed = p0.length) (i : Nat) (hi : i < p0.length) :
    ∃ c, (p0.getD i default).arrivalTime + (p0.getD i default).burstTime ≤ c ∧
      s.p.getD i default = finish (p0.getD i default) c := by
  have hcount : s.isCompleted.count true = s.isCompleted.length := by
    rw [← inv.count, hc, inv.len_ic]
  exact inv.done i hi (all_true_of_count_eq _ hcount i (by rw [inv.len_ic]; exact hi))

/-- The loop of `sjf` returns from a state with the invariant once the budget covers the
processes still to run plus the clock ticks up to the last arrival, provided every burst
is non-negative and below the sentinel. -/
theorem sjfLoop_terminates {p0 : List Process}
    (hb : ∀ x ∈ p0, 0 ≤ x.burstTime ∧ x.burstTime < minBurstInit) (fuel : Nat) :
    ∀ s : SjfState, SjfInv p0 s →
      (p0.length - s.completed) + (maxArrival p0 - s.currentTime).toNat ≤ fuel →
      ∃ s', sjfLoop fuel s = some s' := by
  induction fuel with
  | zero =>
    intro s inv hm
    have h1 : s.completed ≤ s.isCompleted.length := by
      rw [inv.count]; exact List.count_le_length _ _
    have h2 : s.completed = s.p.length := by
      rw [inv.len_p]; rw [inv.len_ic] at h1; omega
    exact ⟨s, by unfold sjfLoop; rw [if_pos h2]⟩
  | succ fuel ih =>
    intro s inv hm
    unfold sjfLoop
    by_cases hc : s.completed = s.p.length
    · exact ⟨s, by rw [if_pos hc]⟩
    · rw [if_neg hc]
      apply ih _ (sjfInv_step inv)
      have h1 : s.completed ≤ s.isCompleted.length := by
        rw [inv.count]; exact List.count_le_length _ _
      rw [inv.len_ic] at h1
      rw [inv.len_p] at hc
      cases hscan : (sjfScan s.p s.isCompleted s.currentTime).1 with
      | none =>
        rw [sjfStep_none hscan]
        simp only
        have hlt : s.isCompleted.count true < s.isCompleted.length := by
          rw [← inv.count, inv.len_ic]; omega
        obtain ⟨i, hi, hf⟩ := exists_false_of_count_lt _ hlt
        rw [inv.len_ic] at hi
        have hpi := inv.pending i hi hf
        have hmem : p0.getD i default ∈ p0 := getD_mem p0 default hi
        have hnc : ¬ SjfCand s.p s.isCompleted s.currentTime i := by
          intro hcand
          have := sjfScan_none hscan i (by rw [inv.len_p]; exact hi) hcand
          rw [hpi] at this
          exact absurd this (not_le.mpr (hb _ hmem).2)
        have harr : s.currentTime < (p0.getD i default).arrivalTime := by
          by_contra hle
          apply hnc
          refine ⟨?_, hf⟩
          rw [hpi]
          exact not_lt.mp hle
        have := le_maxArrival hmem
        omega
      | some idx =>
        rw [sjfStep_some hscan]
        simp only
        obtain ⟨hidx, hcand, _, _, _⟩ := sjfScan_some hscan
        have hidx0 : idx < p0.length := inv.len_p ▸ hidx
        have hx := inv.pending idx hidx0 hcand.2
        have := (hb _ (getD_mem p0 default hidx0)).1
        rw [hx]
        omega

/-- While every burst is at least the sentinel the scan selects nothing, so the loop of
`sjf` only advances the clock and never returns from a state with work left. -/
theorem sjfLoop_stuck (fuel : Nat) :
    ∀ s : SjfState, s.completed ≠ s.p.length →
      (∀ i < s.p.length, minBurstInit ≤ (s.p.getD i default).burstTime) →
      sjfLoop fuel s = none := by
  induction fuel with
  | zero =>
    intro s hc _
    unfold sjfLoop
    rw [if_neg hc]
  | succ fuel ih =>
    intro s hc hbig
    unfold sjfLoop
    rw [if_neg hc]
    have hscan : (sjfScan s.p s.isCompleted s.currentTime).1 = none := by
      cases h : (sjfScan s.p s.isCompleted s.currentTime).1 with
      | none => rfl
      | some j =>
        obtain ⟨hj, _, _, _, hlt⟩ := sjfScan_some h
        exact absurd (hbig j hj) (not_le.mpr hlt)
    rw [sjfStep_none hscan]
    exact ih _ hc hbig

/-! ### The admission sweep of `roundRobin` -/

theorem rrAdmitStep_take {p : List Process} {t : Int} {acc : List Nat × List Bool} {j : Nat}
    (h : RRNew p acc.2 t j) : rrAdmitStep p t acc j = (acc.1 ++ [j], acc.2.set j true) := by
  unfold rrAdmitStep
  unfold RRNew at h
  rw [if_pos h]

theorem rrAdmitStep_skip {p : List Process} {t : Int} {acc : List Nat × List Bool} {j : Nat}
    (h : ¬ RRNew p acc.2 t j) : rrAdmitStep p t acc j = acc := by
  unfold rrAdmitStep
  unfold RRNew at h
  rw [if_neg h]

/-- The sweep over the indices below `k`: the queue has grown by the admitted indices
below `k` in ascending order, and exactly those marks have been set. -/
theorem rrAdmit_prefix (p : List Process) (t : Int) (queue : List Nat) (mark : List Bool)
    (k : Nat) :
    ((List.range k).foldl (rrAdmitStep p t) (queue, mark)).1
        = queue ++ (List.range k).filter (fun j => decide (RRNew p mark t j)) ∧
      ((List.range k).foldl (rrAdmitStep p t) (queue, mark)).2.length = mark.length ∧
      ∀ j, ((List.range k).foldl (rrAdmitStep p t) (queue, mark)).2.getD j true
        = if j < k ∧ RRNew p mark t j then true else mark.getD j true := by
  induction k with
  | zero => simp
  | succ k ih =>
    rw [List.range_succ, List.foldl_append, List.foldl_cons, List.foldl_nil,
      List.filter_append]
    generalize (List.range k).foldl (rrAdmitStep p t) (queue, mark) = acc at ih ⊢
    obtain ⟨h1, h2, h3⟩ := ih
    have hk : acc.2.getD k true = mark.getD k true := by
      rw [h3 k, if_neg (fun h => lt_irrefl k h.1)]
    by_cases hnew : RRNew p mark t k
    · have hnew' : RRNew p acc.2 t k := ⟨by rw [hk]; exact hnew.1, hnew.2⟩
      rw [rrAdmitStep_take hnew']
      refine ⟨?_, ?_, ?_⟩
      · simp [h1, hnew]
      · simp [h2]
      · intro j
        simp only
        by_cases hjk : k = j
        · subst hjk
          have hlen : k < acc.2.length := by
            by_contra hge
            have : acc.2.getD k true = true := by
              simp [List.getD_eq_getElem?_getD, List.getElem?_eq_none (not_lt.mp hge)]
            rw [hnew'.1] at this
            cases this
          rw [getD_set_eq _ _ _ _ hlen, if_pos ⟨Nat.lt_succ_self k, hnew⟩]
        · rw [getD_set_of_ne _ _ _ hjk, h3 j]
          have : (j < k + 1 ∧ RRNew p mark t j) ↔ (j < k ∧ RRNew p mark t j) := by
            constructor
            · rintro ⟨hlt, hn⟩
              exact ⟨by omega, hn⟩
            · rintro ⟨hlt, hn⟩
              exact ⟨by omega, hn⟩
          simp only [this]
    · have hnew' : ¬ RRNew p acc.2 t k := fun h => hnew ⟨by rw [← hk]; exact h.1, h.2⟩
      rw [rrAdmitStep_skip hnew']
      refine ⟨?_, h2, ?_⟩
      · simp [h1, hnew]
      · intro j
        rw [h3 j]
        by_cases hjk : j = k
        · subst hjk
          rw [if_neg (fun h => lt_irrefl j h.1), if_neg (fun h => hnew h.2)]
        · have : (j < k + 1 ∧ RRNew p mark t j) ↔ (j < k ∧ RRNew p mark t j) := by
            constructor
            · rintro ⟨hlt, hn⟩
              exact ⟨by omega, hn⟩
            · rintro ⟨hlt, hn⟩
              exact ⟨by omega, hn⟩
          simp only [this]

/-- The admission sweep appends to the queue, in ascending index order, exactly the
indices that are unmarked and have arrived, and sets exactly their marks. -/
theorem rrAdmit_spec (p : List Process) (t : Int) (queue : List Nat) (mark : List Bool) :
    (rrAdmit p t queue mark).1
        = queue ++ (List.range p.length).filter (fun j => decide (RRNew p mark t j)) ∧
      (rrAdmit p t queue mark).2.length = mark.length ∧
      ∀ j, (rrAdmit p t queue mark).2.getD j true
        = if j < p.length ∧ RRNew p mark t j then true else mark.getD j true :=
  rrAdmit_prefix p t queue mark p.length

/-! ### The invariant of the `roundRobin` loop -/

theorem mem_admitted {pa : List Process} {mark : List Bool} {t : Int} {j : Nat}
    (h : j ∈ (List.range pa.length).filter (fun j => decide (RRNew pa mark t j))) :
    j < pa.length ∧ RRNew pa mark t j := by
  rw [List.mem_filter, List.mem_range] at h
  exact ⟨h.1, of_decide_eq_true h.2⟩

theorem countP_done_set (p : List Process) (i : Nat) (y : Process) (hi : i < p.length)
    (hpos : 0 < (p.getD i default).remainingTime) :
    (p.set i y).countP (fun x => decide (x.remainingTime = 0))
      = p.countP (fun x => decide (x.remainingTime = 0))
        + (if 0 < y.remainingTime then 0 else if y.remainingTime = 0 then 1 else 0) := by
  rw [List.countP_set _ _ _ _ hi]
  rw [List.getD_eq_getElem p default hi] at hpos
  have h0 : ¬ (p[i].remainingTime = 0) := by omega
  simp only [h0, decide_False, Bool.false_eq_true, if_false, Nat.sub_zero, decide_eq_true_eq]
  by_cases hy : 0 < y.remainingTime
  · have : ¬ y.remainingTime = 0 := by omega
    simp [hy, this]
  · simp [hy]

/-- The state after the slice, the admission sweep and the re-queue or completion of the
front index `i`, before the idle-gap block: the invariant holds again.  `y` is the record
written back at `i` and `pa` the vector the sweep reads. -/
theorem rrInv_mid {s : RRState} {i : Nat} {rest : List Nat} (inv : RRInv s)
    (hq : s.readyQueue = i :: rest) (pa : List Process) (hpa : pa.length = s.p.length)
    (y : Process) (hy : 0 ≤ y.remainingTime) (t : Int) :
    RRInv { p := s.p.set i y
            readyQueue := (rrAdmit pa t rest s.mark).1
              ++ (if 0 < y.remainingTime then [i] else [])
            mark := (rrAdmit pa t rest s.mark).2
            currentTime := t
            completed := s.completed + (if 0 < y.remainingTime then 0 else 1) } := by
  obtain ⟨hq1, hq2, hq3⟩ := rrAdmit_spec pa t rest s.mark
  have hmem : i ∈ s.readyQueue := by rw [hq]; exact List.mem_cons_self _ _
  obtain ⟨hin, him, hirem⟩ := inv.queue_ok i hmem
  have hnd := inv.queue_nodup
  rw [hq, List.nodup_cons] at hnd
  obtain ⟨hinot, hrestnd⟩ := hnd
  have hrest : ∀ j ∈ rest, j < s.p.length ∧ s.mark.getD j true = true ∧
      0 < (s.p.getD j default).remainingTime := fun j hj =>
    inv.queue_ok j (by rw [hq]; exact List.mem_cons_of_mem _ hj)
  have hmark' : ∀ j, s.mark.getD j true = true →
      (rrAdmit pa t rest s.mark).2.getD j true = true := by
    intro j hj
    rw [hq3 j]
    split
    · rfl
    · exact hj
  have hnewmark : ∀ j, j ∈ (List.range pa.length).filter
      (fun j => decide (RRNew pa s.mark t j)) →
      (rrAdmit pa t rest s.mark).2.getD j true = true := by
    intro j hj
    rw [hq3 j, if_pos (mem_admitted hj)]
  have hunmark : ∀ j, (rrAdmit pa t rest s.mark).2.getD j true = false →
      s.mark.getD j true = false := by
    intro j hj
    rw [hq3 j] at hj
    split at hj
    · cases hj
    · exact hj
  refine ⟨?_, ?_, ?_, ?_, ?_, ?_⟩
  · simp only [List.length_set]
    rw [hq2, inv.len_mark]
  · simp only
    rw [hq1]
    have hnd1 : (rest ++ (List.range pa.length).filter
        (fun j => decide (RRNew pa s.mark t j))).Nodup := by
      rw [List.nodup_append]
      refine ⟨hrestnd, (List.nodup_range _).filter _, ?_⟩
      intro j hj1 hj2
      have h1 := (hrest j hj1).2.1
      have h2 := (mem_admitted hj2).2.1
      rw [h1] at h2
      cases h2
    split
    · rw [List.nodup_append]
      refine ⟨hnd1, List.nodup_singleton i, ?_⟩
      intro j hj1 hj2
      rw [List.mem_singleton] at hj2
      subst hj2
      rcases List.mem_append.mp hj1 with h | h
      · exact hinot h
      · have h2 := (mem_admitted h).2.1
        rw [him] at h2
        cases h2
    · rw [List.append_nil]
      exact hnd1
  · intro j hj
    simp only at hj ⊢
    rw [List.length_set]
    rw [hq1] at hj
    rcases List.mem_append.mp hj with hj | hj
    · rcases List.mem_append.mp hj with hj | hj
      · obtain ⟨h1, h2, h3⟩ := hrest j hj
        have hne : i ≠ j := fun h => hinot (h ▸ hj)
        refine ⟨h1, hmark' j h2, ?_⟩
        rw [getD_set_of_ne _ _ _ hne]
        exact h3
      · obtain ⟨h1, h2⟩ := mem_admitted hj
        have hne : i ≠ j := by
          intro h
          subst h
          have h3 := h2.1
          rw [him] at h3
          cases h3
        refine ⟨hpa ▸ h1, hnewmark j hj, ?_⟩
        rw [getD_set_of_ne _ _ _ hne]
        exact inv.unmarked j (hpa ▸ h1) h2.1
    · split at hj
      · rw [List.mem_singleton] at hj
        subst hj
        refine ⟨hin, hmark' j him, ?_⟩
        rw [getD_set_eq _ _ _ _ hin]
        assumption
      · cases hj
  · intro j hj hm
    simp only at hj hm ⊢
    rw [List.length_set] at hj
    by_cases hji : i = j
    · subst hji
      rw [getD_set_eq _ _ _ _ hin]
      by_cases hy0 : 0 < y.remainingTime
      · left
        rw [if_pos hy0]
        exact List.mem_append_right _ (List.mem_singleton_self _)
      · right
        omega
    · rw [getD_set_of_ne _ _ _ hji]
      rw [hq3 j] at hm
      by_cases hnew : j < pa.length ∧ RRNew pa s.mark t j
      · left
        rw [hq1]
        apply List.mem_append_left
        apply List.mem_append_right
        rw [List.mem_filter, List.mem_range]
        exact ⟨hnew.1, decide_eq_true hnew.2⟩
      · rw [if_neg hnew] at hm
        rcases inv.marked j hj hm with h | h
        · left
          rw [hq] at h
          rcases List.mem_cons.mp h with h | h
          · exact absurd h.symm hji
          · rw [hq1]
            exact List.mem_append_left _ (List.mem_append_left _ h)
        · right
          exact h
  · intro j hj hm
    simp only at hj hm ⊢
    rw [List.length_set] at hj
    have hm0 := hunmark j hm
    have hne : i ≠ j := by
      intro h
      subst h
      rw [him] at hm0
      cases hm0
    rw [getD_set_of_ne _ _ _ hne]
    exact inv.unmarked j hj hm0
  · simp only
    rw [countP_done_set _ _ _ hin hirem, inv.count]
    congr 1
    by_cases hy0 : 0 < y.remainingTime
    · simp [hy0]
    · have : y.remainingTime = 0 := by omega
      simp [hy0, this]

/-! ### One iteration of the `roundRobin` loop -/

theorem remTotal_set (p : List Process) : ∀ (i : Nat) (y : Process), i < p.length →
    remTotal (p.set i y) + (p.getD i default).remainingTime.toNat
      = remTotal p + y.remainingTime.toNat := by
  induction p with
  | nil => intro i y hi; cases hi
  | cons x rest ih =>
    intro i y hi
    cases i with
    | zero =>
      simp only [remTotal, List.set_cons_zero, List.map_cons, List.sum_cons,
        List.getD_cons_zero]
      omega
    | succ i =>
      have := ih i y (Nat.lt_of_succ_lt_succ hi)
      simp only [remTotal, List.set_cons_succ, List.map_cons, List.sum_cons,
        List.getD_cons_succ] at this ⊢
      omega

/-- The idle-gap block keeps the invariant, the vector and the counter, and leaves a
non-empty queue whenever work remains. -/
theorem rrIdle_inv {m : RRState} (inv : RRInv m) :
    RRInv (rrIdle m) ∧ (rrIdle m).p = m.p ∧ (rrIdle m).completed = m.completed ∧
      ((rrIdle m).completed ≠ (rrIdle m).p.length → (rrIdle m).readyQueue ≠ []) := by
  unfold rrIdle
  by_cases hcond : m.readyQueue.isEmpty ∧ m.completed ≠ m.p.length
  · rw [if_pos hcond]
    have hempty : m.readyQueue = [] := List.isEmpty_iff.mp hcond.1
    cases hfind : (List.range m.p.length).find? (fun j => m.mark.getD j true = false) with
    | none =>
      exfalso
      apply hcond.2
      rw [inv.count]
      apply List.countP_eq_length.mpr
      intro x hx
      obtain ⟨j, hj, rfl⟩ := exists_getD_of_mem default hx
      have hmark : m.mark.getD j true = true := by
        have := List.find?_eq_none.mp hfind j (List.mem_range.mpr hj)
        simpa using this
      rcases inv.marked j hj hmark with h | h
      · rw [hempty] at h; cases h
      · exact decide_eq_true h
    | some j =>
      have hj : j < m.p.length := List.mem_range.mp (List.mem_of_find?_eq_some hfind)
      have hjm : m.mark.getD j true = false := by
        have := List.find?_some hfind
        simpa using this
      refine ⟨⟨?_, ?_, ?_, ?_, ?_, ?_⟩, rfl, rfl, ?_⟩
      · simp [inv.len_mark]
      · simp only
        rw [hempty]; simp
      · intro k hk
        simp only at hk ⊢
        rw [hempty, List.nil_append, List.mem_singleton] at hk
        subst hk
        refine ⟨hj, ?_, inv.unmarked k hj hjm⟩
        rw [getD_set_eq _ _ _ _ (by rw [inv.len_mark]; exact hj)]
      · intro k hk hm
        simp only at hk hm ⊢
        by_cases hkj : j = k
        · left
          rw [hkj]
          exact List.mem_append_right _ (List.mem_singleton_self _)
        · rw [getD_set_of_ne _ _ _ hkj] at hm
          rcases inv.marked k hk hm with h | h
          · left; exact List.mem_append_left _ h
          · right; exact h
      · intro k hk hm
        simp only at hk hm ⊢
        by_cases hkj : j = k
        · subst hkj
          exact inv.unmarked j hj hjm
        · rw [getD_set_of_ne _ _ _ hkj] at hm
          exact inv.unmarked k hk hm
      · exact inv.count
      · intro _
        simp
  · rw [if_neg hcond]
    refine ⟨inv, rfl, rfl, ?_⟩
    intro hc hq
    apply hcond
    exact ⟨List.isEmpty_iff.mpr hq, hc⟩

/-- The loop body on a state whose queue has front `i` and tail `rest`. -/
theorem rrStep_cons (quantum : Int) {s : RRState} {i : Nat} {rest : List Nat}
    (hq : s.readyQueue = i :: rest) (hin : i < s.p.length) :
    rrStep quantum s =
      if 0 < (rrSlice quantum (s.p.getD i default)).remainingTime then
        some (rrIdle
          { p := s.p.set i (rrSlice quantum (s.p.getD i default))
            readyQueue := (rrAdmit (s.p.set i (rrSlice quantum (s.p.getD i default)))
              (s.currentTime + min (s.p.getD i default).remainingTime quantum) rest s.mark).1
              ++ [i]
            mark := (rrAdmit (s.p.set i (rrSlice quantum (s.p.getD i default)))
              (s.currentTime + min (s.p.getD i default).remainingTime quantum) rest s.mark).2
            currentTime := s.currentTime + min (s.p.getD i default).remainingTime quantum
            completed := s.completed })
      else
        some (rrIdle
          { p := (s.p.set i (rrSlice quantum (s.p.getD i default))).set i
              (finish (rrSlice quantum (s.p.getD i default))
                (s.currentTime + min (s.p.getD i default).remainingTime quantum))
            readyQueue := (rrAdmit (s.p.set i (rrSlice quantum (s.p.getD i default)))
              (s.currentTime + min (s.p.getD i default).remainingTime quantum) rest s.mark).1
            mark := (rrAdmit (s.p.set i (rrSlice quantum (s.p.getD i default)))
              (s.currentTime + min (s.p.getD i default).remainingTime quantum) rest s.mark).2
            currentTime := s.currentTime + min (s.p.getD i default).remainingTime quantum
            completed := s.completed + 1 }) := by
  unfold rrStep
  rw [hq]
  simp only [hin, if_true]
  rfl

/-- One iteration from a state with the invariant and a non-empty queue: the step is
defined, the invariant holds again, the queue is non-empty if work remains, the service
still owed has dropped, no record other than the front one changed, and the front record
either ran out of service, was closed at the end of its slice and raised the counter, or
keeps service and leaves the counter alone. -/
theorem rrStep_inv {quantum : Int} {s : RRState} (hquantum : 0 < quantum) (inv : RRInv s)
    {i : Nat} {rest : List Nat} (hq : s.readyQueue = i :: rest) :
    ∃ s', rrStep quantum s = some s' ∧ RRInv s' ∧
      (s'.completed ≠ s'.p.length → s'.readyQueue ≠ []) ∧
      s'.p.length = s.p.length ∧
      remTotal s'.p < remTotal s.p ∧
      (∀ j, j ≠ i → s'.p.getD j default = s.p.getD j default) ∧
      0 < (s.p.getD i default).remainingTime ∧
      ((s'.p.getD i default).remainingTime = 0 ∧ s'.completed = s.completed + 1 ∧
          s'.p.getD i default = finish (rrSlice quantum (s.p.getD i default))
            (s.currentTime + min (s.p.getD i default).remainingTime quantum) ∨
        0 < (s'.p.getD i default).remainingTime ∧ s'.completed = s.completed ∧
          s'.p.getD i default = rrSlice quantum (s.p.getD i default)) := by
  have hmem : i ∈ s.readyQueue := by rw [hq]; exact List.mem_cons_self _ _
  obtain ⟨hin, _, hirem⟩ := inv.queue_ok i hmem
  have hexec : 1 ≤ min (s.p.getD i default).remainingTime quantum := by
    rw [le_min_iff]; omega
  have hexec' : min (s.p.getD i default).remainingTime quantum
      ≤ (s.p.getD i default).remainingTime := min_le_left _ _
  rw [rrStep_cons quantum hq hin]
  generalize hy : rrSlice quantum (s.p.getD i default) = x1
  have hx1 : x1.remainingTime = (s.p.getD i default).remainingTime
      - min (s.p.getD i default).remainingTime quantum := by rw [← hy]; rfl
  generalize s.currentTime + min (s.p.getD i default).remainingTime quantum = t1
  by_cases hpos : 0 < x1.remainingTime
  · rw [if_pos hpos]
    have hmid := rrInv_mid inv hq (s.p.set i x1) (by simp) x1 (le_of_lt hpos) t1
    rw [if_pos hpos, if_pos hpos, Nat.add_zero] at hmid
    obtain ⟨h1, h2, h3, h4⟩ := rrIdle_inv hmid
    refine ⟨_, rfl, h1, h4, ?_, ?_, ?_, hirem, ?_⟩
    · rw [h2]; simp
    · rw [h2]
      have := remTotal_set s.p i x1 hin
      simp only
      omega
    · intro j hj
      rw [h2]
      simp only
      rw [getD_set_of_ne _ _ _ (Ne.symm hj)]
    · right
      rw [h2, h3]
      simp only
      rw [getD_set_eq _ _ _ _ hin]
      exact ⟨hpos, trivial, rfl⟩
  · rw [if_neg hpos]
    have hrem0 : (finish x1 t1).remainingTime = 0 := by
      show x1.remainingTime = 0
      omega
    have hmid := rrInv_mid inv hq (s.p.set i x1) (by simp) (finish x1 t1)
      (le_of_eq hrem0.symm) t1
    have hnp : ¬ 0 < (finish x1 t1).remainingTime := by rw [hrem0]; exact lt_irrefl 0
    rw [if_neg hnp, if_neg hnp, List.append_nil] at hmid
    rw [List.set_set]
    obtain ⟨h1, h2, h3, h4⟩ := rrIdle_inv hmid
    refine ⟨_, rfl, h1, h4, ?_, ?_, ?_, hirem, ?_⟩
    · rw [h2]; simp
    · rw [h2]
      have := remTotal_set s.p i (finish x1 t1) hin
      simp only
      omega
    · intro j hj
      rw [h2]
      simp only
      rw [getD_set_of_ne _ _ _ (Ne.symm hj)]
    · left
      rw [h2, h3]
      simp only
      rw [getD_set_eq _ _ _ _ hin]
      exact ⟨hrem0, trivial, rfl⟩

/-! ### The loop of `roundRobin` -/

/-- Under the invariant every remaining time is non-negative. -/
theorem rrInv_rem_nonneg {s : RRState} (inv : RRInv s) (j : Nat) (hj : j < s.p.length) :
    0 ≤ (s.p.getD j default).remainingTime := by
  cases hm : s.mark.getD j true with
  | false => exact le_of_lt (inv.unmarked j hj hm)
  | true =>
    rcases inv.marked j hj hm with h | h
    · exact le_of_lt (inv.queue_ok j h).2.2
    · exact le_of_eq h.symm

/-- When the counter has reached `n`, no record has service left. -/
theorem rrInv_all_done {s : RRState} (inv : RRInv s) (hc : s.completed = s.p.length)
    (j : Nat) (hj : j < s.p.length) : (s.p.getD j default).remainingTime = 0 := by
  have h := inv.count
  rw [hc] at h
  have hall := List.countP_eq_length.mp h.symm
  exact of_decide_eq_true (hall _ (getD_mem s.p default hj))

theorem remTotal_eq_zero {p : List Process} (h : remTotal p = 0) (j : Nat)
    (hj : j < p.length) : (p.getD j default).remainingTime ≤ 0 := by
  unfold remTotal at h
  rw [List.sum_eq_zero_iff] at h
  have := h ((p.getD j default).remainingTime.toNat)
    (List.mem_map.mpr ⟨_, getD_mem p default hj, rfl⟩)
  omega

/-- The event of an iteration whose front index is `i` and whose step yields `s'`. -/
theorem rrCompletedAt_eq {quantum : Int} {s s' : RRState} {i : Nat} {rest : List Nat}
    (hq : s.readyQueue = i :: rest) (hstep : rrStep quantum s = some s') :
    rrCompletedAt quantum s = if s'.completed = s.completed + 1 then some i else none := by
  unfold rrCompletedAt
  rw [hq, hstep]
  rfl

/-- From a state with the invariant and a non-empty queue while work remains, the loop of
`roundRobin` returns once the budget covers the service still owed; the returned state has
counted every process, and the completion log of the run holds each index that still had
service left exactly once and no other index. -/
theorem rrLoop_terminates {quantum : Int} (hquantum : 0 < quantum) (fuel : Nat) :
    ∀ s : RRState, RRInv s → (s.completed ≠ s.p.length → s.readyQueue ≠ []) →
      remTotal s.p ≤ fuel →
      ∃ s', rrLoop quantum fuel s = some s' ∧ RRInv s' ∧ s'.completed = s'.p.length ∧
        s'.p.length = s.p.length ∧
        ∀ j < s.p.length, (rrCompletionLog quantum fuel s).count j
          = if (s.p.getD j default).remainingTime = 0 then 0 else 1 := by
  induction fuel with
  | zero =>
    intro s inv _ hfuel
    have hzero : ∀ j < s.p.length, (s.p.getD j default).remainingTime = 0 := by
      intro j hj
      have h1 := remTotal_eq_zero (Nat.le_zero.mp hfuel) j hj
      have h2 := rrInv_rem_nonneg inv j hj
      omega
    have hc : s.completed = s.p.length := by
      rw [inv.count]
      apply List.countP_eq_length.mpr
      intro x hx
      obtain ⟨j, hj, rfl⟩ := exists_getD_of_mem default hx
      exact decide_eq_true (hzero j hj)
    refine ⟨s, ?_, inv, hc, rfl, ?_⟩
    · unfold rrLoop
      rw [if_pos hc]
    · intro j hj
      rw [if_pos (hzero j hj)]
      rfl
  | succ fuel ih =>
    intro s inv hready hfuel
    by_cases hc : s.completed = s.p.length
    · refine ⟨s, ?_, inv, hc, rfl, ?_⟩
      · unfold rrLoop
        rw [if_pos hc]
      · intro j hj
        rw [if_pos (rrInv_all_done inv hc j hj)]
        unfold rrCompletionLog
        rw [if_pos hc]
        rfl
    · obtain ⟨i, rest, hq⟩ := List.exists_cons_of_ne_nil (hready hc)
      obtain ⟨s', hstep, inv', hready', hlen, hdrop, hother, hipos, hcase⟩ :=
        rrStep_inv hquantum inv hq
      obtain ⟨s'', hloop, inv'', hc'', hlen'', hlog⟩ :=
        ih s' inv' hready' (by omega)
      refine ⟨s'', ?_, inv'', hc'', by rw [hlen'', hlen], ?_⟩
      · unfold rrLoop
        rw [if_neg hc, hstep]
        exact hloop
      · intro j hj
        unfold rrCompletionLog
        rw [if_neg hc, hstep]
        simp only
        rw [List.count_append, hlog j (by rw [hlen]; exact hj), rrCompletedAt_eq hq hstep]
        by_cases hji : j = i
        · subst hji
          have hne : ¬ (s.p.getD j default).remainingTime = 0 := by omega
          rw [if_neg hne]
          rcases hcase with ⟨h0, hcnt, _⟩ | ⟨hpos, hcnt, _⟩
          · rw [if_pos hcnt, if_pos h0]
            simp
          · have hne' : ¬ (s'.p.getD j default).remainingTime = 0 := by omega
            have hcnt' : ¬ s'.completed = s.completed + 1 := by omega
            rw [if_neg hcnt', if_neg hne']
            simp
        · rw [hother j hji]
          have hev : (if s'.completed = s.completed + 1 then some i else none).toList.count j
              = 0 := by
            split
            · simp [Option.toList, hji]
            · simp [Option.toList]
          rw [hev, Nat.zero_add]

/-- Every closed record has its derived fields: turnaround is completion minus arrival and
waiting is turnaround minus burst. -/
theorem rrStep_closed {quantum : Int} {s s' : RRState} (hquantum : 0 < quantum)
    (inv : RRInv s) (hstep : rrStep quantum s = some s')
    (hclosed : ∀ j < s.p.length, (s.p.getD j default).remainingTime = 0 →
      (s.p.getD j default).turnAroundTime
          = (s.p.getD j default).completionTime - (s.p.getD j default).arrivalTime ∧
        (s.p.getD j default).waitingTime
          = (s.p.getD j default).turnAroundTime - (s.p.getD j default).burstTime) :
    ∀ j < s'.p.length, (s'.p.getD j default).remainingTime = 0 →
      (s'.p.getD j default).turnAroundTime
          = (s'.p.getD j default).completionTime - (s'.p.getD j default).arrivalTime ∧
        (s'.p.getD j default).waitingTime
          = (s'.p.getD j default).turnAroundTime - (s'.p.getD j default).burstTime := by
  cases hq : s.readyQueue with
  | nil =>
    unfold rrStep at hstep
    rw [hq] at hstep
    cases hstep
  | cons i rest =>
    obtain ⟨s2, hstep2, _, _, hlen, _, hother, _, hcase⟩ := rrStep_inv hquantum inv hq
    rw [hstep] at hstep2
    cases hstep2
    intro j hj h0
    by_cases hji : j = i
    · subst hji
      rcases hcase with ⟨_, _, hrec⟩ | ⟨hpos, _, _⟩
      · rw [hrec]
        exact ⟨rfl, rfl⟩
      · omega
    · rw [hother j hji] at h0 ⊢
      exact hclosed j (hlen ▸ hj) h0

/-- A property of states that every defined step keeps holds of whatever state the loop
returns. -/
theorem rrLoop_keeps {quantum : Int} {P : RRState → Prop}
    (hkeep : ∀ s s', P s → rrStep quantum s = some s' → P s') (fuel : Nat) :
    ∀ s s', P s → rrLoop quantum fuel s = some s' → P s' := by
  induction fuel with
  | zero =>
    intro s s' hP h
    unfold rrLoop at h
    split at h
    · cases h; exact hP
    · cases h
  | succ fuel ih =>
    intro s s' hP h
    unfold rrLoop at h
    split at h
    · cases h; exact hP
    · cases hstep : rrStep quantum s with
      | none => rw [hstep] at h; cases h
      | some s1 =>
        rw [hstep] at h
        exact ih s1 s' (hkeep s s1 hP hstep) h

/-- A defined step from a state with the invariant leads to a state with the invariant. -/
theorem rrStep_keeps_inv {quantum : Int} (hquantum : 0 < quantum) {s s' : RRState}
    (inv : RRInv s) (hstep : rrStep quantum s = some s') : RRInv s' := by
  cases hq : s.readyQueue with
  | nil =>
    unfold rrStep at hstep
    rw [hq] at hstep
    cases hstep
  | cons i rest =>
    obtain ⟨s2, hstep2, inv2, _⟩ := rrStep_inv hquantum inv hq
    rw [hstep] at hstep2
    cases hstep2
    exact inv2

/-- The entry state of `roundRobin` on a non-empty vector whose every record has positive
remaining service satisfies the invariant, with index 0 queued. -/
theorem rrInit_inv {srt : List Process → List Process} (hsrt : SortsByArrival srt)
    {p : List Process} (hne : p ≠ []) (hrem : ∀ x ∈ p, 0 < x.remainingTime) :
    ∃ s0, rrInit srt p = some s0 ∧ RRInv s0 ∧ s0.readyQueue = [0] ∧
      s0.p = srt p ∧ s0.completed = 0 ∧ s0.currentTime = 0 := by
  have hlen : p.length ≠ 0 := fun h => hne (List.length_eq_zero.mp h)
  have hslen : (srt p).length = p.length := (hsrt p).1.length_eq
  have hsrem : ∀ j < (srt p).length, 0 < ((srt p).getD j default).remainingTime := by
    intro j hj
    apply hrem
    exact (hsrt p).1.mem_iff.mp (getD_mem _ default hj)
  refine ⟨_, by unfold rrInit; rw [if_neg hlen], ⟨?_, ?_, ?_, ?_, ?_, ?_⟩, rfl, rfl, rfl, rfl⟩
  · simp [hslen]
  · simp
  · intro i hi
    simp only [List.mem_singleton] at hi
    subst hi
    refine ⟨by rw [hslen]; omega, ?_, hsrem 0 (by rw [hslen]; omega)⟩
    show ((List.replicate p.length false).set 0 true).getD 0 true = true
    rw [getD_set_eq _ _ _ _ (by simp; omega)]
  · intro i hi hm
    simp only at hi hm ⊢
    by_cases h0 : 0 = i
    · left; rw [← h0]; exact List.mem_singleton_self 0
    · exfalso
      rw [getD_set_of_ne _ _ _ h0] at hm
      rw [hslen] at hi
      simp [List.getD_eq_getElem?_getD, List.getElem?_replicate, hi] at hm
  · intro i hi _
    exact hsrem i hi
  · simp only
    symm
    rw [List.countP_eq_zero]
    intro x hx
    have := hrem x ((hsrt p).1.mem_iff.mp hx)
    simp
    omega

/-! ### The sort by arrival time -/

theorem arrivalLE_iff (a b : Process) : arrivalLE a b ↔ a.arrivalTime ≤ b.arrivalTime := by
  unfold arrivalLE compareArrival
  simp

theorem sortByArrival_sorted (p : List Process) : (sortByArrival p).Sorted arrivalLE :=
  List.sorted_insertionSort arrivalLE p

theorem sortByArrival_perm (p : List Process) : (sortByArrival p).Perm p :=
  List.perm_insertionSort arrivalLE p

/-- The insertion sort meets the contract of the library sort. -/
theorem sortByArrival_sorts : SortsByArrival sortByArrival :=
  fun l => ⟨sortByArrival_perm l, sortByArrival_sorted l⟩

/-- The sort keeps the processes of one arrival time in their input order. -/
theorem arrivingAt_sortByArrival (a : Int) (p : List Process) :
    arrivingAt a (sortByArrival p) = arrivingAt a p := by
  have hpair : (arrivingAt a p).Pairwise arrivalLE := by
    apply List.pairwise_of_forall_mem_list
    intro x hx y hy
    rw [arrivalLE_iff]
    have hxa := (List.mem_filter.mp hx).2
    have hya := (List.mem_filter.mp hy).2
    simp only [decide_eq_true_eq] at hxa hya
    rw [hxa, hya]
  have hsub : List.Sublist (arrivingAt a p) (sortByArrival p) :=
    List.sublist_insertionSort hpair (List.filter_sublist _)
  have hsub2 : List.Sublist (arrivingAt a p) (arrivingAt a (sortByArrival p)) := by
    have := hsub.filter (fun x => decide (x.arrivalTime = a))
    unfold arrivingAt at this ⊢
    rw [List.filter_filter] at this
    simpa only [Bool.and_self] using this
  have hlen : (arrivingAt a (sortByArrival p)).length = (arrivingAt a p).length :=
    ((sortByArrival_perm p).filter _).length_eq
  exact (hsub2.eq_of_length hlen.symm).symm

/-- Two vectors in arrival order that agree, for every arrival time, on the processes
arriving then (in order) are the same vector. -/
theorem eq_of_sorted_of_arrivingAt : ∀ (l1 l2 : List Process),
    l1.Sorted arrivalLE → l2.Sorted arrivalLE →
    (∀ a, arrivingAt a l1 = arrivingAt a l2) → l1 = l2 := by
  intro l1
  induction l1 with
  | nil =>
    intro l2 _ _ h
    cases l2 with
    | nil => rfl
    | cons y t2 =>
      have := h y.arrivalTime
      simp [arrivingAt] at this
  | cons x t1 ih =>
    intro l2 hs1 hs2 h
    cases l2 with
    | nil =>
      have := h x.arrivalTime
      simp [arrivingAt] at this
    | cons y t2 =>
      have hx2 : x ∈ y :: t2 := by
        have hmem : x ∈ arrivingAt x.arrivalTime (y :: t2) := by
          rw [← h x.arrivalTime]
          simp [arrivingAt]
        exact List.mem_of_mem_filter hmem
      have hy1 : y ∈ x :: t1 := by
        have hmem : y ∈ arrivingAt y.arrivalTime (x :: t1) := by
          rw [h y.arrivalTime]
          simp [arrivingAt]
        exact List.mem_of_mem_filter hmem
      have hxy : x.arrivalTime ≤ y.arrivalTime := by
        rcases List.mem_cons.mp hy1 with rfl | hy
        · exact le_refl _
        · exact (arrivalLE_iff _ _).mp (List.rel_of_sorted_cons hs1 y hy)
      have hyx : y.arrivalTime ≤ x.arrivalTime := by
        rcases List.mem_cons.mp hx2 with rfl | hx
        · exact le_refl _
        · exact (arrivalLE_iff _ _).mp (List.rel_of_sorted_cons hs2 x hx)
      have harr : y.arrivalTime = x.arrivalTime := le_antisymm hyx hxy
      have hhead := h x.arrivalTime
      simp only [arrivingAt, List.filter_cons, harr, decide_True, if_true] at hhead
      have hxeq : x = y := (List.cons.inj hhead).1
      subst hxeq
      congr 1
      apply ih t2 hs1.of_cons hs2.of_cons
      intro a
      have ha := h a
      simp only [arrivingAt, List.filter_cons] at ha
      by_cases hax : x.arrivalTime = a
      · simp only [hax, decide_True, if_true] at ha
        exact (List.cons.inj ha).2
      · simp only [hax, decide_False] at ha
        exact ha

/-- Two vectors with the same processes for every arrival time, in the same order, are
sorted to the same vector. -/
theorem sortByArrival_congr {p1 p2 : List Process}
    (h : ∀ a, arrivingAt a p1 = arrivingAt a p2) : sortByArrival p1 = sortByArrival p2 := by
  apply eq_of_sorted_of_arrivingAt _ _ (sortByArrival_sorted p1) (sortByArrival_sorted p2)
  intro a
  rw [arrivingAt_sortByArrival, arrivingAt_sortByArrival, h a]

/-- In a vector with pairwise distinct arrival times, the processes arriving at a given
time are the same list in every rearrangement. -/
theorem arrivingAt_of_perm_of_distinct {l1 l2 : List Process} (hperm : l1.Perm l2)
    (hd : (l2.map Process.arrivalTime).Nodup) (a : Int) :
    arrivingAt a l1 = arrivingAt a l2 := by
  have hp : (arrivingAt a l1).Perm (arrivingAt a l2) := hperm.filter _
  have hlen : (arrivingAt a l2).length ≤ 1 := by
    have hsub : List.Sublist ((arrivingAt a l2).map Process.arrivalTime)
        (l2.map Process.arrivalTime) := (List.filter_sublist l2).map _
    have hnd := hd.sublist hsub
    have hall : ∀ b ∈ (arrivingAt a l2).map Process.arrivalTime, b = a := by
      intro b hb
      obtain ⟨x, hx, rfl⟩ := List.mem_map.mp hb
      exact of_decide_eq_true (List.mem_filter.mp hx).2
    rw [List.eq_replicate_of_mem hall] at hnd
    have := List.nodup_replicate.mp hnd
    simpa using this
  cases h2 : arrivingAt a l2 with
  | nil =>
    rw [h2] at hp
    exact hp.eq_nil
  | cons x t =>
    rw [h2] at hp hlen
    have ht : t = [] := by
      cases t with
      | nil => rfl
      | cons y t' => simp at hlen
    subst ht
    exact List.perm_singleton.mp hp

/-- On a vector with pairwise distinct arrival times every sort that meets the contract
returns the same vector as the insertion sort. -/
theorem srt_eq_sortByArrival {srt : List Process → List Process}
    (hsrt : SortsByArrival srt) {l : List Process}
    (hd : (l.map Process.arrivalTime).Nodup) : srt l = sortByArrival l := by
  apply eq_of_sorted_of_arrivingAt _ _ (hsrt l).2 (sortByArrival_sorted l)
  intro a
  rw [arrivingAt_of_perm_of_distinct (hsrt l).1 hd a,
    arrivingAt_of_perm_of_distinct (sortByArrival_perm l) hd a]

/-! ### `sjf` on equal bursts listed in arrival order -/

theorem sjfLoop_of_done {s : SjfState} (fuel : Nat) (h : s.completed = s.p.length) :
    sjfLoop fuel s = some s := by
  cases fuel <;> (unfold sjfLoop; rw [if_pos h])

theorem sjfLoop_succ {s : SjfState} (fuel : Nat) (h : s.completed ≠ s.p.length) :
    sjfLoop (fuel + 1) s = sjfLoop fuel (sjfStep s) := by
  conv_lhs => unfold sjfLoop
  rw [if_neg h]

/-- A returned state is returned for every larger budget too. -/
theorem sjfLoop_mono (fuel : Nat) : ∀ (s r : SjfState), sjfLoop fuel s = some r →
    ∀ extra, sjfLoop (fuel + extra) s = some r := by
  induction fuel with
  | zero =>
    intro s r h extra
    unfold sjfLoop at h
    split at h
    · cases h
      rename_i hc
      exact sjfLoop_of_done _ hc
    · cases h
  | succ fuel ih =>
    intro s r h extra
    by_cases hc : s.completed = s.p.length
    · rw [sjfLoop_of_done _ hc] at h ⊢
      exact h
    · rw [sjfLoop_succ _ hc] at h
      rw [Nat.add_right_comm, sjfLoop_succ _ hc]
      exact ih _ _ h extra

/-- The loop of `sjf` returns at most one state, whatever the budget. -/
theorem sjfLoop_unique {s r1 r2 : SjfState} {f1 f2 : Nat} (h1 : sjfLoop f1 s = some r1)
    (h2 : sjfLoop f2 s = some r2) : r1 = r2 := by
  have e1 := sjfLoop_mono f1 s r1 h1 f2
  have e2 := sjfLoop_mono f2 s r2 h2 f1
  rw [Nat.add_comm] at e2
  rw [e1] at e2
  exact Option.some.inj e2

theorem sjfAfter_flag_front (done todo : List Process) (t : Int) {i : Nat}
    (h : i < done.length) : (sjfAfter done todo t).isCompleted.getD i false = true := by
  simp [sjfAfter, List.getD_eq_getElem?_getD, List.getElem?_append_left, h]

theorem sjfAfter_flag_back (done todo : List Process) (t : Int) {i : Nat}
    (h : done.length ≤ i) : (sjfAfter done todo t).isCompleted.getD i false = false := by
  simp only [sjfAfter, List.getD_eq_getElem?_getD]
  rw [List.getElem?_append_right (by simpa using h)]
  by_cases h2 : i - done.length < todo.length
  · simp [List.getElem?_replicate, h2]
  · simp [List.getElem?_replicate, h2]

theorem sjfAfter_getD_back (done todo : List Process) (t : Int) {i : Nat}
    (h : done.length ≤ i) :
    (sjfAfter done todo t).p.getD i default = todo.getD (i - done.length) default := by
  simp only [sjfAfter]
  exact List.getD_append_right _ _ _ _ h

/-- With equal bursts below the sentinel and the pending records in arrival order, the
scan selects the first pending record as soon as it has arrived. -/
theorem sjfScan_after_arrived (done : List Process) (x : Process) (rest : List Process)
    (t : Int) (b : Int) (hb : ∀ y ∈ x :: rest, y.burstTime = b) (hsmall : b < minBurstInit)
    (harr : x.arrivalTime ≤ t) :
    (sjfScan (sjfAfter done (x :: rest) t).p (sjfAfter done (x :: rest) t).isCompleted t).1
      = some done.length := by
  have hk : done.length < (sjfAfter done (x :: rest) t).p.length := by
    simp [sjfAfter]
  have hpk : (sjfAfter done (x :: rest) t).p.getD done.length default = x := by
    rw [sjfAfter_getD_back _ _ _ (le_refl _)]
    simp
  have hcand : SjfCand (sjfAfter done (x :: rest) t).p
      (sjfAfter done (x :: rest) t).isCompleted t done.length :=
    ⟨by rw [hpk]; exact harr, sjfAfter_flag_back _ _ _ (le_refl _)⟩
  have hbk : ((sjfAfter done (x :: rest) t).p.getD done.length default).burstTime
      < minBurstInit := by
    rw [hpk, hb x (List.mem_cons_self _ _)]; exact hsmall
  obtain ⟨j, hj⟩ := sjfScan_isSome hk hcand hbk
  obtain ⟨hjlen, hjc, _, hfirst, _⟩ := sjfScan_some hj
  have hjge : done.length ≤ j := by
    by_contra hlt
    have := sjfAfter_flag_front done (x :: rest) t (not_le.mp hlt)
    rw [hjc.2] at this
    cases this
  have hjb : ((sjfAfter done (x :: rest) t).p.getD j default).burstTime = b := by
    rw [sjfAfter_getD_back _ _ _ hjge]
    apply hb
    apply getD_mem
    simp [sjfAfter] at hjlen
    simp
    omega
  have hjk : j = done.length := by
    by_contra hne
    have hlt : done.length < j := lt_of_le_of_ne hjge (Ne.symm hne)
    have := hfirst done.length hlt hcand
    rw [hjb, hpk, hb x (List.mem_cons_self _ _)] at this
    exact lt_irrefl _ this
  rw [hj, hjk]

/-- With the pending records in arrival order, the scan selects nothing while the first
pending record has not arrived. -/
theorem sjfScan_after_waiting (done : List Process) (x : Process) (rest : List Process)
    (t : Int) (hsorted : (x :: rest).Sorted arrivalLE) (harr : t < x.arrivalTime) :
    (sjfScan (sjfAfter done (x :: rest) t).p (sjfAfter done (x :: rest) t).isCompleted t).1
      = none := by
  cases hscan : (sjfScan (sjfAfter done (x :: rest) t).p
      (sjfAfter done (x :: rest) t).isCompleted t).1 with
  | none => rfl
  | some j =>
    exfalso
    obtain ⟨hjlen, hjc, _, _, _⟩ := sjfScan_some hscan
    have hjge : done.length ≤ j := by
      by_contra hlt
      have := sjfAfter_flag_front done (x :: rest) t (not_le.mp hlt)
      rw [hjc.2] at this
      cases this
    have hmem : (sjfAfter done (x :: rest) t).p.getD j default ∈ x :: rest := by
      rw [sjfAfter_getD_back _ _ _ hjge]
      apply getD_mem
      simp [sjfAfter] at hjlen
      simp
      omega
    have hle : x.arrivalTime ≤ ((sjfAfter done (x :: rest) t).p.getD j default).arrivalTime := by
      rcases List.mem_cons.mp hmem with h | h
      · rw [h]
      · exact (arrivalLE_iff _ _).mp (List.rel_of_sorted_cons hsorted _ h)
    have := hjc.1
    omega

theorem sjfStep_after_arrived (done : List Process) (x : Process) (rest : List Process)
    (t : Int) (b : Int) (hb : ∀ y ∈ x :: rest, y.burstTime = b) (hsmall : b < minBurstInit)
    (harr : x.arrivalTime ≤ t) :
    sjfStep (sjfAfter done (x :: rest) t)
      = sjfAfter (done ++ [finish x (t + x.burstTime)]) rest (t + x.burstTime) := by
  have hscan := sjfScan_after_arrived done x rest t b hb hsmall harr
  have hpk : (sjfAfter done (x :: rest) t).p.getD done.length default = x := by
    rw [sjfAfter_getD_back _ _ _ (le_refl _)]
    simp
  rw [sjfStep_some hscan, hpk]
  simp only [sjfAfter, List.length_append, List.length_singleton, List.length_cons,
    List.append_assoc, List.singleton_append]
  congr 1
  · rw [List.set_append_right _ _ (le_refl _)]
    simp
  · rw [List.set_append_right _ _ (by simp)]
    simp [List.replicate_succ]
    exact replicate_append_cons _ _ _

theorem sjfStep_after_waiting (done : List Process) (x : Process) (rest : List Process)
    (t : Int) (hsorted : (x :: rest).Sorted arrivalLE) (harr : t < x.arrivalTime) :
    sjfStep (sjfAfter done (x :: rest) t) = sjfAfter done (x :: rest) (t + 1) := by
  have hscan := sjfScan_after_waiting done x rest t hsorted harr
  rw [sjfStep_none hscan]
  rfl

theorem fcfsLoop_cons_arrived (x : Process) (rest : List Process) (t : Int)
    (h : x.arrivalTime ≤ t) :
    fcfsLoop (x :: rest) t
      = finish x (t + x.burstTime) :: fcfsLoop rest (t + x.burstTime) := by
  conv_lhs => rw [fcfsLoop]
  simp only [not_lt.mpr h, if_false]

theorem fcfsLoop_cons_waiting (x : Process) (rest : List Process) (t : Int)
    (h : t ≤ x.arrivalTime) :
    fcfsLoop (x :: rest) t
      = finish x (x.arrivalTime + x.burstTime)
        :: fcfsLoop rest (x.arrivalTime + x.burstTime) := by
  rcases lt_or_eq_of_le h with hlt | heq
  · conv_lhs => rw [fcfsLoop]
    simp only [hlt, if_true]
  · rw [fcfsLoop_cons_arrived x rest t (le_of_eq heq.symm), heq]

/-- From the state in which the front records `done` are completed and the pending records
`todo`, all of burst `b` below the sentinel, are in arrival order, the loop of `sjf`
returns, and it has closed the pending records exactly as the `fcfs` loop closes them
from the same clock value. -/
theorem sjfLoop_equal_bursts (b : Int) (hsmall : b < minBurstInit) :
    ∀ (todo done : List Process) (t : Int), (∀ y ∈ todo, y.burstTime = b) →
      todo.Sorted arrivalLE →
      ∃ fuel s', sjfLoop fuel (sjfAfter done todo t) = some s' ∧
        s'.p = done ++ fcfsLoop todo t := by
  intro todo
  induction todo with
  | nil =>
    intro done t _ _
    exact ⟨0, _, sjfLoop_of_done 0 (by simp [sjfAfter]), rfl⟩
  | cons x rest ih =>
    intro done t hb hsorted
    have hgo : ∀ (d : Nat) (t : Int), (x.arrivalTime - t).toNat = d →
        ∃ fuel s', sjfLoop fuel (sjfAfter done (x :: rest) t) = some s' ∧
          s'.p = done ++ fcfsLoop (x :: rest) t := by
      intro d
      induction d with
      | zero =>
        intro t hd
        have harr : x.arrivalTime ≤ t := by omega
        obtain ⟨fuel, s', hloop, hp⟩ := ih (done ++ [finish x (t + x.burstTime)])
          (t + x.burstTime) (fun y hy => hb y (List.mem_cons_of_mem _ hy)) hsorted.of_cons
        refine ⟨fuel + 1, s', ?_, ?_⟩
        · rw [sjfLoop_succ _ (by simp [sjfAfter]),
            sjfStep_after_arrived done x rest t b hb hsmall harr]
          exact hloop
        · rw [hp, fcfsLoop_cons_arrived x rest t harr]
          simp
      | succ d ihd =>
        intro t hd
        have harr : t < x.arrivalTime := by omega
        obtain ⟨fuel, s', hloop, hp⟩ := ihd (t + 1) (by omega)
        refine ⟨fuel + 1, s', ?_, ?_⟩
        · rw [sjfLoop_succ _ (by simp [sjfAfter]),
            sjfStep_after_waiting done x rest t hsorted harr]
          exact hloop
        · rw [hp, fcfsLoop_cons_waiting x rest (t + 1) (by omega),
            fcfsLoop_cons_waiting x rest t (le_of_lt harr)]
    exact hgo _ t rfl

/-! ### The schedule of `fcfs` -/

theorem fcfsLoop_mem (l : List Process) : ∀ (t : Int), ∀ y ∈ fcfsLoop l t,
    ∃ x ∈ l, ∃ c, y = finish x c := by
  induction l with
  | nil => intro t y hy; cases hy
  | cons x rest ih =>
    intro t y hy
    rw [fcfsLoop] at hy
    rcases List.mem_cons.mp hy with rfl | hy
    · exact ⟨x, List.mem_cons_self _ _, _, rfl⟩
    · obtain ⟨z, hz, c, hc⟩ := ih _ y hy
      exact ⟨z, List.mem_cons_of_mem _ hz, c, hc⟩

/-- No record of the `fcfs` loop started from clock `t` starts before `t`. -/
theorem fcfsLoop_start_ge (l : List Process) (hb : ∀ x ∈ l, 0 ≤ x.burstTime) :
    ∀ (t : Int), ∀ y ∈ fcfsLoop l t, t ≤ y.completionTime - y.burstTime := by
  induction l with
  | nil => intro t y hy; cases hy
  | cons x rest ih =>
    intro t y hy
    rw [fcfsLoop] at hy
    have hx := hb x (List.mem_cons_self _ _)
    rcases List.mem_cons.mp hy with rfl | hy
    · show t ≤ (if t < x.arrivalTime then x.arrivalTime else t) + x.burstTime - x.burstTime
      split <;> omega
    · have := ih (fun z hz => hb z (List.mem_cons_of_mem _ hz)) _ y hy
      split at this <;> omega

/-- In the vector of the `fcfs` loop over a vector in arrival order, a record in front of
another arrives no later and completes no later than the other starts. -/
theorem fcfsLoop_chain (l : List Process) (hb : ∀ x ∈ l, 0 ≤ x.burstTime)
    (hs : l.Sorted arrivalLE) : ∀ (t : Int),
    (fcfsLoop l t).Pairwise (fun a b => a.arrivalTime ≤ b.arrivalTime ∧
      a.completionTime ≤ b.completionTime - b.burstTime) := by
  induction l with
  | nil => intro t; exact List.Pairwise.nil
  | cons x rest ih =>
    intro t
    rw [fcfsLoop]
    refine List.Pairwise.cons ?_ (ih (fun z hz => hb z (List.mem_cons_of_mem _ hz))
      hs.of_cons _)
    intro y hy
    refine ⟨?_, fcfsLoop_start_ge rest (fun z hz => hb z (List.mem_cons_of_mem _ hz)) _ y hy⟩
    obtain ⟨z, hz, c, rfl⟩ := fcfsLoop_mem rest _ y hy
    exact (arrivalLE_iff _ _).mp (List.rel_of_sorted_cons hs z hz)

theorem fcfsLoop_map_id (l : List Process) : ∀ (t : Int),
    (fcfsLoop l t).map Process.id = l.map Process.id := by
  induction l with
  | nil => intro t; rfl
  | cons x rest ih =>
    intro t
    rw [fcfsLoop, List.map_cons, List.map_cons, ih]
    rfl

theorem fcfsLoop_sorted (l : List Process) (hs : l.Sorted arrivalLE) : ∀ (t : Int),
    (fcfsLoop l t).Sorted arrivalLE := by
  induction l with
  | nil => intro t; exact List.Pairwise.nil
  | cons x rest ih =>
    intro t
    rw [fcfsLoop]
    refine List.Pairwise.cons ?_ (ih hs.of_cons _)
    intro y hy
    obtain ⟨z, hz, c, rfl⟩ := fcfsLoop_mem rest _ y hy
    exact List.rel_of_sorted_cons hs z hz

/-! ### The schedule of `sjf` -/

/-- A property of states that the loop body keeps holds of whatever state the loop of
`sjf` returns. -/
theorem sjfLoop_keeps {P : SjfState → Prop} (hkeep : ∀ s, P s → P (sjfStep s))
    (fuel : Nat) : ∀ s s', P s → sjfLoop fuel s = some s' → P s' := by
  induction fuel with
  | zero =>
    intro s s' hP h
    unfold sjfLoop at h
    split at h
    · cases h; exact hP
    · cases h
  | succ fuel ih =>
    intro s s' hP h
    unfold sjfLoop at h
    split at h
    · cases h; exact hP
    · exact ih _ _ (hkeep s hP) h

theorem sjfSched_init (p : List Process) : SjfSched (sjfInit p) where
  past := by
    intro i hi h
    have hi' : i < p.length := hi
    simp [sjfInit, List.getD_eq_getElem?_getD, List.getElem?_replicate, hi'] at h
  apart := by
    intro i hi j _ _ h
    have hi' : i < p.length := hi
    simp [sjfInit, List.getD_eq_getElem?_getD, List.getElem?_replicate, hi'] at h

/-- The loop body of `sjf` keeps the schedule facts when no burst is negative. -/
theorem sjfSched_step {p0 : List Process} (hb : ∀ x ∈ p0, 0 ≤ x.burstTime) {s : SjfState}
    (inv : SjfInv p0 s) (sched : SjfSched s) : SjfSched (sjfStep s) := by
  cases hscan : (sjfScan s.p s.isCompleted s.currentTime).1 with
  | none =>
    rw [sjfStep_none hscan]
    refine ⟨?_, sched.apart⟩
    intro i hi h
    have := sched.past i hi h
    simp only at this ⊢
    omega
  | some idx =>
    rw [sjfStep_some hscan]
    obtain ⟨hidx, hcand, _, _, _⟩ := sjfScan_some hscan
    have hidx0 : idx < p0.length := inv.len_p ▸ hidx
    have hidxc : idx < s.isCompleted.length := by rw [inv.len_ic]; exact hidx0
    have hx : s.p.getD idx default = p0.getD idx default := inv.pending idx hidx0 hcand.2
    have hbx : 0 ≤ (s.p.getD idx default).burstTime := by
      rw [hx]; exact hb _ (getD_mem p0 default hidx0)
    have hnew : ∀ i < s.p.length, i ≠ idx → s.isCompleted.getD i false = true →
        NoOverlap (s.p.getD i default)
          (finish (s.p.getD idx default)
            (s.currentTime + (s.p.getD idx default).burstTime)) := by
      intro i hi _ hdone
      left
      have := sched.past i hi hdone
      show (s.p.getD i default).completionTime
        ≤ s.currentTime + (s.p.getD idx default).burstTime - (s.p.getD idx default).burstTime
      omega
    refine ⟨?_, ?_⟩
    · intro i hi h
      simp only [List.length_set] at hi
      simp only at h ⊢
      by_cases hii : idx = i
      · subst hii
        rw [getD_set_eq _ _ _ _ hidx]
        exact le_refl _
      · rw [getD_set_of_ne _ _ _ hii] at h ⊢
        have := sched.past i hi h
        omega
    · intro i hi j hj hij hdi hdj
      simp only [List.length_set] at hi hj
      simp only at hdi hdj ⊢
      by_cases hii : idx = i
      · subst hii
        have hjne : idx ≠ j := hij
        rw [getD_set_of_ne _ _ _ hjne] at hdj
        rw [getD_set_eq _ _ _ _ hidx, getD_set_of_ne _ _ _ hjne]
        exact (hnew j hj (Ne.symm hjne) hdj).symm
      · rw [getD_set_of_ne _ _ _ hii] at hdi
        rw [getD_set_of_ne _ _ _ hii]
        by_cases hjj : idx = j
        · subst hjj
          rw [getD_set_eq _ _ _ _ hidx]
          exact hnew i hi (Ne.symm hii) hdi
        · rw [getD_set_of_ne _ _ _ hjj] at hdj
          rw [getD_set_of_ne _ _ _ hjj]
          exact sched.apart i hi j hj hij hdi hdj

/-! ### The loop body of `roundRobin` in two parts -/

/-- The loop body is its first part followed by the idle-gap block. -/
theorem rrStep_eq_body (quantum : Int) (s : RRState) :
    rrStep quantum s = (rrBody quantum s).map rrIdle := by
  unfold rrStep rrBody
  cases s.readyQueue with
  | nil => rfl
  | cons i rest =>
    simp only
    split
    · split <;> rfl
    · rfl

/-- The first part of the loop body on a state whose queue has front `i` and tail
`rest`. -/
theorem rrBody_cons (quantum : Int) {s : RRState} {i : Nat} {rest : List Nat}
    (hq : s.readyQueue = i :: rest) (hin : i < s.p.length) :
    rrBody quantum s =
      if 0 < (rrSlice quantum (s.p.getD i default)).remainingTime then
        some
          { p := s.p.set i (rrSlice quantum (s.p.getD i default))
            readyQueue := (rrAdmit (s.p.set i (rrSlice quantum (s.p.getD i default)))
              (s.currentTime + min (s.p.getD i default).remainingTime quantum) rest s.mark).1
              ++ [i]
            mark := (rrAdmit (s.p.set i (rrSlice quantum (s.p.getD i default)))
              (s.currentTime + min (s.p.getD i default).remainingTime quantum) rest s.mark).2
            currentTime := s.currentTime + min (s.p.getD i default).remainingTime quantum
            completed := s.completed }
      else
        some
          { p := (s.p.set i (rrSlice quantum (s.p.getD i default))).set i
              (finish (rrSlice quantum (s.p.getD i default))
                (s.currentTime + min (s.p.getD i default).remainingTime quantum))
            readyQueue := (rrAdmit (s.p.set i (rrSlice quantum (s.p.getD i default)))
              (s.currentTime + min (s.p.getD i default).remainingTime quantum) rest s.mark).1
            mark := (rrAdmit (s.p.set i (rrSlice quantum (s.p.getD i default)))
              (s.currentTime + min (s.p.getD i default).remainingTime quantum) rest s.mark).2
            currentTime := s.currentTime + min (s.p.getD i default).remainingTime quantum
            completed := s.completed + 1 } := by
  unfold rrBody
  rw [hq]
  simp only [hin, if_true]
  rfl

/-- A defined step starts from a non-empty queue whose front index is in range. -/
theorem rrStep_some_front {quantum : Int} {s s' : RRState}
    (hstep : rrStep quantum s = some s') :
    ∃ i rest, s.readyQueue = i :: rest ∧ i < s.p.length := by
  unfold rrStep at hstep
  cases hq : s.readyQueue with
  | nil => rw [hq] at hstep; cases hstep
  | cons i rest =>
    rw [hq] at hstep
    simp only at hstep
    by_cases hin : i < s.p.length
    · exact ⟨i, rest, rfl, hin⟩
    · rw [if_neg hin] at hstep; cases hstep

theorem rrIdle_p (m : RRState) : (rrIdle m).p = m.p := by
  unfold rrIdle
  split
  · split <;> rfl
  · rfl

theorem rrIdle_completed (m : RRState) : (rrIdle m).completed = m.completed := by
  unfold rrIdle
  split
  · split <;> rfl
  · rfl

/-- The idle-gap block leaves a state with a non-empty queue as it is. -/
theorem rrIdle_of_ne_nil {m : RRState} (h : m.readyQueue ≠ []) : rrIdle m = m := by
  unfold rrIdle
  rw [if_neg]
  intro hc
  exact h (List.isEmpty_iff.mp hc.1)

/-- The idle-gap block clears no mark. -/
theorem rrIdle_mark_mono (m : RRState) (j : Nat) (h : m.mark.getD j true = true) :
    (rrIdle m).mark.getD j true = true := by
  unfold rrIdle
  split
  · split
    · rename_i k _
      simp only
      by_cases hkj : k = j
      · subst hkj
        by_cases hlen : k < m.mark.length
        · rw [getD_set_eq _ _ _ _ hlen]
        · rw [List.set_eq_of_length_le (not_lt.mp hlen)]
          exact h
      · rw [getD_set_of_ne _ _ _ hkj]
        exact h
    · exact h
  · exact h

theorem staticOf_finish (x : Process) (c : Int) : staticOf (finish x c) = staticOf x := rfl

theorem staticOf_rrSlice (quantum : Int) (x : Process) :
    staticOf (rrSlice quantum x) = staticOf x := rfl

theorem map_set_of_eq {α β : Type} (f : α → β) (d : α) (l : List α) :
    ∀ (i : Nat) (y : α), f y = f (l.getD i d) → (l.set i y).map f = l.map f := by
  induction l with
  | nil => intro i y _; rfl
  | cons x rest ih =>
    intro i y h
    cases i with
    | zero =>
      simp only [List.getD_cons_zero] at h
      simp only [List.set_cons_zero, List.map_cons, h]
    | succ i =>
      simp only [List.getD_cons_succ] at h
      simp only [List.set_cons_succ, List.map_cons, ih i y h]

/-- The first part of the loop body writes no id, arrival time or burst. -/
theorem rrBody_static {quantum : Int} {s m : RRState} (h : rrBody quantum s = some m) :
    m.p.map staticOf = s.p.map staticOf := by
  unfold rrBody at h
  cases hq : s.readyQueue with
  | nil => rw [hq] at h; cases h
  | cons i rest =>
    rw [hq] at h
    simp only at h
    by_cases hin : i < s.p.length
    · rw [if_pos hin] at h
      split at h
      · cases h
        exact map_set_of_eq staticOf default _ _ _ rfl
      · cases h
        simp only
        rw [List.set_set]
        exact map_set_of_eq staticOf default _ _ _ rfl
    · rw [if_neg hin] at h; cases h

/-- The loop body writes no id, arrival time or burst. -/
theorem rrStep_static {quantum : Int} {s s' : RRState} (h : rrStep quantum s = some s') :
    s'.p.map staticOf = s.p.map staticOf := by
  rw [rrStep_eq_body] at h
  cases hb : rrBody quantum s with
  | none => rw [hb] at h; cases h
  | some m =>
    rw [hb] at h
    cases h
    rw [rrIdle_p]
    exact rrBody_static hb

theorem rrNew_set_slice (quantum : Int) (p : List Process) (mark : List Bool) (t : Int)
    {i : Nat} (hin : i < p.length) (j : Nat) :
    RRNew (p.set i (rrSlice quantum (p.getD i default))) mark t j ↔ RRNew p mark t j := by
  unfold RRNew
  by_cases hij : i = j
  · subst hij
    rw [getD_set_eq _ _ _ _ hin]
    rfl
  · rw [getD_set_of_ne _ _ _ hij]

/-- What the first part of the loop body leaves, on a state whose queue has front `i` (in
range) and tail `rest`: the clock has advanced by the slice; the queue is `rest`, then the
indices that were unmarked and have arrived by the new clock value, in ascending order,
then `i` if it has service left; exactly those marks have been set; every record but the
one at `i` is unchanged. -/
theorem rrBody_facts (quantum : Int) {s : RRState} {i : Nat} {rest : List Nat}
    (hq : s.readyQueue = i :: rest) (hin : i < s.p.length) :
    ∃ m, rrBody quantum s = some m ∧
      m.currentTime = s.currentTime + min (s.p.getD i default).remainingTime quantum ∧
      m.readyQueue = rest
        ++ (List.range s.p.length).filter (fun j => decide (RRNew s.p s.mark m.currentTime j))
        ++ (if 0 < (rrSlice quantum (s.p.getD i default)).remainingTime then [i] else []) ∧
      m.mark.length = s.mark.length ∧
      (∀ j, m.mark.getD j true
        = if j < s.p.length ∧ RRNew s.p s.mark m.currentTime j then true
          else s.mark.getD j true) ∧
      m.p.length = s.p.length ∧
      (∀ j, j ≠ i → m.p.getD j default = s.p.getD j default) ∧
      (m.p.getD i default =
        if 0 < (rrSlice quantum (s.p.getD i default)).remainingTime then
          rrSlice quantum (s.p.getD i default)
        else finish (rrSlice quantum (s.p.getD i default)) m.currentTime) ∧
      m.completed = s.completed
        + (if 0 < (rrSlice quantum (s.p.getD i default)).remainingTime then 0 else 1) := by
  rw [rrBody_cons quantum hq hin]
  obtain ⟨h1, h2, h3⟩ := rrAdmit_spec (s.p.set i (rrSlice quantum (s.p.getD i default)))
    (s.currentTime + min (s.p.getD i default).remainingTime quantum) rest s.mark
  have hfilter : (List.range (s.p.set i (rrSlice quantum (s.p.getD i default))).length).filter
      (fun j => decide (RRNew (s.p.set i (rrSlice quantum (s.p.getD i default))) s.mark
        (s.currentTime + min (s.p.getD i default).remainingTime quantum) j))
      = (List.range s.p.length).filter (fun j => decide (RRNew s.p s.mark
        (s.currentTime + min (s.p.getD i default).remainingTime quantum) j)) := by
    rw [List.length_set]
    apply List.filter_congr
    intro j _
    exact decide_eq_decide.mpr (rrNew_set_slice quantum s.p s.mark _ hin j)
  have hmark : ∀ j, (rrAdmit (s.p.set i (rrSlice quantum (s.p.getD i default)))
      (s.currentTime + min (s.p.getD i default).remainingTime quantum) rest s.mark).2.getD j true
      = if j < s.p.length ∧ RRNew s.p s.mark
          (s.currentTime + min (s.p.getD i default).remainingTime quantum) j then true
        else s.mark.getD j true := by
    intro j
    rw [h3 j, List.length_set]
    by_cases hc : j < s.p.length ∧ RRNew s.p s.mark
        (s.currentTime + min (s.p.getD i default).remainingTime quantum) j
    · rw [if_pos hc, if_pos ⟨hc.1, (rrNew_set_slice quantum s.p s.mark _ hin j).mpr hc.2⟩]
    · rw [if_neg hc, if_neg]
      intro hc'
      exact hc ⟨hc'.1, (rrNew_set_slice quantum s.p s.mark _ hin j).mp hc'.2⟩
  by_cases hpos : 0 < (rrSlice quantum (s.p.getD i default)).remainingTime
  · rw [if_pos hpos]
    refine ⟨_, rfl, rfl, ?_, h2, hmark, ?_, ?_, ?_, ?_⟩
    · simp only
      rw [h1, hfilter, if_pos hpos]
    · simp
    · intro j hj
      simp only
      rw [getD_set_of_ne _ _ _ (Ne.symm hj)]
    · simp only
      rw [getD_set_eq _ _ _ _ hin, if_pos hpos]
    · simp only
      rw [if_pos hpos]
      rfl
  · rw [if_neg hpos]
    refine ⟨_, rfl, rfl, ?_, h2, hmark, ?_, ?_, ?_, ?_⟩
    · simp only
      rw [h1, hfilter, if_neg hpos, List.append_nil]
    · simp
    · intro j hj
      simp only
      rw [List.set_set, getD_set_of_ne _ _ _ (Ne.symm hj)]
    · simp only
      rw [List.set_set, getD_set_eq _ _ _ _ hin, if_neg hpos]
    · simp only
      rw [if_neg hpos]

/-- The loop body clears no mark and keeps the length of the mark vector. -/
theorem rrStep_mark_mono {quantum : Int} {s s' : RRState}
    (hstep : rrStep quantum s = some s') (j : Nat) (h : s.mark.getD j true = true) :
    s'.mark.getD j true = true := by
  obtain ⟨i, rest, hq, hin⟩ := rrStep_some_front hstep
  obtain ⟨m, hm, _, _, _, hmark, _⟩ := rrBody_facts quantum hq hin
  rw [rrStep_eq_body, hm] at hstep
  cases hstep
  apply rrIdle_mark_mono
  rw [hmark j]
  split
  · rfl
  · exact h

/-! ### Runs of the `roundRobin` loop -/

/-- A property of states that every defined step keeps holds at the head of every
iteration. -/
theorem rrAfter_keeps {quantum : Int} {P : RRState → Prop}
    (hkeep : ∀ s s', P s → rrStep quantum s = some s' → P s') (k : Nat) :
    ∀ s s', P s → rrAfter quantum k s = some s' → P s' := by
  induction k with
  | zero =>
    intro s s' hP h
    unfold rrAfter at h
    cases h
    exact hP
  | succ k ih =>
    intro s s' hP h
    unfold rrAfter at h
    split at h
    · cases h
    · cases hstep : rrStep quantum s with
      | none => rw [hstep] at h; cases h
      | some s1 =>
        rw [hstep] at h
        exact ih s1 s' (hkeep s s1 hP hstep) h

/-- A defined step from a state with the invariant leaves a non-empty queue while work
remains. -/
theorem rrStep_keeps_ready {quantum : Int} (hquantum : 0 < quantum) {s s' : RRState}
    (inv : RRInv s) (hstep : rrStep quantum s = some s') :
    s'.completed ≠ s'.p.length → s'.readyQueue ≠ [] := by
  obtain ⟨i, rest, hq, _⟩ := rrStep_some_front hstep
  obtain ⟨s2, hstep2, _, hready, _⟩ := rrStep_inv hquantum inv hq
  rw [hstep] at hstep2
  cases hstep2
  exact hready

/-- At the head of every iteration of a run from a state with the invariant and a
non-empty queue, the invariant holds, the queue is non-empty while work remains, and no
id, arrival time or burst has changed. -/
theorem rrAfter_inv {quantum : Int} (hquantum : 0 < quantum) {s0 : RRState}
    (inv0 : RRInv s0) (hready0 : s0.completed ≠ s0.p.length → s0.readyQueue ≠ [])
    (k : Nat) (s : RRState) (h : rrAfter quantum k s0 = some s) :
    RRInv s ∧ (s.completed ≠ s.p.length → s.readyQueue ≠ []) ∧
      s.p.map staticOf = s0.p.map staticOf :=
  rrAfter_keeps
    (P := fun st => RRInv st ∧ (st.completed ≠ st.p.length → st.readyQueue ≠ []) ∧
      st.p.map staticOf = s0.p.map staticOf)
    (fun _ _ hP hstep => ⟨rrStep_keeps_inv hquantum hP.1 hstep,
      rrStep_keeps_ready hquantum hP.1 hstep, by rw [rrStep_static hstep]; exact hP.2.2⟩)
    k s0 s ⟨inv0, hready0, rfl⟩ h

/-- Induction along a run of the `roundRobin` loop: a statement about a budget and a
state holds for every state with the invariant whose owed service the budget covers, once
it holds for the states in which the loop ends, and passes from the state after an
iteration (with one unit less budget) to the state before it. -/
theorem rrRun_induction {quantum : Int} (hquantum : 0 < quantum)
    {motive : Nat → RRState → Prop}
    (hdone : ∀ fuel s, RRInv s → s.completed = s.p.length → motive fuel s)
    (hstep : ∀ fuel s i rest s', RRInv s → s.completed ≠ s.p.length →
      s.readyQueue = i :: rest → rrStep quantum s = some s' → RRInv s' →
      motive fuel s' → motive (fuel + 1) s) :
    ∀ fuel s, RRInv s → (s.completed ≠ s.p.length → s.readyQueue ≠ []) →
      remTotal s.p ≤ fuel → motive fuel s := by
  intro fuel
  induction fuel with
  | zero =>
    intro s inv _ hfuel
    apply hdone 0 s inv
    rw [inv.count]
    apply List.countP_eq_length.mpr
    intro x hx
    obtain ⟨j, hj, rfl⟩ := exists_getD_of_mem default hx
    have h1 := remTotal_eq_zero (Nat.le_zero.mp hfuel) j hj
    have h2 := rrInv_rem_nonneg inv j hj
    exact decide_eq_true (by omega)
  | succ fuel ih =>
    intro s inv hready hfuel
    by_cases hc : s.completed = s.p.length
    · exact hdone _ s inv hc
    · obtain ⟨i, rest, hq⟩ := List.exists_cons_of_ne_nil (hready hc)
      obtain ⟨s', hs', inv', hready', _, hdrop, _⟩ := rrStep_inv hquantum inv hq
      exact hstep fuel s i rest s' inv hc hq hs' inv'
        (ih s' inv' hready' (by omega))

/-! ### Admissions along a run -/

theorem count_filter_range (n : Nat) (P : Nat → Bool) (j : Nat) :
    ((List.range n).filter P).count j = if j < n ∧ P j = true then 1 else 0 := by
  by_cases h : j < n ∧ P j = true
  · rw [if_pos h]
    exact List.count_eq_one_of_mem ((List.nodup_range n).filter _)
      (List.mem_filter.mpr ⟨List.mem_range.mpr h.1, h.2⟩)
  · rw [if_neg h]
    apply List.count_eq_zero_of_not_mem
    intro hmem
    rw [List.mem_filter, List.mem_range] at hmem
    exact h hmem

theorem getD_of_map_eq {α β : Type} (f : α → β) (d : α) {l1 l2 : List α}
    (h : l1.map f = l2.map f) (j : Nat) (hj : j < l1.length) :
    f (l1.getD j d) = f (l2.getD j d) := by
  have hlen : l1.length = l2.length := by
    have := congrArg List.length h
    simpa using this
  have hj2 : j < l2.length := hlen ▸ hj
  have h1 : (l1.map f)[j]? = (l2.map f)[j]? := by rw [h]
  rw [List.getElem?_map, List.getElem?_map, List.getElem?_eq_getElem hj,
    List.getElem?_eq_getElem hj2] at h1
  rw [List.getD_eq_getElem l1 d hj, List.getD_eq_getElem l2 d hj2]
  simpa using h1

/-- Along the rest of a run, the admission log holds every index that is still unmarked
exactly once and no marked index. -/
theorem rrAdmissionLog_count {quantum : Int} (hquantum : 0 < quantum) (fuel : Nat)
    (s : RRState) (inv : RRInv s) (hready : s.completed ≠ s.p.length → s.readyQueue ≠ [])
    (hfuel : remTotal s.p ≤ fuel) :
    ∀ j < s.p.length, (rrAdmissionLog quantum fuel s).count j
      = if s.mark.getD j true = true then 0 else 1 := by
  refine rrRun_induction hquantum
    (motive := fun fuel s => ∀ j < s.p.length, (rrAdmissionLog quantum fuel s).count j
      = if s.mark.getD j true = true then 0 else 1) ?_ ?_ fuel s inv hready hfuel
  · intro fuel s inv hc j hj
    have hlog : rrAdmissionLog quantum fuel s = [] := by
      cases fuel with
      | zero => rfl
      | succ f => unfold rrAdmissionLog; rw [if_pos hc]
    have hmark : s.mark.getD j true = true := by
      cases hm : s.mark.getD j true with
      | true => rfl
      | false =>
        have h1 := inv.unmarked j hj hm
        have h2 := rrInv_all_done inv hc j hj
        omega
    rw [hlog, if_pos hmark]
    rfl
  · intro fuel s i rest s' inv hc _ hstep _ ih j hj
    have hlen : s'.p.length = s.p.length := by
      have := congrArg List.length (rrStep_static hstep)
      simpa using this
    have hlog : rrAdmissionLog quantum (fuel + 1) s
        = (List.range s.p.length).filter
            (fun j => s.mark.getD j true = false ∧ s'.mark.getD j true = true)
          ++ rrAdmissionLog quantum fuel s' := by
      conv_lhs => unfold rrAdmissionLog
      rw [if_neg hc, hstep]
      simp only [rrAdmittedAt, hstep]
    rw [hlog, List.count_append, count_filter_range, ih j (hlen ▸ hj)]
    have hmono := rrStep_mark_mono hstep j
    cases hm : s.mark.getD j true with
    | true =>
      cases hm' : s'.mark.getD j true with
      | true => simp
      | false =>
        have h := hmono hm
        rw [hm'] at h
        cases h
    | false =>
      cases hm' : s'.mark.getD j true with
      | true => simp [hj]
      | false => simp

/-! ### The state before the idle-gap block -/

/-- The first part of the loop body leads from a state with the invariant to a state with
the invariant. -/
theorem rrBody_inv {quantum : Int} {s m : RRState}
    (inv : RRInv s) (hbody : rrBody quantum s = some m) : RRInv m := by
  have hstep : rrStep quantum s = some (rrIdle m) := by
    rw [rrStep_eq_body, hbody]; rfl
  obtain ⟨i, rest, hq, hin⟩ := rrStep_some_front hstep
  have hmem : i ∈ s.readyQueue := by rw [hq]; exact List.mem_cons_self _ _
  obtain ⟨_, _, hirem⟩ := inv.queue_ok i hmem
  have hexec : min (s.p.getD i default).remainingTime quantum
      ≤ (s.p.getD i default).remainingTime := min_le_left _ _
  rw [rrBody_cons quantum hq hin] at hbody
  generalize hy : rrSlice quantum (s.p.getD i default) = x1 at hbody
  have hx1 : x1.remainingTime = (s.p.getD i default).remainingTime
      - min (s.p.getD i default).remainingTime quantum := by rw [← hy]; rfl
  generalize s.currentTime + min (s.p.getD i default).remainingTime quantum = t1 at hbody
  by_cases hpos : 0 < x1.remainingTime
  · rw [if_pos hpos] at hbody
    cases hbody
    have hmid := rrInv_mid inv hq (s.p.set i x1) (by simp) x1 (le_of_lt hpos) t1
    rw [if_pos hpos, if_pos hpos, Nat.add_zero] at hmid
    exact hmid
  · rw [if_neg hpos] at hbody
    cases hbody
    have hrem0 : (finish x1 t1).remainingTime = 0 := by
      show x1.remainingTime = 0
      omega
    have hmid := rrInv_mid inv hq (s.p.set i x1) (by simp) (finish x1 t1)
      (le_of_eq hrem0.symm) t1
    have hnp : ¬ 0 < (finish x1 t1).remainingTime := by rw [hrem0]; exact lt_irrefl 0
    rw [if_neg hnp, if_neg hnp, List.append_nil] at hmid
    rw [List.set_set]
    exact hmid

/-- After the first part of the loop body, every index that is still unmarked arrives
strictly after the clock value: the sweep has admitted all that had arrived. -/
theorem rrBody_unmarked_later {quantum : Int} {s m : RRState}
    (hbody : rrBody quantum s = some m) (j : Nat) (hj : j < m.p.length)
    (hm : m.mark.getD j true = false) :
    m.currentTime < (m.p.getD j default).arrivalTime := by
  have hstep : rrStep quantum s = some (rrIdle m) := by
    rw [rrStep_eq_body, hbody]; rfl
  obtain ⟨i, rest, hq, hin⟩ := rrStep_some_front hstep
  obtain ⟨m', hm', _, _, _, hmark, hlen, _⟩ := rrBody_facts quantum hq hin
  rw [hbody] at hm'
  cases hm'
  have hstatic := getD_of_map_eq staticOf default (rrBody_static hbody) j hj
  have harr : (m.p.getD j default).arrivalTime = (s.p.getD j default).arrivalTime :=
    congrArg (fun t => t.2.1) hstatic
  rw [hmark j] at hm
  by_cases hc : j < s.p.length ∧ RRNew s.p s.mark m.currentTime j
  · rw [if_pos hc] at hm; cases hm
  · rw [if_neg hc] at hm
    rw [harr]
    by_contra hle
    exact hc ⟨hlen ▸ hj, hm, not_lt.mp hle⟩

/-- The idle-gap block on a state with the invariant, an empty queue, an unmarked index
and the vector in arrival order: it pushes and marks one index, the lowest unmarked one,
whose arrival time is the least among the unmarked, and sets the clock to that arrival
time. -/
theorem rrIdle_gap {m : RRState} (inv : RRInv m) (hempty : m.readyQueue = [])
    (hsorted : (m.p.map Process.arrivalTime).Pairwise (· ≤ ·))
    (hun : ∃ j < m.p.length, m.mark.getD j true = false) :
    ∃ j, j < m.p.length ∧ m.mark.getD j true = false ∧
      (∀ j' < m.p.length, m.mark.getD j' true = false →
        j ≤ j' ∧ (m.p.getD j default).arrivalTime ≤ (m.p.getD j' default).arrivalTime) ∧
      rrIdle m = { m with readyQueue := [j], mark := m.mark.set j true,
                          currentTime := (m.p.getD j default).arrivalTime } := by
  obtain ⟨j1, hj1, hm1⟩ := hun
  have hc : m.completed ≠ m.p.length := by
    rw [inv.count]
    intro hall
    have := List.countP_eq_length.mp hall _ (getD_mem m.p default hj1)
    have h1 := inv.unmarked j1 hj1 hm1
    have h2 : (m.p.getD j1 default).remainingTime = 0 := of_decide_eq_true this
    omega
  cases hfind : (List.range m.p.length).find? (fun j => m.mark.getD j true = false) with
  | none =>
    exfalso
    have := List.find?_eq_none.mp hfind j1 (List.mem_range.mpr hj1)
    simp only [decide_eq_true_eq] at this
    exact this hm1
  | some j =>
    have hspec := List.find?_range_eq_some.mp hfind
    have hj : j < m.p.length := List.mem_range.mp hspec.2.1
    have hjm : m.mark.getD j true = false := of_decide_eq_true hspec.1
    refine ⟨j, hj, hjm, ?_, ?_⟩
    · intro j' hj' hm'
      have hle : j ≤ j' := by
        by_contra hlt
        have := hspec.2.2 j' (not_le.mp hlt)
        simp only [Bool.not_eq_true', decide_eq_false_iff_not] at this
        exact this hm'
      refine ⟨hle, ?_⟩
      rcases Nat.lt_or_eq_of_le hle with hlt | heq
      · rw [List.pairwise_iff_getElem] at hsorted
        have := hsorted j j' (by simpa using hj) (by simpa using hj') hlt
        simp only [List.getElem_map] at this
        rw [List.getD_eq_getElem _ default hj, List.getD_eq_getElem _ default hj']
        exact this
      · rw [heq]
    · unfold rrIdle
      rw [if_pos ⟨List.isEmpty_iff.mpr hempty, hc⟩, hfind]
      simp only [hempty, List.nil_append]

/-! ### Slices along a run -/

theorem units_nil_of_sum_zero (l : List Slice) (hpos : ∀ e ∈ l, 1 ≤ e.units)
    (hsum : (l.map Slice.units).sum = 0) : l = [] := by
  cases l with
  | nil => rfl
  | cons e t =>
    exfalso
    have h1 := hpos e (List.mem_cons_self _ _)
    have h2 : 0 ≤ (t.map Slice.units).sum := by
      apply List.sum_nonneg
      intro x hx
      obtain ⟨e', he', rfl⟩ := List.mem_map.mp hx
      have := hpos e' (List.mem_cons_of_mem _ he')
      omega
    simp only [List.map_cons, List.sum_cons] at hsum
    omega

theorem getLast?_cons_of_isSome {α : Type} (a : α) (l : List α) {b : α}
    (h : l.getLast? = some b) : (a :: l).getLast? = some b := by
  cases l with
  | nil => simp at h
  | cons x t => rw [List.getLast?_cons_cons]; exact h

/-- The slices of index `j` in a slice log. -/
theorem rrSliceLog_step {quantum : Int} {fuel : Nat} {s s' : RRState} {i : Nat}
    {rest : List Nat} (hc : s.completed ≠ s.p.length) (hq : s.readyQueue = i :: rest)
    (hstep : rrStep quantum s = some s') :
    rrSliceLog quantum (fuel + 1) s
      = { index := i
          units := min (s.p.getD i default).remainingTime quantum
          endTime := s.currentTime + min (s.p.getD i default).remainingTime quantum }
        :: rrSliceLog quantum fuel s' := by
  conv_lhs => unfold rrSliceLog
  rw [if_neg hc, hstep]
  simp only [rrSliceAt, hq]
  rfl

theorem rrSliceLog_done {quantum : Int} (fuel : Nat) {s : RRState}
    (hc : s.completed = s.p.length) : rrSliceLog quantum fuel s = [] := by
  cases fuel with
  | zero => rfl
  | succ f => unfold rrSliceLog; rw [if_pos hc]

/-- Along the rest of a run from a state with the invariant: the loop returns; every
slice granted has between 1 and `quantum` units; the slices of each index sum to the
service it is still owed; a record with no service owed is not touched again; a record
with service owed ends with no service owed and with the end of its last slice as its
completion time. -/
theorem rrSliceLog_accounts {quantum : Int} (hquantum : 0 < quantum) (fuel : Nat)
    (s : RRState) (inv : RRInv s) (hready : s.completed ≠ s.p.length → s.readyQueue ≠ [])
    (hfuel : remTotal s.p ≤ fuel) :
    ∃ f, rrLoop quantum fuel s = some f ∧
      (∀ e ∈ rrSliceLog quantum fuel s, 1 ≤ e.units ∧ e.units ≤ quantum) ∧
      ∀ j < s.p.length,
        (((rrSliceLog quantum fuel s).filter (fun e => e.index = j)).map Slice.units).sum
          = (s.p.getD j default).remainingTime ∧
        ((s.p.getD j default).remainingTime = 0 → f.p.getD j default = s.p.getD j default) ∧
        (0 < (s.p.getD j default).remainingTime →
          (((rrSliceLog quantum fuel s).filter (fun e => e.index = j)).getLast?).map
            Slice.endTime = some (f.p.getD j default).completionTime) ∧
        (f.p.getD j default).remainingTime = 0 := by
  refine rrRun_induction hquantum
    (motive := fun fuel s => ∃ f, rrLoop quantum fuel s = some f ∧
      (∀ e ∈ rrSliceLog quantum fuel s, 1 ≤ e.units ∧ e.units ≤ quantum) ∧
      ∀ j < s.p.length,
        (((rrSliceLog quantum fuel s).filter (fun e => e.index = j)).map Slice.units).sum
          = (s.p.getD j default).remainingTime ∧
        ((s.p.getD j default).remainingTime = 0 → f.p.getD j default = s.p.getD j default) ∧
        (0 < (s.p.getD j default).remainingTime →
          (((rrSliceLog quantum fuel s).filter (fun e => e.index = j)).getLast?).map
            Slice.endTime = some (f.p.getD j default).completionTime) ∧
        (f.p.getD j default).remainingTime = 0) ?_ ?_ fuel s inv hready hfuel
  · intro fuel s inv hc
    refine ⟨s, ?_, ?_, ?_⟩
    · cases fuel <;> (unfold rrLoop; rw [if_pos hc])
    · intro e he
      rw [rrSliceLog_done fuel hc] at he
      cases he
    · intro j hj
      have h0 := rrInv_all_done inv hc j hj
      rw [rrSliceLog_done fuel hc]
      refine ⟨by rw [h0]; rfl, fun _ => rfl, fun hpos => by omega, h0⟩
  · intro fuel s i rest s' inv hc hq hstep _ ih
    obtain ⟨f, hloop, hunits, hacc⟩ := ih
    obtain ⟨s2, hstep2, _, _, hlen, _, hother, hipos, hcase⟩ := rrStep_inv hquantum inv hq
    rw [hstep] at hstep2
    cases hstep2
    have hmin1 : 1 ≤ min (s.p.getD i default).remainingTime quantum := by
      rw [le_min_iff]; omega
    have hminq : min (s.p.getD i default).remainingTime quantum ≤ quantum := min_le_right _ _
    have hslice : (rrSlice quantum (s.p.getD i default)).remainingTime
        = (s.p.getD i default).remainingTime
          - min (s.p.getD i default).remainingTime quantum := rfl
    refine ⟨f, ?_, ?_, ?_⟩
    · unfold rrLoop
      rw [if_neg hc, hstep]
      exact hloop
    · intro e he
      rw [rrSliceLog_step hc hq hstep] at he
      rcases List.mem_cons.mp he with rfl | he
      · exact ⟨hmin1, hminq⟩
      · exact hunits e he
    · intro j hj
      obtain ⟨hsum, hfrozen, hlast, hfinal⟩ := hacc j (hlen ▸ hj)
      rw [rrSliceLog_step hc hq hstep]
      by_cases hji : j = i
      · subst hji
        have hfilter : List.filter (fun e : Slice => decide (e.index = j))
            ({ index := j
               units := min (s.p.getD j default).remainingTime quantum
               endTime := s.currentTime + min (s.p.getD j default).remainingTime quantum }
              :: rrSliceLog quantum fuel s')
            = { index := j
                units := min (s.p.getD j default).remainingTime quantum
                endTime := s.currentTime + min (s.p.getD j default).remainingTime quantum }
              :: (rrSliceLog quantum fuel s').filter (fun e => decide (e.index = j)) := by
          rw [List.filter_cons]
          simp
        rw [hfilter]
        have hrem' : (s'.p.getD j default).remainingTime
            = (s.p.getD j default).remainingTime
              - min (s.p.getD j default).remainingTime quantum := by
          rcases hcase with ⟨_, _, hrec⟩ | ⟨_, _, hrec⟩
          · rw [hrec]; rfl
          · rw [hrec]; rfl
        refine ⟨?_, fun h0 => by omega, ?_, hfinal⟩
        · simp only [List.map_cons, List.sum_cons]
          rw [hsum, hrem']
          omega
        · intro _
          rcases hcase with ⟨h0, _, hrec⟩ | ⟨hpos, _, _⟩
          · have hnil : (rrSliceLog quantum fuel s').filter (fun e => decide (e.index = j))
                = [] := by
              apply units_nil_of_sum_zero
              · intro e he
                exact (hunits e (List.mem_of_mem_filter he)).1
              · rw [hsum, h0]
            rw [hnil, hfrozen h0, hrec]
            rfl
          · have hl := hlast hpos
            cases hg : ((rrSliceLog quantum fuel s').filter
                (fun e => decide (e.index = j))).getLast? with
            | none => rw [hg] at hl; cases hl
            | some b =>
              rw [hg] at hl
              rw [getLast?_cons_of_isSome _ _ hg]
              exact hl
      · have hfilter : List.filter (fun e : Slice => decide (e.index = j))
            ({ index := i
               units := min (s.p.getD i default).remainingTime quantum
               endTime := s.currentTime + min (s.p.getD i default).remainingTime quantum }
              :: rrSliceLog quantum fuel s')
            = (rrSliceLog quantum fuel s').filter (fun e => decide (e.index = j)) := by
          rw [List.filter_cons]
          simp [Ne.symm hji]
        rw [hfilter]
        rw [hother j hji] at hsum hfrozen hlast
        exact ⟨hsum, hfrozen, hlast, hfinal⟩

/-! ### The vectors handed to `displayResults` -/

theorem map_eq_of_getD {α β : Type} (f : α → β) (d : α) {l1 l2 : List α}
    (hlen : l1.length = l2.length)
    (h : ∀ j < l1.length, f (l1.getD j d) = f (l2.getD j d)) : l1.map f = l2.map f := by
  apply List.ext_getElem
  · simp [hlen]
  · intro j h1 h2
    have hj1 : j < l1.length := by simpa using h1
    have hj2 : j < l2.length := by simpa using h2
    rw [List.getElem_map, List.getElem_map]
    have := h j hj1
    rw [List.getD_eq_getElem l1 d hj1, List.getD_eq_getElem l2 d hj2] at this
    exact this

theorem map_id_of_static {l1 l2 : List Process} (h : l1.map staticOf = l2.map staticOf) :
    l1.map Process.id = l2.map Process.id := by
  have := congrArg (List.map (fun t : Int × Int × Int => t.1)) h
  simpa [List.map_map, Function.comp_def, staticOf] using this

theorem map_arrival_of_static {l1 l2 : List Process}
    (h : l1.map staticOf = l2.map staticOf) :
    l1.map Process.arrivalTime = l2.map Process.arrivalTime := by
  have := congrArg (List.map (fun t : Int × Int × Int => t.2.1)) h
  simpa [List.map_map, Function.comp_def, staticOf] using this

theorem sorted_of_static {l1 l2 : List Process} (h : l1.map staticOf = l2.map staticOf)
    (hs : l2.Sorted arrivalLE) : l1.Sorted arrivalLE := by
  have h2 : (l2.map Process.arrivalTime).Pairwise (· ≤ ·) := by
    rw [List.pairwise_map]
    exact hs.imp (fun {a b} hab => (arrivalLE_iff a b).mp hab)
  rw [← map_arrival_of_static h, List.pairwise_map] at h2
  exact h2.imp (fun {a b} hab => (arrivalLE_iff a b).mpr hab)

/-- Whatever `sjf` returns holds the input records in input order, each with its id,
arrival time and burst. -/
theorem sjf_static {p r : List Process} {fuel : Nat} (h : sjf fuel p = some r) :
    r.map staticOf = p.map staticOf := by
  unfold sjf at h
  cases hloop : sjfLoop fuel (sjfInit p) with
  | none => rw [hloop] at h; cases h
  | some s =>
    rw [hloop] at h
    cases h
    obtain ⟨inv, hc⟩ := sjfLoop_inv fuel _ _ (sjfInv_init p) hloop
    apply map_eq_of_getD staticOf default inv.len_p
    intro j hj
    obtain ⟨c, _, hfin⟩ := sjfInv_final inv hc j (inv.len_p ▸ hj)
    rw [hfin]
    rfl

theorem fcfsLoop_static (l : List Process) : ∀ (t : Int),
    (fcfsLoop l t).map staticOf = l.map staticOf := by
  induction l with
  | nil => intro t; rfl
  | cons x rest ih =>
    intro t
    rw [fcfsLoop, List.map_cons, List.map_cons, ih]
    rfl

/-- Whatever `roundRobin` returns holds the records of the sorted vector in sorted order,
each with its id, arrival time and burst. -/
theorem roundRobin_static {srt : List Process → List Process} {p r : List Process}
    {fuel : Nat} {quantum : Int} (h : roundRobin srt fuel p quantum = some r) :
    r.map staticOf = (srt p).map staticOf := by
  unfold roundRobin at h
  cases hinit : rrInit srt p with
  | none => rw [hinit] at h; cases h
  | some s0 =>
    rw [hinit] at h
    cases hloop : rrLoop quantum fuel s0 with
    | none =>
      change (rrLoop quantum fuel s0).map RRState.p = some r at h
      rw [hloop] at h
      cases h
    | some s =>
      change (rrLoop quantum fuel s0).map RRState.p = some r at h
      rw [hloop] at h
      cases h
      have hp0 : s0.p = srt p := by
        unfold rrInit at hinit
        split at hinit
        · cases hinit
        · cases hinit; rfl
      rw [← hp0]
      exact rrLoop_keeps (P := fun st => st.p.map staticOf = s0.p.map staticOf)
        (fun a b hP hstep => (rrStep_static hstep).trans hP) fuel s0 s rfl hloop

/-! ### The engines in `int` arithmetic, within the range of `int` -/

/-- A value in the range of a 32-bit `int` is kept by `wrapInt`. -/
theorem wrapInt_of_range {x : Int} (hlo : -2147483648 ≤ x) (hhi : x ≤ 2147483647) :
    wrapInt x = x := by
  unfold wrapInt
  omega

/-- Whatever `wrapInt` returns is in the range of a 32-bit `int`. -/
theorem wrapInt_range (x : Int) : -2147483648 ≤ wrapInt x ∧ wrapInt x ≤ 2147483647 := by
  unfold wrapInt
  omega

theorem finish32_eq_finish (x : Process) (c : Int)
    (h1 : -2147483648 ≤ c - x.arrivalTime) (h2 : c - x.arrivalTime ≤ 2147483647)
    (h3 : -2147483648 ≤ c - x.arrivalTime - x.burstTime)
    (h4 : c - x.arrivalTime - x.burstTime ≤ 2147483647) :
    finish32 x c = finish x c := by
  unfold finish32 finish
  rw [wrapInt_of_range h1 h2, wrapInt_of_range h3 h4]

theorem sum_burst_nonneg (l : List Process) (hb : ∀ x ∈ l, 0 ≤ x.burstTime) :
    0 ≤ (l.map Process.burstTime).sum := by
  induction l with
  | nil => simp
  | cons x rest ih =>
    rw [List.map_cons, List.sum_cons]
    have := hb x (List.mem_cons_self _ _)
    have := ih (fun z hz => hb z (List.mem_cons_of_mem _ hz))
    omega

theorem maxArrival_nonneg (p : List Process) : 0 ≤ maxArrival p := by
  cases p with
  | nil => exact le_refl _
  | cons x rest =>
    unfold maxArrival
    rw [List.foldr_cons]
    exact le_trans (maxArrival_nonneg rest) (le_max_right _ _)

theorem maxArrival_perm {l1 l2 : List Process} (h : l1.Perm l2) :
    maxArrival l1 = maxArrival l2 := by
  induction h with
  | nil => rfl
  | cons x _ ih =>
    unfold maxArrival at ih ⊢
    rw [List.foldr_cons, List.foldr_cons, ih]
  | swap x y l =>
    unfold maxArrival
    simp only [List.foldr_cons]
    rw [max_left_comm]
  | trans _ _ ih1 ih2 => exact ih1.trans ih2

/-- While the clock is not negative and the clock, like every arrival, leaves room for the
bursts still to be served below `2^31`, no sum or difference of the `fcfs` loop leaves the
range of `int`: the loop in `int` arithmetic is the loop in exact arithmetic. -/
theorem fcfsLoop32_eq_fcfsLoop (l : List Process)
    (hvalid : ∀ x ∈ l, 0 ≤ x.arrivalTime ∧ 0 ≤ x.burstTime) :
    ∀ (t : Int), 0 ≤ t → t + (l.map Process.burstTime).sum ≤ 2147483647 →
      (∀ x ∈ l, x.arrivalTime + (l.map Process.burstTime).sum ≤ 2147483647) →
      fcfsLoop32 l t = fcfsLoop l t := by
  induction l with
  | nil => intro t _ _ _; rfl
  | cons x rest ih =>
    intro t ht hsum harr
    have hx := hvalid x (List.mem_cons_self _ _)
    have hax := harr x (List.mem_cons_self _ _)
    rw [List.map_cons, List.sum_cons] at hsum hax
    have hrest := sum_burst_nonneg rest (fun z hz => (hvalid z (List.mem_cons_of_mem _ hz)).2)
    have hs0 : 0 ≤ (if t < x.arrivalTime then x.arrivalTime else t) := by split <;> omega
    have hs1 : x.arrivalTime ≤ (if t < x.arrivalTime then x.arrivalTime else t) := by
      split <;> omega
    have hs2 : (if t < x.arrivalTime then x.arrivalTime else t) + x.burstTime
        + (rest.map Process.burstTime).sum ≤ 2147483647 := by split <;> omega
    rw [fcfsLoop32, fcfsLoop]
    rw [wrapInt_of_range (by omega) (by omega),
      finish32_eq_finish _ _ (by omega) (by omega) (by omega) (by omega),
      ih (fun z hz => hvalid z (List.mem_cons_of_mem _ hz)) _ (by omega) hs2]
    intro z hz
    have := harr z (List.mem_cons_of_mem _ hz)
    rw [List.map_cons, List.sum_cons] at this
    omega

/-- On a valid input whose latest arrival plus the sum of all bursts fits in an `int`,
`fcfs` in `int` arithmetic returns what `fcfs` in exact arithmetic returns. -/
theorem fcfs32_eq_fcfs (srt : List Process → List Process) (hsrt : SortsByArrival srt)
    (p : List Process) (hvalid : ∀ x ∈ p, 0 ≤ x.arrivalTime ∧ 0 < x.burstTime)
    (hrange : maxArrival p + (p.map Process.burstTime).sum ≤ 2147483647) :
    fcfs32 srt p = fcfs srt p := by
  have hperm := (hsrt p).1
  have hsum : ((srt p).map Process.burstTime).sum = (p.map Process.burstTime).sum :=
    (hperm.map _).sum_eq
  have hmax := maxArrival_nonneg p
  unfold fcfs32 fcfs
  apply fcfsLoop32_eq_fcfsLoop
  · intro x hx
    have := hvalid x (hperm.mem_iff.mp hx)
    omega
  · exact le_refl _
  · rw [hsum]; omega
  · intro x hx
    have := le_maxArrival (hperm.mem_iff.mp hx)
    rw [hsum]
    omega
/-! ### The loop of `sjf` in `int` arithmetic -/

theorem pendingBurst_replicate (p : List Process) :
    pendingBurst p (List.replicate p.length false) = (p.map Process.burstTime).sum := by
  induction p with
  | nil => rfl
  | cons x rest ih =>
    rw [List.length_cons, List.replicate_succ, pendingBurst, ih, List.map_cons, List.sum_cons]
    simp

theorem pendingBurst_nonneg (p : List Process) (hb : ∀ x ∈ p, 0 ≤ x.burstTime) :
    ∀ ic : List Bool, 0 ≤ pendingBurst p ic := by
  induction p with
  | nil => intro ic; cases ic <;> exact le_refl _
  | cons x rest ih =>
    intro ic
    cases ic with
    | nil => exact le_refl _
    | cons b ic =>
      rw [pendingBurst]
      have := ih (fun z hz => hb z (List.mem_cons_of_mem _ hz)) ic
      have := hb x (List.mem_cons_self _ _)
      split <;> omega

/-- Setting the flag of an index whose flag was not set takes its burst out of the service
still to be granted. -/
theorem pendingBurst_set (p : List Process) :
    ∀ (ic : List Bool) (idx : Nat), idx < p.length → idx < ic.length →
      ic.getD idx false = false →
      pendingBurst p (ic.set idx true) = pendingBurst p ic - (p.getD idx default).burstTime := by
  induction p with
  | nil => intro ic idx h; cases h
  | cons x rest ih =>
    intro ic idx hp hic hf
    cases ic with
    | nil => cases hic
    | cons b ic =>
      cases idx with
      | zero =>
        have hb : b = false := hf
        subst hb
        rw [List.set_cons_zero, pendingBurst, pendingBurst]
        show (if true = true then 0 else x.burstTime) + pendingBurst rest ic
          = (if false = true then 0 else x.burstTime) + pendingBurst rest ic - x.burstTime
        simp
      | succ k =>
        rw [List.set_cons_succ, pendingBurst, pendingBurst,
          ih ic k (Nat.lt_of_succ_lt_succ hp) (Nat.lt_of_succ_lt_succ hic) hf]
        show _ = _ - (rest.getD k default).burstTime
        omega

theorem sjfStep32_some {s : SjfState} {idx : Nat}
    (h : (sjfScan s.p s.isCompleted s.currentTime).1 = some idx) :
    sjfStep32 s =
      { p := s.p.set idx (finish32 (s.p.getD idx default)
              (wrapInt (s.currentTime + (s.p.getD idx default).burstTime)))
        isCompleted := s.isCompleted.set idx true
        completed := s.completed + 1
        currentTime := wrapInt (s.currentTime + (s.p.getD idx default).burstTime) } := by
  unfold sjfStep32
  rw [h]

theorem sjfStep32_none {s : SjfState}
    (h : (sjfScan s.p s.isCompleted s.currentTime).1 = none) :
    sjfStep32 s = { s with currentTime := wrapInt (s.currentTime + 1) } := by
  unfold sjfStep32
  rw [h]

/-- With no candidate at all the scan selects nothing. -/
theorem sjfScan_none_of_no_candidate {p : List Process} {ic : List Bool} {t : Int}
    (h : ∀ i < p.length, ¬ SjfCand p ic t i) : (sjfScan p ic t).1 = none := by
  cases hs : (sjfScan p ic t).1 with
  | none => rfl
  | some j =>
    obtain ⟨hj, hc, _⟩ := sjfScan_some hs
    exact absurd hc (h j hj)

/-- Once every record still to run has a burst of at least the sentinel and work is left,
the loop of `sjf` in exact arithmetic never returns. -/
theorem sjfLoop_dead (fuel : Nat) :
    ∀ s : SjfState, s.completed ≠ s.p.length →
      (∀ i < s.p.length, s.isCompleted.getD i false = false →
        minBurstInit ≤ (s.p.getD i default).burstTime) →
      sjfLoop fuel s = none := by
  induction fuel with
  | zero =>
    intro s hc _
    unfold sjfLoop
    rw [if_neg hc]
  | succ fuel ih =>
    intro s hc hbig
    unfold sjfLoop
    rw [if_neg hc]
    have hscan : (sjfScan s.p s.isCompleted s.currentTime).1 = none := by
      cases h : (sjfScan s.p s.isCompleted s.currentTime).1 with
      | none => rfl
      | some j =>
        obtain ⟨hj, hcand, _, _, hlt⟩ := sjfScan_some h
        exact absurd (hbig j hj hcand.2) (not_le.mpr hlt)
    rw [sjfStep_none hscan]
    exact ih _ hc hbig

/-- Once every record still to run has a burst of at least the sentinel and work is left,
the loop of `sjf` in `int` arithmetic never returns either: the clock wraps, the scan
still selects nothing. -/
theorem sjfLoop32_dead (fuel : Nat) :
    ∀ s : SjfState, s.completed ≠ s.p.length →
      (∀ i < s.p.length, s.isCompleted.getD i false = false →
        minBurstInit ≤ (s.p.getD i default).burstTime) →
      sjfLoop32 fuel s = none := by
  induction fuel with
  | zero =>
    intro s hc _
    unfold sjfLoop32
    rw [if_neg hc]
  | succ fuel ih =>
    intro s hc hbig
    unfold sjfLoop32
    rw [if_neg hc]
    have hscan : (sjfScan s.p s.isCompleted s.currentTime).1 = none := by
      cases h : (sjfScan s.p s.isCompleted s.currentTime).1 with
      | none => rfl
      | some j =>
        obtain ⟨hj, hcand, _, _, hlt⟩ := sjfScan_some h
        exact absurd (hbig j hj hcand.2) (not_le.mpr hlt)
    rw [sjfStep32_none hscan]
    exact ih _ hc hbig

theorem sjfRange_init (p : List Process)
    (hrange : maxArrival p + (p.map Process.burstTime).sum ≤ 2147483647) :
    SjfRange p (sjfInit p) := by
  have hmax := maxArrival_nonneg p
  refine ⟨le_refl _, ?_, ?_⟩
  · show (0 : Int) + pendingBurst p (List.replicate p.length false) ≤ 2147483647
    rw [pendingBurst_replicate]
    omega
  · show maxArrival p + pendingBurst p (List.replicate p.length false) ≤ 2147483647
    rw [pendingBurst_replicate]
    exact hrange

/-- One iteration of the `sjf` loop from a state within range: either no sum or difference
leaves the range of `int`, so that the body in `int` arithmetic does what the exact body
does and the next state is within range again; or every record still to run has a burst
of at least the sentinel. -/
theorem sjfStep32_eq_sjfStep {p0 : List Process}
    (hvalid : ∀ x ∈ p0, 0 ≤ x.arrivalTime ∧ 0 < x.burstTime) {s : SjfState}
    (inv : SjfInv p0 s) (rng : SjfRange p0 s) :
    (sjfStep32 s = sjfStep s ∧ SjfRange p0 (sjfStep s)) ∨
    (∀ i < s.p.length, s.isCompleted.getD i false = false →
      minBurstInit ≤ (s.p.getD i default).burstTime) := by
  have hb0 : ∀ x ∈ p0, 0 ≤ x.burstTime := fun x hx => le_of_lt (hvalid x hx).2
  have hpend := pendingBurst_nonneg p0 hb0 s.isCompleted
  have hlo := rng.lo
  have hhi := rng.hi
  have harr := rng.arr
  cases hscan : (sjfScan s.p s.isCompleted s.currentTime).1 with
  | some idx =>
    left
    obtain ⟨hidx, hcand, _, _, _⟩ := sjfScan_some hscan
    have hidx0 : idx < p0.length := inv.len_p ▸ hidx
    have hidxc : idx < s.isCompleted.length := by rw [inv.len_ic]; exact hidx0
    have hx : s.p.getD idx default = p0.getD idx default := inv.pending idx hidx0 hcand.2
    have hv := hvalid _ (getD_mem p0 default hidx0)
    have hset := pendingBurst_set p0 s.isCompleted idx hidx0 hidxc hcand.2
    have hpend2 := pendingBurst_nonneg p0 hb0 (s.isCompleted.set idx true)
    have ha : (p0.getD idx default).arrivalTime ≤ s.currentTime := by
      have := hcand.1
      rw [hx] at this
      exact this
    rw [sjfStep32_some hscan, sjfStep_some hscan, hx]
    constructor
    · rw [wrapInt_of_range (by omega) (by omega),
        finish32_eq_finish _ _ (by omega) (by omega) (by omega) (by omega)]
    · refine ⟨?_, ?_, ?_⟩
      · show 0 ≤ s.currentTime + (p0.getD idx default).burstTime
        omega
      · show s.currentTime + (p0.getD idx default).burstTime
          + pendingBurst p0 (s.isCompleted.set idx true) ≤ 2147483647
        omega
      · show maxArrival p0 + pendingBurst p0 (s.isCompleted.set idx true) ≤ 2147483647
        omega
  | none =>
    by_cases hlate : ∃ i, i < p0.length ∧ s.isCompleted.getD i false = false ∧
        s.currentTime < (p0.getD i default).arrivalTime
    · left
      obtain ⟨i, hi, _, hlt⟩ := hlate
      have := le_maxArrival (getD_mem p0 default hi)
      rw [sjfStep32_none hscan, sjfStep_none hscan]
      constructor
      · rw [wrapInt_of_range (by omega) (by omega)]
      · refine ⟨?_, ?_, ?_⟩
        · show 0 ≤ s.currentTime + 1
          omega
        · show s.currentTime + 1 + pendingBurst p0 s.isCompleted ≤ 2147483647
          omega
        · exact harr
    · right
      intro i hi hf
      have hi0 : i < p0.length := inv.len_p ▸ hi
      apply sjfScan_none hscan i hi
      refine ⟨?_, hf⟩
      rw [inv.pending i hi0 hf]
      by_contra hgt
      exact hlate ⟨i, hi0, hf, not_le.mp hgt⟩

/-- From a state within range the loop of `sjf` in `int` arithmetic returns exactly what
the loop in exact arithmetic returns, and is still running when that one is. -/
theorem sjfLoop32_eq_sjfLoop {p0 : List Process}
    (hvalid : ∀ x ∈ p0, 0 ≤ x.arrivalTime ∧ 0 < x.burstTime) (fuel : Nat) :
    ∀ s : SjfState, SjfInv p0 s → SjfRange p0 s → sjfLoop32 fuel s = sjfLoop fuel s := by
  induction fuel with
  | zero => intro s _ _; rfl
  | succ fuel ih =>
    intro s inv rng
    by_cases hc : s.completed = s.p.length
    · unfold sjfLoop32 sjfLoop
      rw [if_pos hc, if_pos hc]
    · rcases sjfStep32_eq_sjfStep hvalid inv rng with ⟨heq, rng2⟩ | hdead
      · unfold sjfLoop32 sjfLoop
        rw [if_neg hc, if_neg hc, heq]
        exact ih _ (sjfInv_step inv) rng2
      · rw [sjfLoop32_dead _ s hc hdead, sjfLoop_dead _ s hc hdead]

/-- On a valid input whose latest arrival plus the sum of all bursts fits in an `int`,
`sjf` in `int` arithmetic returns what `sjf` in exact arithmetic returns, for every
budget of iterations. -/
theorem sjf32_eq_sjf (p : List Process)
    (hvalid : ∀ x ∈ p, 0 ≤ x.arrivalTime ∧ 0 < x.burstTime)
    (hrange : maxArrival p + (p.map Process.burstTime).sum ≤ 2147483647) (fuel : Nat) :
    sjf32 fuel p = sjf fuel p := by
  unfold sjf32 sjf
  rw [sjfLoop32_eq_sjfLoop hvalid fuel _ (sjfInv_init p) (sjfRange_init p hrange)]

/-- While no record still to run has arrived, the loop of `sjf` in `int` arithmetic only
counts the clock up: `k` iterations move the clock forward by `k`, as long as the clock
stays in the range of `int` and short of the arrival of every record still to run. -/
theorem sjfLoop32_idle (k : Nat) :
    ∀ (fuel : Nat) (s : SjfState), s.completed ≠ s.p.length →
      (∀ i < s.p.length, s.isCompleted.getD i false = false →
        s.currentTime + k ≤ (s.p.getD i default).arrivalTime) →
      -2147483648 ≤ s.currentTime → s.currentTime + k ≤ 2147483647 →
      sjfLoop32 (fuel + k) s = sjfLoop32 fuel { s with currentTime := s.currentTime + k } := by
  induction k with
  | zero =>
    intro fuel s _ _ _ _
    simp
  | succ k ih =>
    intro fuel s hc hlate hlo hhi
    push_cast at hlate hhi
    have hscan : (sjfScan s.p s.isCompleted s.currentTime).1 = none := by
      apply sjfScan_none_of_no_candidate
      intro i hi hcand
      have := hlate i hi hcand.2
      have := hcand.1
      omega
    rw [← Nat.add_assoc]
    conv_lhs => rw [sjfLoop32]
    rw [if_neg hc, sjfStep32_none hscan, wrapInt_of_range (by omega) (by omega)]
    have hnext := ih fuel { s with currentTime := s.currentTime + 1 } hc
      (fun i hi hf => by
        have := hlate i hi hf
        show s.currentTime + 1 + k ≤ (s.p.getD i default).arrivalTime
        omega)
      (by show -2147483648 ≤ s.currentTime + 1; omega)
      (by show s.currentTime + 1 + k ≤ 2147483647; omega)
    rw [hnext]
    have hk : s.currentTime + 1 + (k : Int) = s.currentTime + ((k + 1 : Nat) : Int) := by
      push_cast
      omega
    show sjfLoop32 fuel { s with currentTime := s.currentTime + 1 + (k : Int) } = _
    rw [hk]
/-! ### Metrics of FCFS and SJF -/

/-- In exact arithmetic: for every list whose arrival times are non-negative and whose
bursts are positive, every record of the `fcfs` result and of any `sjf` result completes
no earlier than arrival plus burst, has turnaround equal to waiting plus burst, and has a
non-negative waiting time; both results have one record per input process, and `sjf`
does return a result when every burst is below its sentinel. -/
theorem fcfs_sjf_metrics_exact (srt : List Process → List Process) (hsrt : SortsByArrival srt)
    (p : List Process) (hvalid : ∀ x ∈ p, 0 ≤ x.arrivalTime ∧ 0 < x.burstTime) :
    ((fcfs srt p).length = p.length ∧ ∀ x ∈ fcfs srt p, MetricsOK x) ∧
    (∀ fuel r, sjf fuel p = some r → r.length = p.length ∧ ∀ x ∈ r, MetricsOK x) ∧
    ((∀ x ∈ p, x.burstTime < minBurstInit) → ∃ fuel r, sjf fuel p = some r) := by
  refine ⟨⟨?_, ?_⟩, ?_, ?_⟩
  · unfold fcfs
    rw [fcfsLoop_length, (hsrt p).1.length_eq]
  · exact fcfsLoop_metrics _ _
  · intro fuel r hr
    unfold sjf at hr
    cases hloop : sjfLoop fuel (sjfInit p) with
    | none => rw [hloop] at hr; cases hr
    | some s =>
      rw [hloop] at hr
      cases hr
      obtain ⟨inv, hc⟩ := sjfLoop_inv fuel _ _ (sjfInv_init p) hloop
      refine ⟨inv.len_p, ?_⟩
      intro x hx
      obtain ⟨i, hi, rfl⟩ := exists_getD_of_mem default hx
      obtain ⟨c, hle, hfin⟩ := sjfInv_final inv hc i (inv.len_p ▸ hi)
      rw [hfin]
      exact metricsOK_finish _ _ hle
  · intro hsmall
    have hb : ∀ x ∈ p, 0 ≤ x.burstTime ∧ x.burstTime < minBurstInit :=
      fun x hx => ⟨le_of_lt (hvalid x hx).2, hsmall x hx⟩
    obtain ⟨s, hs⟩ := sjfLoop_terminates hb _ (sjfInit p) (sjfInv_init p) (le_refl _)
    exact ⟨_, s.p, by unfold sjf; rw [hs]; rfl⟩

/-- C2, counterexample. On the valid input `(0, 2000000000), (0, 2000000000)` the sum
`currentTime + burstTime` of the second process leaves the range of `int`: `fcfs` gives P2
the completion time -294967296, below its arrival plus burst, and a negative
turnaround. -/
theorem fcfs_metrics_fail_past_int_range :
    (∀ x ∈ [mkProcess 1 0 2000000000, mkProcess 2 0 2000000000],
        0 ≤ x.arrivalTime ∧ 0 < x.burstTime) ∧
      fcfs32 sortByArrival [mkProcess 1 0 2000000000, mkProcess 2 0 2000000000]
        = [{ id := 1, arrivalTime := 0, burstTime := 2000000000, remainingTime := 2000000000,
             completionTime := 2000000000, turnAroundTime := 2000000000, waitingTime := 0 },
           { id := 2, arrivalTime := 0, burstTime := 2000000000, remainingTime := 2000000000,
             completionTime := -294967296, turnAroundTime := -294967296,
             waitingTime := 2000000000 }] ∧
      ¬ (∀ x ∈ fcfs32 sortByArrival [mkProcess 1 0 2000000000, mkProcess 2 0 2000000000],
          MetricsOK x) := by
  decide

/-- C2, amended. For every list whose arrival times are non-negative, whose bursts are
positive and whose latest arrival plus the sum of all bursts is at most `2^31 - 1`, the
program's `fcfs` and `sjf` (in `int` arithmetic) give every record a completion time no
earlier than arrival plus burst, a turnaround equal to waiting plus burst, and a
non-negative waiting time; both results have one record per input process, and `sjf`
does return a result when every burst is below its sentinel. -/
theorem fcfs_sjf_metrics_within_int_range (srt : List Process → List Process)
    (hsrt : SortsByArrival srt) (p : List Process)
    (hvalid : ∀ x ∈ p, 0 ≤ x.arrivalTime ∧ 0 < x.burstTime)
    (hrange : maxArrival p + (p.map Process.burstTime).sum ≤ 2147483647) :
    ((fcfs32 srt p).length = p.length ∧ ∀ x ∈ fcfs32 srt p, MetricsOK x) ∧
    (∀ fuel r, sjf32 fuel p = some r → r.length = p.length ∧ ∀ x ∈ r, MetricsOK x) ∧
    ((∀ x ∈ p, x.burstTime < minBurstInit) → ∃ fuel r, sjf32 fuel p = some r) := by
  have hexact := fcfs_sjf_metrics_exact srt hsrt p hvalid
  rw [fcfs32_eq_fcfs srt hsrt p hvalid hrange]
  refine ⟨hexact.1, ?_, ?_⟩
  · intro fuel r hr
    rw [sjf32_eq_sjf p hvalid hrange] at hr
    exact hexact.2.1 fuel r hr
  · intro hsmall
    obtain ⟨fuel, r, hr⟩ := hexact.2.2 hsmall
    exact ⟨fuel, r, by rw [sjf32_eq_sjf p hvalid hrange]; exact hr⟩

/-- Witness for the amended C2 on `(0, 999999999), (2, 999999999)`, whose latest arrival
plus bursts is 2000000000. -/
theorem fcfs_sjf_metrics_within_int_range_witness :
    (∀ x ∈ [mkProcess 1 0 999999999, mkProcess 2 2 999999999],
        0 ≤ x.arrivalTime ∧ 0 < x.burstTime) ∧
    maxArrival [mkProcess 1 0 999999999, mkProcess 2 2 999999999]
        + ([mkProcess 1 0 999999999, mkProcess 2 2 999999999].map Process.burstTime).sum
      ≤ 2147483647 ∧
    (∀ x ∈ fcfs32 sortByArrival [mkProcess 1 0 999999999, mkProcess 2 2 999999999],
      MetricsOK x) ∧
    (∃ fuel r, sjf32 fuel [mkProcess 1 0 999999999, mkProcess 2 2 999999999] = some r) :=
  ⟨by decide, by decide,
   (fcfs_sjf_metrics_within_int_range sortByArrival sortByArrival_sorts
     [mkProcess 1 0 999999999, mkProcess 2 2 999999999] (by decide) (by decide)).1.2,
   (fcfs_sjf_metrics_within_int_range sortByArrival sortByArrival_sorts
     [mkProcess 1 0 999999999, mkProcess 2 2 999999999] (by decide) (by decide)).2.2
       (by decide)⟩
/-! ### Round Robin started before the first arrival -/

/-- C1. On the single process `(id 1, arrival 2, burst 1)` with quantum 1, `roundRobin`
returns the process completed at time 1, before its arrival: the completion time is below
arrival plus burst, the turnaround is -1 and the waiting time is -2. -/
theorem roundRobin_runs_before_first_arrival :
    roundRobin sortByArrival 1 [mkProcess 1 2 1] 1
        = some [{ id := 1, arrivalTime := 2, burstTime := 1, remainingTime := 0,
                  completionTime := 1, turnAroundTime := -1, waitingTime := -2 }] ∧
      ¬ MetricsOK { id := 1, arrivalTime := 2, burstTime := 1, remainingTime := 0,
                    completionTime := 1, turnAroundTime := -1, waitingTime := -2 } := by
  decide

/-- C4. On the single process `(id 1, arrival 3, burst 2)` with quantum 2, the largest
burst, `roundRobin` completes the process at time 2 while `fcfs` completes it at time 5. -/
theorem roundRobin_large_quantum_differs_from_fcfs :
    (roundRobin sortByArrival 1 [mkProcess 1 3 2] 2).map (List.map fun x => (x.id, x.completionTime))
        = some [(1, 2)] ∧
      (fcfs sortByArrival [mkProcess 1 3 2]).map (fun x => (x.id, x.completionTime)) = [(1, 5)] := by
  decide

/-! ### Fixtures -/

/-- C7. `roundRobin` with quantum 1 on `(id 1, arrival 0, burst 3), (id 2, arrival 1,
burst 2)` ends after five slices with P1 completed at 5 (waiting 2) and P2 completed at 4
(waiting 1), whatever sort meeting the contract is used. -/
theorem roundRobin_quantum_one_fixture (srt : List Process → List Process)
    (hsrt : SortsByArrival srt) :
    roundRobin srt 5 [mkProcess 1 0 3, mkProcess 2 1 2] 1
      = some [{ id := 1, arrivalTime := 0, burstTime := 3, remainingTime := 0,
                completionTime := 5, turnAroundTime := 5, waitingTime := 2 },
              { id := 2, arrivalTime := 1, burstTime := 2, remainingTime := 0,
                completionTime := 4, turnAroundTime := 3, waitingTime := 1 }] := by
  have h : srt [mkProcess 1 0 3, mkProcess 2 1 2]
      = sortByArrival [mkProcess 1 0 3, mkProcess 2 1 2] :=
    srt_eq_sortByArrival hsrt (by decide)
  unfold roundRobin rrInit
  rw [h]
  decide

/-- Witness for C7 with the insertion sort. -/
theorem roundRobin_quantum_one_fixture_witness :
    roundRobin sortByArrival 5 [mkProcess 1 0 3, mkProcess 2 1 2] 1
      = some [{ id := 1, arrivalTime := 0, burstTime := 3, remainingTime := 0,
                completionTime := 5, turnAroundTime := 5, waitingTime := 2 },
              { id := 2, arrivalTime := 1, burstTime := 2, remainingTime := 0,
                completionTime := 4, turnAroundTime := 3, waitingTime := 1 }] :=
  roundRobin_quantum_one_fixture sortByArrival sortByArrival_sorts

/-- C8. `sjf` on `(1, 0, 7), (2, 2, 4), (3, 4, 1), (4, 5, 4)` ends after four selections
with completion times P1 = 7, P2 = 12, P3 = 8, P4 = 16 and waiting times 0, 6, 3, 7:
P1 runs over 0-7, then P3, P2 and P4 in this order. -/
theorem sjf_textbook_fixture :
    sjf 4 [mkProcess 1 0 7, mkProcess 2 2 4, mkProcess 3 4 1, mkProcess 4 5 4]
      = some [{ id := 1, arrivalTime := 0, burstTime := 7, remainingTime := 7,
                completionTime := 7, turnAroundTime := 7, waitingTime := 0 },
              { id := 2, arrivalTime := 2, burstTime := 4, remainingTime := 4,
                completionTime := 12, turnAroundTime := 10, waitingTime := 6 },
              { id := 3, arrivalTime := 4, burstTime := 1, remainingTime := 1,
                completionTime := 8, turnAroundTime := 4, waitingTime := 3 },
              { id := 4, arrivalTime := 5, burstTime := 4, remainingTime := 4,
                completionTime := 16, turnAroundTime := 11, waitingTime := 7 }] := by
  decide

/-! ### The sentinel of the `sjf` scan -/

/-- C6. On the single process `(id 1, arrival 0, burst 1000000000)`, at the first decision
point (clock 0) index 0 has arrived and is not completed, yet the scan selects nothing and
the loop body only moves the clock to 1. -/
theorem sjf_scan_misses_sentinel_burst :
    SjfCand [mkProcess 1 0 1000000000] (sjfInit [mkProcess 1 0 1000000000]).isCompleted 0 0 ∧
      (sjfScan [mkProcess 1 0 1000000000]
        (sjfInit [mkProcess 1 0 1000000000]).isCompleted 0).1 = none ∧
      sjfStep (sjfInit [mkProcess 1 0 1000000000])
        = { sjfInit [mkProcess 1 0 1000000000] with currentTime := 1 } := by
  unfold SjfCand
  decide

/-- C10. On the single process `(id 1, arrival 0, burst 1000000000)` the loop of `sjf`
has not returned after any number of iterations. -/
theorem sjf_never_returns_on_sentinel_burst (fuel : Nat) :
    sjf fuel [mkProcess 1 0 1000000000] = none := by
  unfold sjf
  rw [sjfLoop_stuck fuel (sjfInit [mkProcess 1 0 1000000000]) (by decide)]
  · rfl
  · intro i hi
    have hi0 : i = 0 := by
      simp [sjfInit] at hi
      exact hi
    subst hi0
    decide

/-! ### Termination of Round Robin -/

/-- C9. For every non-empty list whose bursts are positive and whose `remainingTime`
fields equal the bursts, and every positive quantum, the loop of `roundRobin` returns
within a budget of as many iterations as the bursts sum to; on return the counter equals
`n`, every record has no service left and carries a turnaround and a waiting time derived
from its completion time, and the completion branch was taken exactly once for each
index. -/
theorem roundRobin_terminates (srt : List Process → List Process)
    (hsrt : SortsByArrival srt) (p : List Process) (quantum : Int) (hne : p ≠ [])
    (hvalid : ∀ x ∈ p, 0 < x.burstTime ∧ x.remainingTime = x.burstTime)
    (hquantum : 0 < quantum) :
    ∃ s0 s, rrInit srt p = some s0 ∧ rrLoop quantum (remTotal p) s0 = some s ∧
      roundRobin srt (remTotal p) p quantum = some s.p ∧
      s.completed = p.length ∧ s.p.length = p.length ∧
      (∀ x ∈ s.p, x.remainingTime = 0 ∧
        x.turnAroundTime = x.completionTime - x.arrivalTime ∧
        x.waitingTime = x.turnAroundTime - x.burstTime) ∧
      (∀ j < p.length, (rrCompletionLog quantum (remTotal p) s0).count j = 1) := by
  have hrem : ∀ x ∈ p, 0 < x.remainingTime := fun x hx => by
    rw [(hvalid x hx).2]; exact (hvalid x hx).1
  obtain ⟨s0, hinit, inv0, hq0, hp0, hc0, _⟩ := rrInit_inv hsrt hne hrem
  have hslen : (srt p).length = p.length := (hsrt p).1.length_eq
  have htotal : remTotal s0.p = remTotal p := by
    rw [hp0]
    unfold remTotal
    exact (((hsrt p).1).map _).sum_eq
  have hready : s0.completed ≠ s0.p.length → s0.readyQueue ≠ [] := by
    intro _
    rw [hq0]
    exact List.cons_ne_nil _ _
  obtain ⟨s, hloop, inv, hc, hlen, hlog⟩ :=
    rrLoop_terminates hquantum (remTotal p) s0 inv0 hready (le_of_eq htotal)
  have hlen0 : s0.p.length = p.length := by rw [hp0, hslen]
  have hsrem : ∀ j < s0.p.length, 0 < (s0.p.getD j default).remainingTime := by
    intro j hj
    apply hrem
    have hmem := getD_mem s0.p default hj
    rw [hp0] at hmem ⊢
    exact (hsrt p).1.mem_iff.mp hmem
  have hclosed := rrLoop_keeps
    (P := fun st => RRInv st ∧ ∀ j < st.p.length, (st.p.getD j default).remainingTime = 0 →
      (st.p.getD j default).turnAroundTime
          = (st.p.getD j default).completionTime - (st.p.getD j default).arrivalTime ∧
        (st.p.getD j default).waitingTime
          = (st.p.getD j default).turnAroundTime - (st.p.getD j default).burstTime)
    (fun a b hP hstep => ⟨rrStep_keeps_inv hquantum hP.1 hstep,
      rrStep_closed hquantum hP.1 hstep hP.2⟩)
    (remTotal p) s0 s
    ⟨inv0, fun j hj h0 => absurd h0 (ne_of_gt (hsrem j hj))⟩ hloop
  refine ⟨s0, s, hinit, hloop, ?_, ?_, ?_, ?_, ?_⟩
  · unfold roundRobin
    rw [hinit]
    show (rrLoop quantum (remTotal p) s0).map RRState.p = some s.p
    rw [hloop]
    rfl
  · rw [hc, hlen, hlen0]
  · rw [hlen, hlen0]
  · intro x hx
    obtain ⟨j, hj, rfl⟩ := exists_getD_of_mem default hx
    have h0 := rrInv_all_done inv hc j hj
    exact ⟨h0, hclosed.2 j hj h0⟩
  · intro j hj
    rw [hlog j (by rw [hlen0]; exact hj), if_neg (ne_of_gt (hsrem j (by rw [hlen0]; exact hj)))]

/-- Witness for C9 on the list `(0, 3), (1, 2)` with quantum 1. -/
theorem roundRobin_terminates_witness :
    ∃ s0 s, rrInit sortByArrival [mkProcess 1 0 3, mkProcess 2 1 2] = some s0 ∧
      rrLoop 1 (remTotal [mkProcess 1 0 3, mkProcess 2 1 2]) s0 = some s ∧
      roundRobin sortByArrival (remTotal [mkProcess 1 0 3, mkProcess 2 1 2])
        [mkProcess 1 0 3, mkProcess 2 1 2] 1 = some s.p ∧
      s.completed = [mkProcess 1 0 3, mkProcess 2 1 2].length ∧
      s.p.length = [mkProcess 1 0 3, mkProcess 2 1 2].length ∧
      (∀ x ∈ s.p, x.remainingTime = 0 ∧
        x.turnAroundTime = x.completionTime - x.arrivalTime ∧
        x.waitingTime = x.turnAroundTime - x.burstTime) ∧
      (∀ j < [mkProcess 1 0 3, mkProcess 2 1 2].length,
        (rrCompletionLog 1 (remTotal [mkProcess 1 0 3, mkProcess 2 1 2]) s0).count j = 1) :=
  roundRobin_terminates sortByArrival sortByArrival_sorts
    [mkProcess 1 0 3, mkProcess 2 1 2] 1 (by decide) (by decide) (by decide)

/-! ### FCFS and the order of the input -/

/-- C3, counterexample. The lists `(id 1, 0, 3), (id 2, 0, 5)` and `(id 2, 0, 5),
(id 1, 0, 3)` are permutations of each other, yet `fcfs` (two-element vectors are left
in place by the sort) does not give each id the same completion time on both: P1
completes at 3 on the first and at 8 on the second. -/
theorem fcfs_depends_on_tie_order :
    [mkProcess 2 0 5, mkProcess 1 0 3].Perm [mkProcess 1 0 3, mkProcess 2 0 5] ∧
      ¬ (∀ x ∈ fcfs sortByArrival [mkProcess 1 0 3, mkProcess 2 0 5],
          ∀ y ∈ fcfs sortByArrival [mkProcess 2 0 5, mkProcess 1 0 3],
            x.id = y.id → x.completionTime = y.completionTime) := by
  decide

/-- C3, amended. For every list whose arrival times are pairwise distinct and every
permutation of it, `fcfs` returns the same vector, whatever sort meeting the contract is
used, so every process gets the same completion time. -/
theorem fcfs_invariant_of_distinct_arrivals (srt : List Process → List Process)
    (hsrt : SortsByArrival srt) (p p' : List Process) (hperm : p'.Perm p)
    (hdistinct : (p.map Process.arrivalTime).Nodup) :
    fcfs srt p' = fcfs srt p := by
  have hdistinct' : (p'.map Process.arrivalTime).Nodup :=
    (hperm.map Process.arrivalTime).nodup_iff.mpr hdistinct
  unfold fcfs
  rw [srt_eq_sortByArrival hsrt hdistinct, srt_eq_sortByArrival hsrt hdistinct',
    sortByArrival_congr (fun a => arrivingAt_of_perm_of_distinct hperm hdistinct a)]

/-- Witness for the amended C3 on `(1, 0, 3), (2, 1, 5), (3, 4, 2)` read back to front. -/
theorem fcfs_invariant_of_distinct_arrivals_witness :
    [mkProcess 3 4 2, mkProcess 2 1 5, mkProcess 1 0 3].Perm
        [mkProcess 1 0 3, mkProcess 2 1 5, mkProcess 3 4 2] ∧
      fcfs sortByArrival [mkProcess 3 4 2, mkProcess 2 1 5, mkProcess 1 0 3]
        = fcfs sortByArrival [mkProcess 1 0 3, mkProcess 2 1 5, mkProcess 3 4 2] :=
  ⟨by decide,
   fcfs_invariant_of_distinct_arrivals sortByArrival sortByArrival_sorts
     [mkProcess 1 0 3, mkProcess 2 1 5, mkProcess 3 4 2]
     [mkProcess 3 4 2, mkProcess 2 1 5, mkProcess 1 0 3] (by decide) (by decide)⟩

/-- With the insertion sort, which keeps equal arrivals in input order, `fcfs` returns the
same vector for every permutation that keeps the processes of each arrival time in the
same relative order. -/
theorem fcfs_invariant_under_tie_preserving_perm (p p' : List Process)
    (hperm : p'.Perm p)
    (hties : ∀ x ∈ p, arrivingAt x.arrivalTime p' = arrivingAt x.arrivalTime p) :
    fcfs sortByArrival p' = fcfs sortByArrival p := by
  unfold fcfs
  rw [sortByArrival_congr]
  intro a
  by_cases hex : ∃ x ∈ p, x.arrivalTime = a
  · obtain ⟨x, hx, rfl⟩ := hex
    exact hties x hx
  · have h1 : arrivingAt a p = [] := by
      unfold arrivingAt
      rw [List.filter_eq_nil_iff]
      intro x hx hxa
      exact hex ⟨x, hx, of_decide_eq_true hxa⟩
    have h2 : arrivingAt a p' = [] := by
      unfold arrivingAt
      rw [List.filter_eq_nil_iff]
      intro x hx hxa
      exact hex ⟨x, hperm.mem_iff.mp hx, of_decide_eq_true hxa⟩
    rw [h1, h2]

/-- The tie-preserving case on a concrete list: P2, the only process arriving at 1, moves
to the front while P1 and P3, both arriving at 0, keep their order. -/
theorem fcfs_invariant_under_tie_preserving_perm_witness :
    [mkProcess 2 1 5, mkProcess 1 0 3, mkProcess 3 0 2].Perm
        [mkProcess 1 0 3, mkProcess 2 1 5, mkProcess 3 0 2] ∧
      fcfs sortByArrival [mkProcess 2 1 5, mkProcess 1 0 3, mkProcess 3 0 2]
        = fcfs sortByArrival [mkProcess 1 0 3, mkProcess 2 1 5, mkProcess 3 0 2] :=
  ⟨by decide,
   fcfs_invariant_under_tie_preserving_perm
     [mkProcess 1 0 3, mkProcess 2 1 5, mkProcess 3 0 2]
     [mkProcess 2 1 5, mkProcess 1 0 3, mkProcess 3 0 2] (by decide) (by decide)⟩

/-! ### SJF with equal bursts -/

/-- In exact arithmetic: for every list whose arrival times are non-negative and whose
bursts are positive, the execution intervals `[completionTime - burstTime,
completionTime)` of two records at different positions of the `fcfs` result do not
overlap, and a record that arrives strictly earlier than another completes no later than
the other starts. -/
theorem fcfs_no_overlap_exact (srt : List Process → List Process) (hsrt : SortsByArrival srt)
    (p : List Process) (hvalid : ∀ x ∈ p, 0 ≤ x.arrivalTime ∧ 0 < x.burstTime) :
    (∀ i j, i < (fcfs srt p).length → j < (fcfs srt p).length → i ≠ j →
      NoOverlap ((fcfs srt p).getD i default) ((fcfs srt p).getD j default)) ∧
    (∀ a ∈ fcfs srt p, ∀ b ∈ fcfs srt p, a.arrivalTime < b.arrivalTime →
      a.completionTime ≤ b.completionTime - b.burstTime) := by
  have hb : ∀ x ∈ srt p, 0 ≤ x.burstTime := fun x hx =>
    le_of_lt (hvalid x ((hsrt p).1.mem_iff.mp hx)).2
  have hchain := fcfsLoop_chain (srt p) hb (hsrt p).2 0
  rw [List.pairwise_iff_getElem] at hchain
  have hidx : ∀ i j, i < (fcfs srt p).length → j < (fcfs srt p).length → i < j →
      ((fcfs srt p).getD i default).arrivalTime ≤ ((fcfs srt p).getD j default).arrivalTime ∧
      ((fcfs srt p).getD i default).completionTime
        ≤ ((fcfs srt p).getD j default).completionTime
          - ((fcfs srt p).getD j default).burstTime := by
    intro i j hi hj hij
    rw [List.getD_eq_getElem _ default hi, List.getD_eq_getElem _ default hj]
    exact hchain i j hi hj hij
  constructor
  · intro i j hi hj hne
    rcases Nat.lt_or_gt_of_ne hne with hlt | hgt
    · exact Or.inl (hidx i j hi hj hlt).2
    · exact Or.inr (hidx j i hj hi hgt).2
  · intro a ha b hb' hab
    obtain ⟨i, hi, rfl⟩ := exists_getD_of_mem default ha
    obtain ⟨j, hj, rfl⟩ := exists_getD_of_mem default hb'
    rcases Nat.lt_trichotomy i j with hlt | heq | hgt
    · exact (hidx i j hi hj hlt).2
    · subst heq; exact absurd hab (lt_irrefl _)
    · have := (hidx j i hj hi hgt).1
      omega

/-- C13, counterexample. On the valid input of three processes `(0, 2000000000)` the
completion time of P2 leaves the range of `int` and comes out as -294967296; the clock is
then below the arrival of P3 and is set back to 0, so `fcfs` gives P3 the execution
interval of P1, 0 to 2000000000. -/
theorem fcfs_overlap_past_int_range :
    (∀ x ∈ [mkProcess 1 0 2000000000, mkProcess 2 0 2000000000, mkProcess 3 0 2000000000],
        0 ≤ x.arrivalTime ∧ 0 < x.burstTime) ∧
      (fcfs32 sortByArrival
          [mkProcess 1 0 2000000000, mkProcess 2 0 2000000000, mkProcess 3 0 2000000000]).map
          (fun x => (x.id, x.completionTime - x.burstTime, x.completionTime))
        = [(1, 0, 2000000000), (2, -2294967296, -294967296), (3, 0, 2000000000)] ∧
      ¬ NoOverlap
          ((fcfs32 sortByArrival [mkProcess 1 0 2000000000, mkProcess 2 0 2000000000,
            mkProcess 3 0 2000000000]).getD 0 default)
          ((fcfs32 sortByArrival [mkProcess 1 0 2000000000, mkProcess 2 0 2000000000,
            mkProcess 3 0 2000000000]).getD 2 default) := by
  decide

/-- C13, amended. For every list whose arrival times are non-negative, whose bursts are
positive and whose latest arrival plus the sum of all bursts is at most `2^31 - 1`, the
execution intervals `[completionTime - burstTime, completionTime)` of two records at
different positions of the result of the program's `fcfs` (in `int` arithmetic) do not
overlap, and a record that arrives strictly earlier than another completes no later than
the other starts. -/
theorem fcfs_no_overlap_within_int_range (srt : List Process → List Process)
    (hsrt : SortsByArrival srt) (p : List Process)
    (hvalid : ∀ x ∈ p, 0 ≤ x.arrivalTime ∧ 0 < x.burstTime)
    (hrange : maxArrival p + (p.map Process.burstTime).sum ≤ 2147483647) :
    (∀ i j, i < (fcfs32 srt p).length → j < (fcfs32 srt p).length → i ≠ j →
      NoOverlap ((fcfs32 srt p).getD i default) ((fcfs32 srt p).getD j default)) ∧
    (∀ a ∈ fcfs32 srt p, ∀ b ∈ fcfs32 srt p, a.arrivalTime < b.arrivalTime →
      a.completionTime ≤ b.completionTime - b.burstTime) := by
  rw [fcfs32_eq_fcfs srt hsrt p hvalid hrange]
  exact fcfs_no_overlap_exact srt hsrt p hvalid

/-- Witness for the amended C13 on `(1, 3, 2), (2, 0, 4), (3, 3, 1)`. -/
theorem fcfs_no_overlap_within_int_range_witness :
    (∀ x ∈ [mkProcess 1 3 2, mkProcess 2 0 4, mkProcess 3 3 1],
        0 ≤ x.arrivalTime ∧ 0 < x.burstTime) ∧
    maxArrival [mkProcess 1 3 2, mkProcess 2 0 4, mkProcess 3 3 1]
        + ([mkProcess 1 3 2, mkProcess 2 0 4, mkProcess 3 3 1].map Process.burstTime).sum
      ≤ 2147483647 ∧
    (∀ a ∈ fcfs32 sortByArrival [mkProcess 1 3 2, mkProcess 2 0 4, mkProcess 3 3 1],
      ∀ b ∈ fcfs32 sortByArrival [mkProcess 1 3 2, mkProcess 2 0 4, mkProcess 3 3 1],
        a.arrivalTime < b.arrivalTime →
          a.completionTime ≤ b.completionTime - b.burstTime) :=
  ⟨by decide, by decide,
   (fcfs_no_overlap_within_int_range sortByArrival sortByArrival_sorts
     [mkProcess 1 3 2, mkProcess 2 0 4, mkProcess 3 3 1] (by decide) (by decide)).2⟩
/-! ### SJF is non-preemptive -/

/-- In exact arithmetic: for every list whose arrival times are non-negative and whose
bursts are positive, the execution intervals `[completionTime - burstTime,
completionTime)` of two records at different positions of any `sjf` result do not
overlap, and `sjf` does return a result when every burst is below its sentinel. -/
theorem sjf_no_overlap_exact (p : List Process)
    (hvalid : ∀ x ∈ p, 0 ≤ x.arrivalTime ∧ 0 < x.burstTime) :
    (∀ fuel r, sjf fuel p = some r →
      ∀ i j, i < r.length → j < r.length → i ≠ j →
        NoOverlap (r.getD i default) (r.getD j default)) ∧
    ((∀ x ∈ p, x.burstTime < minBurstInit) → ∃ fuel r, sjf fuel p = some r) := by
  have hb0 : ∀ x ∈ p, 0 ≤ x.burstTime := fun x hx => le_of_lt (hvalid x hx).2
  constructor
  · intro fuel r hr i j hi hj hij
    unfold sjf at hr
    cases hloop : sjfLoop fuel (sjfInit p) with
    | none => rw [hloop] at hr; cases hr
    | some s =>
      rw [hloop] at hr
      cases hr
      obtain ⟨inv, hc⟩ := sjfLoop_inv fuel _ _ (sjfInv_init p) hloop
      have hboth := sjfLoop_keeps (P := fun st => SjfInv p st ∧ SjfSched st)
        (fun st hst => ⟨sjfInv_step hst.1, sjfSched_step hb0 hst.1 hst.2⟩)
        fuel (sjfInit p) s ⟨sjfInv_init p, sjfSched_init p⟩ hloop
      have hcount : s.isCompleted.count true = s.isCompleted.length := by
        rw [← inv.count, hc, inv.len_ic]
      have hlen : s.isCompleted.length = s.p.length := by rw [inv.len_ic, inv.len_p]
      exact hboth.2.apart i hi j hj hij
        (all_true_of_count_eq _ hcount i (by rw [hlen]; exact hi))
        (all_true_of_count_eq _ hcount j (by rw [hlen]; exact hj))
  · intro hsmall
    have hb : ∀ x ∈ p, 0 ≤ x.burstTime ∧ x.burstTime < minBurstInit :=
      fun x hx => ⟨hb0 x hx, hsmall x hx⟩
    obtain ⟨s, hs⟩ := sjfLoop_terminates hb _ (sjfInit p) (sjfInv_init p) (le_refl _)
    exact ⟨_, s.p, by unfold sjf; rw [hs]; rfl⟩

/-- C15, counterexample. On the valid input of four processes `(0, 999999999)`, all
bursts below the sentinel, the clock of `sjf` leaves the range of `int` with the third
selection and shows -1294967299; the loop counts it up to 0 in 1294967299 idle
iterations and then runs P4 over 0 to 999999999, the execution interval of P1. -/
theorem sjf_overlap_past_int_range :
    (∀ x ∈ [mkProcess 1 0 999999999, mkProcess 2 0 999999999, mkProcess 3 0 999999999,
          mkProcess 4 0 999999999], 0 ≤ x.arrivalTime ∧ 0 < x.burstTime) ∧
      sjf32 1294967303 [mkProcess 1 0 999999999, mkProcess 2 0 999999999,
          mkProcess 3 0 999999999, mkProcess 4 0 999999999]
        = some [{ id := 1, arrivalTime := 0, burstTime := 999999999,
                  remainingTime := 999999999, completionTime := 999999999,
                  turnAroundTime := 999999999, waitingTime := 0 },
                { id := 2, arrivalTime := 0, burstTime := 999999999,
                  remainingTime := 999999999, completionTime := 1999999998,
                  turnAroundTime := 1999999998, waitingTime := 999999999 },
                { id := 3, arrivalTime := 0, burstTime := 999999999,
                  remainingTime := 999999999, completionTime := -1294967299,
                  turnAroundTime := -1294967299, waitingTime := 1999999998 },
                { id := 4, arrivalTime := 0, burstTime := 999999999,
                  remainingTime := 999999999, completionTime := 999999999,
                  turnAroundTime := 999999999, waitingTime := 0 }] ∧
      ¬ NoOverlap
          { id := 1, arrivalTime := 0, burstTime := 999999999,
            remainingTime := 999999999, completionTime := 999999999,
            turnAroundTime := 999999999, waitingTime := 0 }
          { id := 4, arrivalTime := 0, burstTime := 999999999,
            remainingTime := 999999999, completionTime := 999999999,
            turnAroundTime := 999999999, waitingTime := 0 } := by
  refine ⟨by decide, ?_, by decide⟩
  have h3 : ∀ fuel : Nat, sjfLoop32 (fuel + 3) (sjfInit [mkProcess 1 0 999999999,
      mkProcess 2 0 999999999, mkProcess 3 0 999999999, mkProcess 4 0 999999999])
      = sjfLoop32 fuel (sjfStep32 (sjfStep32 (sjfStep32 (sjfInit [mkProcess 1 0 999999999,
          mkProcess 2 0 999999999, mkProcess 3 0 999999999, mkProcess 4 0 999999999])))) := by
    intro fuel
    rw [sjfLoop32, if_neg (by decide), sjfLoop32, if_neg (by decide), sjfLoop32,
      if_neg (by decide)]
  have hidle := sjfLoop32_idle 1294967299 1
    (sjfStep32 (sjfStep32 (sjfStep32 (sjfInit [mkProcess 1 0 999999999,
      mkProcess 2 0 999999999, mkProcess 3 0 999999999, mkProcess 4 0 999999999]))))
    (by decide) (by decide) (by decide) (by decide)
  unfold sjf32
  rw [show (1294967303 : Nat) = (1 + 1294967299) + 3 from rfl, h3, hidle]
  decide

/-- C15, amended. For every list whose arrival times are non-negative, whose bursts are
positive and whose latest arrival plus the sum of all bursts is at most `2^31 - 1`, the
execution intervals `[completionTime - burstTime, completionTime)` of two records at
different positions of any result of the program's `sjf` (in `int` arithmetic) do not
overlap: a selected process keeps the CPU for its whole burst.  `sjf` does return a
result when every burst is below its sentinel. -/
theorem sjf_no_overlap_within_int_range (p : List Process)
    (hvalid : ∀ x ∈ p, 0 ≤ x.arrivalTime ∧ 0 < x.burstTime)
    (hrange : maxArrival p + (p.map Process.burstTime).sum ≤ 2147483647) :
    (∀ fuel r, sjf32 fuel p = some r →
      ∀ i j, i < r.length → j < r.length → i ≠ j →
        NoOverlap (r.getD i default) (r.getD j default)) ∧
    ((∀ x ∈ p, x.burstTime < minBurstInit) → ∃ fuel r, sjf32 fuel p = some r) := by
  have hexact := sjf_no_overlap_exact p hvalid
  constructor
  · intro fuel r hr
    rw [sjf32_eq_sjf p hvalid hrange] at hr
    exact hexact.1 fuel r hr
  · intro hsmall
    obtain ⟨fuel, r, hr⟩ := hexact.2 hsmall
    exact ⟨fuel, r, by rw [sjf32_eq_sjf p hvalid hrange]; exact hr⟩

/-- Witness for the amended C15 on the list of the textbook fixture, where P3 (burst 1)
arrives at 4 while P1 (burst 7) runs over 0-7. -/
theorem sjf_no_overlap_within_int_range_witness :
    (∀ x ∈ [mkProcess 1 0 7, mkProcess 2 2 4, mkProcess 3 4 1, mkProcess 4 5 4],
        0 ≤ x.arrivalTime ∧ 0 < x.burstTime) ∧
    maxArrival [mkProcess 1 0 7, mkProcess 2 2 4, mkProcess 3 4 1, mkProcess 4 5 4]
        + ([mkProcess 1 0 7, mkProcess 2 2 4, mkProcess 3 4 1, mkProcess 4 5 4].map
            Process.burstTime).sum ≤ 2147483647 ∧
    (∃ fuel r, sjf32 fuel [mkProcess 1 0 7, mkProcess 2 2 4, mkProcess 3 4 1, mkProcess 4 5 4]
        = some r) :=
  ⟨by decide, by decide,
   (sjf_no_overlap_within_int_range
     [mkProcess 1 0 7, mkProcess 2 2 4, mkProcess 3 4 1, mkProcess 4 5 4]
     (by decide) (by decide)).2 (by decide)⟩
/-! ### Round Robin: the admitted-once invariant and access safety -/

/-- C18. For every non-empty list with positive bursts, `remainingTime` equal to the
burst, and every positive quantum: at the head of every iteration of the `roundRobin`
loop the ready queue holds no index twice, every queued index is marked and has service
left, and every marked index is queued or has no service left (is completed); and over
the whole run each index is admitted exactly once, index 0 on entry and every other index
by exactly one iteration. -/
theorem roundRobin_admitted_once (srt : List Process → List Process)
    (hsrt : SortsByArrival srt) (p : List Process) (quantum : Int) (hne : p ≠ [])
    (hvalid : ∀ x ∈ p, 0 < x.burstTime ∧ x.remainingTime = x.burstTime)
    (hquantum : 0 < quantum) :
    ∃ s0, rrInit srt p = some s0 ∧
      (∀ k s, rrAfter quantum k s0 = some s →
        s.readyQueue.Nodup ∧
        (∀ i ∈ s.readyQueue,
          s.mark.getD i true = true ∧ 0 < (s.p.getD i default).remainingTime) ∧
        (∀ i < p.length, s.mark.getD i true = true →
          i ∈ s.readyQueue ∨ (s.p.getD i default).remainingTime = 0)) ∧
      (∀ j < p.length, (0 :: rrAdmissionLog quantum (remTotal p) s0).count j = 1) := by
  have hrem : ∀ x ∈ p, 0 < x.remainingTime := fun x hx => by
    rw [(hvalid x hx).2]; exact (hvalid x hx).1
  obtain ⟨s0, hinit, inv0, hq0, hp0, hc0, _⟩ := rrInit_inv hsrt hne hrem
  have hready : s0.completed ≠ s0.p.length → s0.readyQueue ≠ [] := by
    intro _; rw [hq0]; exact List.cons_ne_nil _ _
  have hlen0 : s0.p.length = p.length := by rw [hp0]; exact (hsrt p).1.length_eq
  have htotal : remTotal s0.p = remTotal p := by
    rw [hp0]
    unfold remTotal
    exact (((hsrt p).1).map _).sum_eq
  refine ⟨s0, hinit, ?_, ?_⟩
  · intro k s hk
    obtain ⟨inv, _, hstatic⟩ := rrAfter_inv hquantum inv0 hready k s hk
    have hlen : s.p.length = p.length := by
      have := congrArg List.length hstatic
      simp only [List.length_map] at this
      rw [this, hlen0]
    refine ⟨inv.queue_nodup, fun i hi => (inv.queue_ok i hi).2, ?_⟩
    intro i hi hm
    exact inv.marked i (hlen ▸ hi) hm
  · intro j hj
    have hcount := rrAdmissionLog_count hquantum (remTotal p) s0 inv0 hready
      (le_of_eq htotal) j (hlen0 ▸ hj)
    have hmark0 : s0.mark = (List.replicate p.length false).set 0 true := by
      unfold rrInit at hinit
      rw [if_neg (fun h => hne (List.length_eq_zero.mp h))] at hinit
      cases hinit
      rfl
    rw [List.count_cons, hcount, hmark0]
    by_cases hj0 : j = 0
    · subst hj0
      rw [getD_set_eq _ _ _ _ (by simpa using hj)]
      simp
    · rw [getD_set_of_ne _ _ _ (Ne.symm hj0)]
      have : (List.replicate p.length false).getD j true = false := by
        simp [List.getD_eq_getElem?_getD, List.getElem?_replicate, hj]
      rw [this]
      simp [hj0]
      exact fun h => hj0 h.symm

/-- Witness for C18 on the list `(0, 3), (1, 2)` with quantum 1. -/
theorem roundRobin_admitted_once_witness :
    ∃ s0, rrInit sortByArrival [mkProcess 1 0 3, mkProcess 2 1 2] = some s0 ∧
      (∀ k s, rrAfter 1 k s0 = some s →
        s.readyQueue.Nodup ∧
        (∀ i ∈ s.readyQueue,
          s.mark.getD i true = true ∧ 0 < (s.p.getD i default).remainingTime) ∧
        (∀ i < [mkProcess 1 0 3, mkProcess 2 1 2].length, s.mark.getD i true = true →
          i ∈ s.readyQueue ∨ (s.p.getD i default).remainingTime = 0)) ∧
      (∀ j < [mkProcess 1 0 3, mkProcess 2 1 2].length,
        (0 :: rrAdmissionLog 1 (remTotal [mkProcess 1 0 3, mkProcess 2 1 2]) s0).count j
          = 1) :=
  roundRobin_admitted_once sortByArrival sortByArrival_sorts
    [mkProcess 1 0 3, mkProcess 2 1 2] 1 (by decide) (by decide) (by decide)

/-- C20. For every non-empty list with positive bursts, `remainingTime` equal to the
burst, and every positive quantum: the entry state exists (index 0 is in range of the
vector and of the mark vector), and at the head of every iteration the vector and the
mark vector have `n` entries, every queued index is below `n`, and while work remains the
queue is non-empty with a front index below `n`, so the loop body is defined. -/
theorem roundRobin_access_safety (srt : List Process → List Process)
    (hsrt : SortsByArrival srt) (p : List Process) (quantum : Int) (hne : p ≠ [])
    (hvalid : ∀ x ∈ p, 0 < x.burstTime ∧ x.remainingTime = x.burstTime)
    (hquantum : 0 < quantum) :
    0 < p.length ∧
    ∃ s0, rrInit srt p = some s0 ∧ s0.readyQueue = [0] ∧
      ∀ k s, rrAfter quantum k s0 = some s →
        s.p.length = p.length ∧ s.mark.length = p.length ∧
        (∀ i ∈ s.readyQueue, i < p.length) ∧
        (s.completed ≠ s.p.length →
          ∃ i rest s', s.readyQueue = i :: rest ∧ i < p.length ∧
            rrStep quantum s = some s') := by
  have hrem : ∀ x ∈ p, 0 < x.remainingTime := fun x hx => by
    rw [(hvalid x hx).2]; exact (hvalid x hx).1
  obtain ⟨s0, hinit, inv0, hq0, hp0, hc0, _⟩ := rrInit_inv hsrt hne hrem
  have hready : s0.completed ≠ s0.p.length → s0.readyQueue ≠ [] := by
    intro _; rw [hq0]; exact List.cons_ne_nil _ _
  have hlen0 : s0.p.length = p.length := by rw [hp0]; exact (hsrt p).1.length_eq
  refine ⟨List.length_pos.mpr hne, s0, hinit, hq0, ?_⟩
  intro k s hk
  obtain ⟨inv, hrdy, hstatic⟩ := rrAfter_inv hquantum inv0 hready k s hk
  have hlen : s.p.length = p.length := by
    have := congrArg List.length hstatic
    simp only [List.length_map] at this
    rw [this, hlen0]
  refine ⟨hlen, by rw [inv.len_mark, hlen], fun i hi => hlen ▸ (inv.queue_ok i hi).1, ?_⟩
  intro hc
  obtain ⟨i, rest, hq⟩ := List.exists_cons_of_ne_nil (hrdy hc)
  obtain ⟨s', hs', _⟩ := rrStep_inv hquantum inv hq
  have hmem : i ∈ s.readyQueue := by rw [hq]; exact List.mem_cons_self _ _
  exact ⟨i, rest, s', hq, hlen ▸ (inv.queue_ok i hmem).1, hs'⟩

/-- Witness for C20 on the list `(0, 3), (1, 2)` with quantum 1. -/
theorem roundRobin_access_safety_witness :
    0 < [mkProcess 1 0 3, mkProcess 2 1 2].length ∧
    ∃ s0, rrInit sortByArrival [mkProcess 1 0 3, mkProcess 2 1 2] = some s0 ∧
      s0.readyQueue = [0] ∧
      ∀ k s, rrAfter 1 k s0 = some s →
        s.p.length = [mkProcess 1 0 3, mkProcess 2 1 2].length ∧
        s.mark.length = [mkProcess 1 0 3, mkProcess 2 1 2].length ∧
        (∀ i ∈ s.readyQueue, i < [mkProcess 1 0 3, mkProcess 2 1 2].length) ∧
        (s.completed ≠ s.p.length →
          ∃ i rest s', s.readyQueue = i :: rest ∧
            i < [mkProcess 1 0 3, mkProcess 2 1 2].length ∧ rrStep 1 s = some s') :=
  roundRobin_access_safety sortByArrival sortByArrival_sorts
    [mkProcess 1 0 3, mkProcess 2 1 2] 1 (by decide) (by decide) (by decide)

/-! ### Round Robin: queue order after a slice and the idle gap -/

/-- C17. In every step of `roundRobin` from a state whose queue has front `i` (an index
of the vector) and tail `rest`, if the executed process still has service left after its
slice, the step is defined and leaves the queue `rest`, then the indices admitted by the
sweep of this step, then `i`: the admitted indices are in ascending order and are exactly
those that were unmarked and have arrived by the new clock value, and each of them stands
in front of `i`, the last entry of the queue. -/
theorem roundRobin_requeue_order (quantum : Int) (s : RRState) (i : Nat) (rest : List Nat)
    (hq : s.readyQueue = i :: rest) (hin : i < s.p.length)
    (hrem : 0 < (rrSlice quantum (s.p.getD i default)).remainingTime) :
    ∃ s' newly, rrStep quantum s = some s' ∧
      s'.currentTime = s.currentTime + min (s.p.getD i default).remainingTime quantum ∧
      s'.readyQueue = rest ++ newly ++ [i] ∧
      newly.Pairwise (· < ·) ∧
      (∀ j, j ∈ newly ↔ j < s.p.length ∧ s.mark.getD j true = false ∧
        (s.p.getD j default).arrivalTime ≤ s'.currentTime) ∧
      s'.readyQueue.getLast? = some i ∧
      (∀ j ∈ newly, j ∈ s'.readyQueue.dropLast) := by
  obtain ⟨m, hm, htime, hqueue, _, _, _⟩ := rrBody_facts quantum hq hin
  rw [if_pos hrem] at hqueue
  have hne : m.readyQueue ≠ [] := by
    rw [hqueue]
    simp
  refine ⟨m, (List.range s.p.length).filter
    (fun j => decide (RRNew s.p s.mark m.currentTime j)), ?_, htime, hqueue, ?_, ?_, ?_, ?_⟩
  · rw [rrStep_eq_body, hm]
    show some (rrIdle m) = some m
    rw [rrIdle_of_ne_nil hne]
  · exact (List.pairwise_lt_range _).filter _
  · intro j
    rw [List.mem_filter, List.mem_range, decide_eq_true_eq]
    rfl
  · rw [hqueue]
    simp
  · intro j hj
    rw [hqueue, List.dropLast_concat]
    exact List.mem_append_right _ hj

/-- Witness for C17: from the entry state of `(0, 3), (1, 2)` with quantum 1, P1 (index 0)
keeps service after its slice, P2 (index 1) is admitted, and the queue becomes `1, 0`. -/
theorem roundRobin_requeue_order_witness :
    ∃ s' newly,
      rrStep 1 { p := [mkProcess 1 0 3, mkProcess 2 1 2], readyQueue := [0],
                 mark := [true, false], currentTime := 0, completed := 0 } = some s' ∧
      s'.currentTime = 0 + min (mkProcess 1 0 3).remainingTime 1 ∧
      s'.readyQueue = [] ++ newly ++ [0] ∧
      newly.Pairwise (· < ·) ∧
      (∀ j, j ∈ newly ↔ j < 2 ∧ [true, false].getD j true = false ∧
        ([mkProcess 1 0 3, mkProcess 2 1 2].getD j default).arrivalTime ≤ s'.currentTime) ∧
      s'.readyQueue.getLast? = some 0 ∧
      (∀ j ∈ newly, j ∈ s'.readyQueue.dropLast) :=
  roundRobin_requeue_order 1
    { p := [mkProcess 1 0 3, mkProcess 2 1 2], readyQueue := [0],
      mark := [true, false], currentTime := 0, completed := 0 } 0 [] rfl (by decide)
    (by decide)

/-- C19. For every non-empty list with positive bursts, `remainingTime` equal to the
burst, and every positive quantum: whenever, in an iteration of `roundRobin`, the queue is
empty before the idle-gap block while some index is unmarked, the block admits exactly one
index (the queue becomes that single index and only its mark is set); this index is
the lowest unmarked one and has the least arrival time among the unmarked; and the clock
is set to its arrival time, which is strictly greater than the clock value before. -/
theorem roundRobin_idle_gap (srt : List Process → List Process)
    (hsrt : SortsByArrival srt) (p : List Process) (quantum : Int) (hne : p ≠ [])
    (hvalid : ∀ x ∈ p, 0 < x.burstTime ∧ x.remainingTime = x.burstTime)
    (hquantum : 0 < quantum) :
    ∃ s0, rrInit srt p = some s0 ∧
      ∀ k s m, rrAfter quantum k s0 = some s → rrBody quantum s = some m →
        m.readyQueue = [] → (∃ j < p.length, m.mark.getD j true = false) →
        ∃ j, j < p.length ∧ m.mark.getD j true = false ∧
          (∀ j' < p.length, m.mark.getD j' true = false →
            j ≤ j' ∧
            (m.p.getD j default).arrivalTime ≤ (m.p.getD j' default).arrivalTime) ∧
          m.currentTime < (m.p.getD j default).arrivalTime ∧
          rrIdle m = { m with readyQueue := [j], mark := m.mark.set j true,
                              currentTime := (m.p.getD j default).arrivalTime } := by
  have hrem : ∀ x ∈ p, 0 < x.remainingTime := fun x hx => by
    rw [(hvalid x hx).2]; exact (hvalid x hx).1
  obtain ⟨s0, hinit, inv0, hq0, hp0, hc0, _⟩ := rrInit_inv hsrt hne hrem
  have hready : s0.completed ≠ s0.p.length → s0.readyQueue ≠ [] := by
    intro _; rw [hq0]; exact List.cons_ne_nil _ _
  refine ⟨s0, hinit, ?_⟩
  intro k s m hk hbody hempty hun
  obtain ⟨inv, _, hstatic⟩ := rrAfter_inv hquantum inv0 hready k s hk
  have hstatic' : m.p.map staticOf = (srt p).map staticOf := by
    rw [rrBody_static hbody, hstatic, hp0]
  have hlen : m.p.length = p.length := by
    have := congrArg List.length hstatic'
    simp only [List.length_map] at this
    rw [this, (hsrt p).1.length_eq]
  have harr : m.p.map Process.arrivalTime = (srt p).map Process.arrivalTime := by
    have := congrArg (List.map (fun t : Int × Int × Int => t.2.1)) hstatic'
    simpa [List.map_map, Function.comp_def, staticOf] using this
  have hsorted : (m.p.map Process.arrivalTime).Pairwise (· ≤ ·) := by
    rw [harr, List.pairwise_map]
    exact (hsrt p).2.imp (fun {a b} h => (arrivalLE_iff a b).mp h)
  have minv := rrBody_inv inv hbody
  obtain ⟨j, hj, hjm, hmin, hidle⟩ := rrIdle_gap minv hempty hsorted (hlen ▸ hun)
  exact ⟨j, hlen ▸ hj, hjm, fun j' hj' hm' => hmin j' (hlen ▸ hj') hm',
    rrBody_unmarked_later hbody j hj hjm, hidle⟩

/-- Witness for C19 on the list `(0, 1), (5, 1)` with quantum 1, where the queue is empty
after the first slice and P2 arrives at 5. -/
theorem roundRobin_idle_gap_witness :
    ∃ s0, rrInit sortByArrival [mkProcess 1 0 1, mkProcess 2 5 1] = some s0 ∧
      ∀ k s m, rrAfter 1 k s0 = some s → rrBody 1 s = some m →
        m.readyQueue = [] →
        (∃ j < [mkProcess 1 0 1, mkProcess 2 5 1].length, m.mark.getD j true = false) →
        ∃ j, j < [mkProcess 1 0 1, mkProcess 2 5 1].length ∧ m.mark.getD j true = false ∧
          (∀ j' < [mkProcess 1 0 1, mkProcess 2 5 1].length, m.mark.getD j' true = false →
            j ≤ j' ∧
            (m.p.getD j default).arrivalTime ≤ (m.p.getD j' default).arrivalTime) ∧
          m.currentTime < (m.p.getD j default).arrivalTime ∧
          rrIdle m = { m with readyQueue := [j], mark := m.mark.set j true,
                              currentTime := (m.p.getD j default).arrivalTime } :=
  roundRobin_idle_gap sortByArrival sortByArrival_sorts
    [mkProcess 1 0 1, mkProcess 2 5 1] 1 (by decide) (by decide) (by decide)

/-! ### Round Robin: service accounting -/

/-- C16. For every non-empty list with positive bursts, `remainingTime` equal to the
burst, and every positive quantum: in every iteration of `roundRobin` the front process
runs for `min(remainingTime, quantum)` units, its `remainingTime` drops and the clock
advances by that amount; every slice granted has at least 1 and at most `quantum` units;
the slices granted to each process sum to its burst; and when the loop returns every
process has `remainingTime` 0 and a completion time equal to the clock value at the end
of its last slice. -/
theorem roundRobin_service_accounting (srt : List Process → List Process)
    (hsrt : SortsByArrival srt) (p : List Process) (quantum : Int) (hne : p ≠ [])
    (hvalid : ∀ x ∈ p, 0 < x.burstTime ∧ x.remainingTime = x.burstTime)
    (hquantum : 0 < quantum) :
    ∃ s0 s, rrInit srt p = some s0 ∧ rrLoop quantum (remTotal p) s0 = some s ∧
      (∀ k st, rrAfter quantum k s0 = some st → st.completed ≠ st.p.length →
        ∃ i rest m, st.readyQueue = i :: rest ∧ rrBody quantum st = some m ∧
          rrSliceAt quantum st
            = some { index := i
                     units := min (st.p.getD i default).remainingTime quantum
                     endTime := m.currentTime } ∧
          (m.p.getD i default).remainingTime
            = (st.p.getD i default).remainingTime
              - min (st.p.getD i default).remainingTime quantum ∧
          m.currentTime
            = st.currentTime + min (st.p.getD i default).remainingTime quantum) ∧
      (∀ e ∈ rrSliceLog quantum (remTotal p) s0, 1 ≤ e.units ∧ e.units ≤ quantum) ∧
      (∀ j < p.length,
        (((rrSliceLog quantum (remTotal p) s0).filter (fun e => e.index = j)).map
            Slice.units).sum = ((srt p).getD j default).burstTime ∧
        (s.p.getD j default).remainingTime = 0 ∧
        (((rrSliceLog quantum (remTotal p) s0).filter (fun e => e.index = j)).getLast?).map
            Slice.endTime = some (s.p.getD j default).completionTime) := by
  have hrem : ∀ x ∈ p, 0 < x.remainingTime := fun x hx => by
    rw [(hvalid x hx).2]; exact (hvalid x hx).1
  obtain ⟨s0, hinit, inv0, hq0, hp0, hc0, _⟩ := rrInit_inv hsrt hne hrem
  have hready : s0.completed ≠ s0.p.length → s0.readyQueue ≠ [] := by
    intro _; rw [hq0]; exact List.cons_ne_nil _ _
  have hlen0 : s0.p.length = p.length := by rw [hp0]; exact (hsrt p).1.length_eq
  have htotal : remTotal s0.p = remTotal p := by
    rw [hp0]
    unfold remTotal
    exact (((hsrt p).1).map _).sum_eq
  obtain ⟨s, hloop, hunits, hacc⟩ :=
    rrSliceLog_accounts hquantum (remTotal p) s0 inv0 hready (le_of_eq htotal)
  refine ⟨s0, s, hinit, hloop, ?_, hunits, ?_⟩
  · intro k st hk hc
    obtain ⟨inv, hrdy, _⟩ := rrAfter_inv hquantum inv0 hready k st hk
    obtain ⟨i, rest, hq⟩ := List.exists_cons_of_ne_nil (hrdy hc)
    have hmem : i ∈ st.readyQueue := by rw [hq]; exact List.mem_cons_self _ _
    have hin := (inv.queue_ok i hmem).1
    obtain ⟨m, hm, htime, _, _, _, _, _, hrec, _⟩ := rrBody_facts quantum hq hin
    refine ⟨i, rest, m, hq, hm, ?_, ?_, htime⟩
    · simp only [rrSliceAt, hq, htime]
    · rw [hrec]
      split <;> rfl
  · intro j hj
    obtain ⟨hsum, _, hlast, hfinal⟩ := hacc j (hlen0 ▸ hj)
    have hmem : s0.p.getD j default ∈ p := by
      have h := getD_mem s0.p default (hlen0 ▸ hj)
      rw [hp0] at h ⊢
      exact (hsrt p).1.mem_iff.mp h
    have hpos : 0 < (s0.p.getD j default).remainingTime := hrem _ hmem
    refine ⟨?_, hfinal, hlast hpos⟩
    rw [hsum, (hvalid _ hmem).2, hp0]

/-- Witness for C16 on the list `(0, 3), (1, 2)` with quantum 2. -/
theorem roundRobin_service_accounting_witness :
    ∃ s0 s, rrInit sortByArrival [mkProcess 1 0 3, mkProcess 2 1 2] = some s0 ∧
      rrLoop 2 (remTotal [mkProcess 1 0 3, mkProcess 2 1 2]) s0 = some s ∧
      (∀ k st, rrAfter 2 k s0 = some st → st.completed ≠ st.p.length →
        ∃ i rest m, st.readyQueue = i :: rest ∧ rrBody 2 st = some m ∧
          rrSliceAt 2 st
            = some { index := i
                     units := min (st.p.getD i default).remainingTime 2
                     endTime := m.currentTime } ∧
          (m.p.getD i default).remainingTime
            = (st.p.getD i default).remainingTime
              - min (st.p.getD i default).remainingTime 2 ∧
          m.currentTime = st.currentTime + min (st.p.getD i default).remainingTime 2) ∧
      (∀ e ∈ rrSliceLog 2 (remTotal [mkProcess 1 0 3, mkProcess 2 1 2]) s0,
        1 ≤ e.units ∧ e.units ≤ 2) ∧
      (∀ j < [mkProcess 1 0 3, mkProcess 2 1 2].length,
        (((rrSliceLog 2 (remTotal [mkProcess 1 0 3, mkProcess 2 1 2]) s0).filter
            (fun e => e.index = j)).map Slice.units).sum
          = ((sortByArrival [mkProcess 1 0 3, mkProcess 2 1 2]).getD j default).burstTime ∧
        (s.p.getD j default).remainingTime = 0 ∧
        (((rrSliceLog 2 (remTotal [mkProcess 1 0 3, mkProcess 2 1 2]) s0).filter
            (fun e => e.index = j)).getLast?).map Slice.endTime
          = some (s.p.getD j default).completionTime) :=
  roundRobin_service_accounting sortByArrival sortByArrival_sorts
    [mkProcess 1 0 3, mkProcess 2 1 2] 2 (by decide) (by decide) (by decide)

/-! ### The order of the result tables -/

/-- C11, counterexample. On `(id 1, 5, 1), (id 2, 0, 1)` the vectors that `fcfs` and
`roundRobin` hand to `displayResults` list P2 before P1, not in id order. -/
theorem fcfs_table_not_in_id_order :
    (fcfs sortByArrival [mkProcess 1 5 1, mkProcess 2 0 1]).map Process.id = [2, 1] ∧
      (roundRobin sortByArrival 2 [mkProcess 1 5 1, mkProcess 2 0 1] 1).map
          (List.map Process.id) = some [2, 1] ∧
      [mkProcess 1 5 1, mkProcess 2 0 1].map Process.id = [1, 2] := by
  decide

/-- C11, amended. The vector `sjf` hands to `displayResults` lists the processes in input
(id) order.  The vectors `fcfs` and `roundRobin` hand over list the processes in the order
the arrival sort leaves them, which is by non-decreasing arrival time; this is the input
order when the input is listed in strictly increasing arrival order. -/
theorem result_table_order (srt : List Process → List Process) (hsrt : SortsByArrival srt)
    (p : List Process) (quantum : Int) :
    (∀ fuel r, sjf fuel p = some r → r.map Process.id = p.map Process.id) ∧
    ((fcfs srt p).map Process.id = (srt p).map Process.id ∧
      (fcfs srt p).Sorted arrivalLE) ∧
    (∀ fuel r, roundRobin srt fuel p quantum = some r →
      r.map Process.id = (srt p).map Process.id ∧ r.Sorted arrivalLE) ∧
    ((p.map Process.arrivalTime).Pairwise (· < ·) → srt p = p) := by
  refine ⟨?_, ⟨?_, ?_⟩, ?_, ?_⟩
  · intro fuel r hr
    exact map_id_of_static (sjf_static hr)
  · exact fcfsLoop_map_id _ _
  · exact fcfsLoop_sorted _ (hsrt p).2 _
  · intro fuel r hr
    have h := roundRobin_static hr
    exact ⟨map_id_of_static h, sorted_of_static h (hsrt p).2⟩
  · intro hinc
    have hnodup : (p.map Process.arrivalTime).Nodup :=
      hinc.imp (fun {a b} hab => ne_of_lt hab)
    have hsorted : p.Sorted arrivalLE := by
      rw [List.pairwise_map] at hinc
      exact hinc.imp (fun {a b} hab => (arrivalLE_iff a b).mpr (le_of_lt hab))
    rw [srt_eq_sortByArrival hsrt hnodup]
    exact List.Sorted.insertionSort_eq hsorted

/-- Witness for the amended C11 on `(id 1, 5, 1), (id 2, 0, 1)`. -/
theorem result_table_order_witness :
    (fcfs sortByArrival [mkProcess 1 5 1, mkProcess 2 0 1]).map Process.id
        = (sortByArrival [mkProcess 1 5 1, mkProcess 2 0 1]).map Process.id ∧
      (fcfs sortByArrival [mkProcess 1 5 1, mkProcess 2 0 1]).Sorted arrivalLE :=
  (result_table_order sortByArrival sortByArrival_sorts
    [mkProcess 1 5 1, mkProcess 2 0 1] 1).2.1

/-! ### Input validation -/

theorem fcfsLoop32_length (l : List Process) :
    ∀ t : Int, (fcfsLoop32 l t).length = l.length := by
  induction l with
  | nil => intro t; rfl
  | cons x rest ih => intro t; simp [fcfsLoop32, ih]

theorem readProcesses_length (n : Int) (rows : Nat → Int × Int) :
    (readProcesses n rows).length = n.toNat := by
  simp [readProcesses]

/-- A loop body that leaves a state with work left as it is keeps the loop of
`roundRobin` running for every budget of iterations. -/
theorem rrLoop32_running_of_fixed {quantum : Int} {s : RRState}
    (hstep : rrStep32 quantum s = some s) (hc : s.completed ≠ s.p.length) :
    ∀ fuel, rrLoop32 quantum fuel s = Outcome.running := by
  intro fuel
  induction fuel with
  | zero => rw [rrLoop32, if_neg hc]
  | succ fuel ih => rw [rrLoop32, if_neg hc, hstep]; exact ih

/-- When the loop body leaves the entry state, with work left, as it is, the call of
`roundRobin` is still in its loop after every budget of iterations. -/
theorem roundRobin32_running_of_fixed {srt : List Process → List Process}
    {p : List Process} {quantum : Int} (s0 : RRState) (hinit : rrInit srt p = some s0)
    (hstep : rrStep32 quantum s0 = some s0) (hc : s0.completed ≠ s0.p.length) :
    ∀ fuel, roundRobin32 srt fuel p quantum = Outcome.running := by
  intro fuel
  unfold roundRobin32
  rw [hinit]
  dsimp only
  rw [rrLoop32_running_of_fixed hstep hc fuel]

/-- C12, counterexample. `main` rejects none of the three invalid inputs.  With no process
at all (`n = 0`) `fcfs` and `sjf` return after handing over an empty table and
`roundRobin` is called and writes `mark[0]` of an empty vector.  With one process of
burst 0 all three engines return, each after handing over its table.  With one process
`(0, 2)` and quantum 0 `fcfs` and `sjf` return after handing over their tables and
`roundRobin` is called and never leaves its loop. -/
theorem main_runs_engines_on_invalid_input :
    main sortByArrival 100 3 0 (fun _ => (0, 0)) 1
        = some [("FCFS", Outcome.returned []), ("SJF", Outcome.returned []),
                ("Round Robin", Outcome.undefinedAccess)] ∧
      main sortByArrival 100 3 1 (fun _ => (0, 0)) 1
        = some [("FCFS", Outcome.returned [mkProcess 1 0 0]),
                ("SJF", Outcome.returned [mkProcess 1 0 0]),
                ("Round Robin", Outcome.returned [mkProcess 1 0 0])] ∧
      main sortByArrival 100 3 1 (fun _ => (0, 2)) 0
        = some [("FCFS", Outcome.returned [finish (mkProcess 1 0 2) 2]),
                ("SJF", Outcome.returned [finish (mkProcess 1 0 2) 2]),
                ("Round Robin", Outcome.running)] ∧
      (∀ fuel, roundRobin32 sortByArrival fuel [mkProcess 1 0 2] 0 = Outcome.running) := by
  refine ⟨by decide, by decide, by decide, ?_⟩
  exact roundRobin32_running_of_fixed
    { p := [mkProcess 1 0 2], readyQueue := [0], mark := [true],
      currentTime := 0, completed := 0 }
    (by decide) (by decide) (by decide)

/-- C12, amended. `main` has no path that signals an invalid input and tests neither `n`
nor a burst nor the quantum.  For every count `n ≥ 0` whose vector can be allocated, all
rows and every quantum, also with `n = 0`, with bursts that are not positive or with a
quantum that is not positive, `main` builds the vector of `n` processes and calls `fcfs`
on it, which returns after handing `displayResults` a table with one record per process;
it then calls `sjf` on the same vector and, once `sjf` has returned, `roundRobin` on the
same vector with the quantum read.  With `n = 0` the tables of `fcfs` and `sjf` are empty
and `roundRobin` writes `mark[0]` of an empty vector.  With `n < 0`, or when the vector
cannot be allocated, the vector constructor throws before any engine is called. -/
theorem main_runs_every_engine (srt : List Process → List Process)
    (hsrt : SortsByArrival srt) (capacity fuel : Nat) (n : Int) (rows : Nat → Int × Int)
    (quantum : Int) :
    (n < 0 ∨ capacity < n.toNat → main srt capacity fuel n rows quantum = none) ∧
    (0 ≤ n → n.toNat ≤ capacity →
      (readProcesses n rows).length = n.toNat ∧
      (fcfs32 srt (readProcesses n rows)).length = n.toNat ∧
      (∀ r, sjf32 fuel (readProcesses n rows) = some r →
        main srt capacity fuel n rows quantum
          = some [("FCFS", Outcome.returned (fcfs32 srt (readProcesses n rows))),
                  ("SJF", Outcome.returned r),
                  ("Round Robin",
                    roundRobin32 srt fuel (readProcesses n rows) quantum)]) ∧
      (sjf32 fuel (readProcesses n rows) = none →
        main srt capacity fuel n rows quantum
          = some [("FCFS", Outcome.returned (fcfs32 srt (readProcesses n rows))),
                  ("SJF", Outcome.running)])) ∧
    (n = 0 →
      main srt capacity fuel n rows quantum
        = some [("FCFS", Outcome.returned []), ("SJF", Outcome.returned []),
                ("Round Robin", Outcome.undefinedAccess)]) := by
  refine ⟨?_, ?_, ?_⟩
  · intro hn
    unfold main
    rw [if_pos hn]
  · intro hn hcap
    have hbuilt : ¬ (n < 0 ∨ capacity < n.toNat) := by omega
    refine ⟨readProcesses_length n rows, ?_, ?_, ?_⟩
    · unfold fcfs32
      rw [fcfsLoop32_length, (hsrt _).1.length_eq, readProcesses_length]
    · intro r hr
      unfold main
      rw [if_neg hbuilt, hr]
    · intro hr
      unfold main
      rw [if_neg hbuilt, hr]
  · intro hn
    subst hn
    have hbuilt : ¬ ((0 : Int) < 0 ∨ capacity < (0 : Int).toNat) := by
      simp
    have hp : readProcesses 0 rows = [] := rfl
    have hs : srt [] = [] := List.Perm.eq_nil (hsrt []).1
    have hsjf : sjf32 fuel [] = some [] := by
      cases fuel <;> rfl
    unfold main
    rw [if_neg hbuilt, hp, hsjf]
    unfold fcfs32 roundRobin32 rrInit
    rw [hs]
    rfl

/-- Witness for the amended C12 with the insertion sort, on the count 1, the row
`(0, -1)` and quantum 0: all three engines are called. -/
theorem main_runs_every_engine_witness :
    (readProcesses 1 (fun _ => (0, -1))).length = (1 : Int).toNat ∧
      (fcfs32 sortByArrival (readProcesses 1 (fun _ => (0, -1)))).length = (1 : Int).toNat ∧
      main sortByArrival 100 3 1 (fun _ => (0, -1)) 0
        = some [("FCFS",
                  Outcome.returned (fcfs32 sortByArrival (readProcesses 1 (fun _ => (0, -1))))),
                ("SJF", Outcome.returned [finish (mkProcess 1 0 (-1)) (-1)]),
                ("Round Robin",
                  roundRobin32 sortByArrival 3 (readProcesses 1 (fun _ => (0, -1))) 0)] :=
  ⟨((main_runs_every_engine sortByArrival sortByArrival_sorts 100 3 1 (fun _ => (0, -1)) 0).2.1
      (by decide) (by decide)).1,
   ((main_runs_every_engine sortByArrival sortByArrival_sorts 100 3 1 (fun _ => (0, -1)) 0).2.1
      (by decide) (by decide)).2.1,
   ((main_runs_every_engine sortByArrival sortByArrival_sorts 100 3 1 (fun _ => (0, -1)) 0).2.1
      (by decide) (by decide)).2.2.1 _ (by decide)⟩
/-! ### The tie-break of the arrival sort -/

/-- C14. On seventeen processes that all arrive at time 0, the arrangement the library
sort leaves is a rearrangement of the input in arrival order, as its contract demands, but
not the input order; the `fcfs` loop over it completes P9 first and P1 tenth, so a lower
id does not mean an earlier completion among equal arrival times. -/
theorem fcfs_seventeen_equal_arrivals :
    seventeenAsSorted.Perm seventeenAtZero ∧
      seventeenAsSorted.Sorted arrivalLE ∧
      arrivingAt 0 seventeenAsSorted ≠ arrivingAt 0 seventeenAtZero ∧
      (fcfsLoop seventeenAsSorted 0).map (fun x => (x.id, x.completionTime))
        = [(9, 1), (17, 2), (16, 3), (15, 4), (14, 5), (13, 6), (12, 7), (11, 8), (10,
           9), (1, 10), (8, 11), (7, 12), (6, 13), (5, 14), (4, 15), (3, 16), (2, 17)] := by
  decide

end CPUScheduler
